import Mathlib

/-!
# Type lowering of the Go code generator (`ygen/goelements.go`)

A shallow embedding of `yangTypeToGoType`, `goUnionType`, `goUnionSubTypes` and
`pathToCamelCaseName`, followed by the properties proved about them.

Conventions of the embedding.

* A Go pointer that may be nil is an `Option`; dereferencing `none` is the outcome
  `Outcome.panics`.
* A Go `(value, error)` result is an `Except String _`: the string is the text of the error.
* A Go map is an association list in insertion order (`mapGet`, `mapSet`); a nil slice and an
  empty slice are both `[]`.
* The enumeration registry (`enumSet`), the schema path index (`schematree`) and the helper
  functions of other packages are fields of `goGenState`; they answer as functions of their
  arguments and hand out fresh values. Every call to the registry or to the path index is
  recorded, in order, in the list of `Call`s returned next to the outcome.
* The recursion of `yangTypeToGoType` through a leaf-reference target is not structural: `fuel`
  is the number of leaf-reference hops that may still be followed, and a hop at `fuel = 0` is
  the outcome `Outcome.diverges`. The recursion through union members is structural.
-/

namespace Ygen

/-! ## Data model -/

/-- Modelled from the spec: the `kind` of a schema type, with the constructor names of
`yang.TypeKind` that the source switches on. -/
inductive TypeKind
  | Ynone | Yint8 | Yint16 | Yint32 | Yint64 | Yuint8 | Yuint16 | Yuint32 | Yuint64
  | Ybinary | Ybits | Ybool | Ydecimal64 | Yempty | Yenum | Yidentityref
  | YinstanceIdentifier | Yleafref | Ystring | Yunion
  deriving DecidableEq, Repr

/-- Modelled from the spec: an identity (the `identityBase` of an identity-reference type),
known to the engine only as the key handed to the registry. -/
structure Identity where
  Name : String
  deriving DecidableEq, Repr

/-- Modelled from the spec: a schema type (`yang.YangType`): `Kind`, the raw default
(`Default`, absent when the schema declares none), the reference path of a leaf-reference
(`Path`), the base of an identity-reference (`IdentityBase`) and the members of a union
(`Types`, the field `Type` of the source). -/
inductive YangType
  | mk (Name : String) (Kind : TypeKind) (Default : Option String) (Path : String)
      (IdentityBase : Option Identity) (Types : List YangType)

/-- Field `Name` of a schema type. -/
def YangType.Name : YangType → String
  | .mk n _ _ _ _ _ => n

/-- Field `Kind` of a schema type. -/
def YangType.Kind : YangType → TypeKind
  | .mk _ k _ _ _ _ => k

/-- Field `Default` of a schema type. -/
def YangType.Default : YangType → Option String
  | .mk _ _ d _ _ _ => d

/-- Field `Path` of a schema type. -/
def YangType.Path : YangType → String
  | .mk _ _ _ p _ _ => p

/-- Field `IdentityBase` of a schema type. -/
def YangType.IdentityBase : YangType → Option Identity
  | .mk _ _ _ _ b _ => b

/-- Field `Type` of a schema type: the members of a union. -/
def YangType.Types : YangType → List YangType
  | .mk _ _ _ _ _ ts => ts

/-- Modelled from the spec: a schema element (`yang.Entry`), used as context only: its name,
its type (absent for an element that is not a leaf) and its parent. -/
inductive Entry
  | mk (Name : String) (Typ : Option YangType) (Parent : Option Entry)

/-- Field `Name` of a schema element. -/
def Entry.Name : Entry → String
  | .mk n _ _ => n

/-- Field `Type` of a schema element. -/
def Entry.Typ : Entry → Option YangType
  | .mk _ t _ => t

/-- Field `Parent` of a schema element. -/
def Entry.Parent : Entry → Option Entry
  | .mk _ _ p => p

/-- Modelled from the spec: the output of the engine (`MappedType`): native type name, union
members (name to position index, nil for a type that is not a union), enumerated-ness, zero
value and optional default value. A Go composite literal leaves the fields it does not name
at their zero value. -/
structure MappedType where
  NativeType : String := ""
  UnionTypes : Option (List (String × Nat)) := none
  IsEnumeratedValue : Bool := false
  ZeroValue : String := ""
  DefaultValue : Option String := none
  deriving DecidableEq, Repr

/-- The input of `yangTypeToGoType`: the type to map and the optional context element. -/
structure resolveTypeArgs where
  yangType : Option YangType
  contextEntry : Option Entry

/-- A call made to the registry or to the path index. -/
inductive Call
  | LookupTypedef (yangType : Option YangType) (contextEntry : Option Entry)
  | LookupEnum (yangType : YangType) (contextEntry : Entry)
  | LookupIdentity (base : Option Identity)
  | resolveLeafrefTarget (path : String) (contextEntry : Option Entry)

/-- How a call of a Go function ends: it returns, it aborts on a nil dereference, or the
leaf-reference hops allowed by the fuel are used up. -/
inductive Outcome (α : Type)
  | returns (a : α)
  | panics
  | diverges

/-- The receiver `s` of the source together with the functions of other files and packages
that the engine calls: the registry (`enumSet`), the path index (`schematree`), the formatter
of enumeration defaults and the naming helpers used by `pathToCamelCaseName`. -/
structure goGenState where
  LookupTypedef : Option YangType → Option Entry → Except String (Option MappedType)
  LookupEnum : YangType → Entry → Except String MappedType
  LookupIdentity : Option Identity → Except String MappedType
  resolveLeafrefTarget : String → Option Entry → Except String Entry
  enumDefaultValue : String → String → String → Option String
  IsOCCompressedValidElement : Entry → Bool
  IsChoiceOrCase : Entry → Bool
  EntryCamelCaseName : Option Entry → String
  IsFakeRoot : Option Entry → Bool

/-! ## Constants and small helpers -/

/-- The constant `goEnumPrefix`. -/
def goEnumPrefix : String := "E_"

/-- Modelled from the spec: the fixed binary marker native type, the constant
`ygot.BinaryTypeName`, whose value in the `ygot` package is `Binary`. -/
def BinaryTypeName : String := "Binary"

/-- Modelled from the spec: the fixed presence-marker native type, the constant
`ygot.EmptyTypeName`, whose value in the `ygot` package is `YANGEmpty`. -/
def EmptyTypeName : String := "YANGEmpty"

/-- Reading a Go map: `m[k]` with the `ok` flag as `Option`. -/
def mapGet {κ ν : Type} [DecidableEq κ] (m : List (κ × ν)) (k : κ) : Option ν :=
  (m.find? (fun p => decide (p.1 = k))).map Prod.snd

/-- Writing a Go map: `m[k] = v` replaces the value of a present key and adds an absent one. -/
def mapSet {κ ν : Type} [DecidableEq κ] (m : List (κ × ν)) (k : κ) (v : ν) : List (κ × ν) :=
  if (mapGet m k).isSome then m.map (fun p => if p.1 = k then (k, v) else p)
  else m ++ [(k, v)]

/-- The table `goZeroValues`, in the order of the source. -/
def goZeroValuesTable : List (String × String) :=
  [("int8", "0"), ("int16", "0"), ("int32", "0"), ("int64", "0"),
   ("uint8", "0"), ("uint16", "0"), ("uint32", "0"), ("uint64", "0"),
   ("float64", "0.0"), ("string", "\"\""), ("bool", "false"), ("interface\x7b\x7d", "nil"),
   (BinaryTypeName, "nil"), (EmptyTypeName, "false")]

/-- The lookup `goZeroValues[k]`: the empty string for a key that is not in the table. -/
def goZeroValues (k : String) : String :=
  (mapGet goZeroValuesTable k).getD ""

/-- Modelled from the spec: `genutil.TypeDefaultValue`, the optional raw default of a type
(none for a nil type). -/
def TypeDefaultValue : Option YangType → Option String
  | none => none
  | some t => t.Default

/-- The text of `fmt.Errorf("errors mapping element: %v", errs)`: the errors between
brackets, separated by one space. -/
def errorsMappingElement (errs : List String) : String :=
  "errors mapping element: [" ++ " ".intercalate errs ++ "]"

/-! ## `pathToCamelCaseName` -/

/-- The loop `for element != nil` of `pathToCamelCaseName`: the elements from `element` up to
the root that pass the filter, in that order. -/
def pathElementsLoop (s : goGenState) (compressOCPaths : Bool) :
    Option Entry → List (Option Entry)
  | none => []
  | some (element@(.mk _ _ parent)) =>
    (if (compressOCPaths && s.IsOCCompressedValidElement element)
        || (!compressOCPaths && !s.IsChoiceOrCase element)
      then [some element] else [])
    ++ pathElementsLoop s compressOCPaths parent

/-- The second loop of `pathToCamelCaseName`: the names are written from the last path element
to the first, with an underscore after each one but the one at index 0. -/
def writePathElements (s : goGenState) (pathElements : List (Option Entry)) : String :=
  (List.range pathElements.length).foldl
    (fun buf i =>
      let idx := pathElements.length - 1 - i
      let buf := buf ++ s.EntryCamelCaseName (pathElements.getD idx none)
      if idx ≠ 0 then buf.push '_' else buf)
    ""

/-- The function `pathToCamelCaseName`. -/
def pathToCamelCaseName (s : goGenState) (e : Option Entry) (compressOCPaths genFakeRoot : Bool) :
    String :=
  let pathElements :=
    if genFakeRoot && s.IsFakeRoot e then [e]
    else pathElementsLoop s compressOCPaths e
  writePathElements s pathElements

/-! ## `yangTypeToGoType`, `goUnionType`, `goUnionSubTypes` -/

/-- The typedef branch of `yangTypeToGoType`: the zero value is set to `"0"` and, when the type
declares a default, the default value is set to the formatted default. -/
def typedefMappedType (s : goGenState) (mtype : MappedType) (defVal : Option String) :
    MappedType :=
  let mtype := { mtype with ZeroValue := "0" }
  match defVal with
  | some d => { mtype with DefaultValue := s.enumDefaultValue mtype.NativeType d goEnumPrefix }
  | none => mtype

/-- The enumeration and identity-reference branches of `yangTypeToGoType`: when the type
declares a default, the default value is set to the formatted default; then the zero value is
set to `"0"`. -/
def enumMappedType (s : goGenState) (mtype : MappedType) (defVal : Option String) :
    MappedType :=
  let mtype :=
    match defVal with
    | some d => { mtype with DefaultValue := s.enumDefaultValue mtype.NativeType d goEnumPrefix }
    | none => mtype
  { mtype with ZeroValue := "0" }

/-- The identity-reference branch of `goUnionSubTypes`: the default value is the formatted
default, or nil when the member declares none, and the zero value is `"0"`. -/
def unionIdentityMappedType (s : goGenState) (mtype : MappedType) (subtype : YangType) :
    MappedType :=
  let defVal := TypeDefaultValue (some subtype)
  let defVal :=
    match defVal with
    | some d => s.enumDefaultValue mtype.NativeType d goEnumPrefix
    | none => none
  { mtype with ZeroValue := "0", DefaultValue := defVal }

/-- The end of `goUnionSubTypes`: a native type name that is not yet in `currentTypes` gets
the index `len(currentTypes)` and its mapped type is recorded under that index. -/
def addUnionSubType (mtype : MappedType) (currentTypes : List (String × Nat))
    (unionMappedTypes : List (Nat × MappedType)) :
    List (String × Nat) × List (Nat × MappedType) :=
  match mapGet currentTypes mtype.NativeType with
  | some _ => (currentTypes, unionMappedTypes)
  | none =>
    let index := currentTypes.length
    (mapSet currentTypes mtype.NativeType index, mapSet unionMappedTypes index mtype)

/-- The end of `goUnionType`, after the members were flattened without error: the synthetic
union type, replaced by the only recorded member when there is exactly one, with the union
members attached. -/
def unionResolvedType (s : goGenState) (contextEntry : Option Entry) (compressOCPaths : Bool)
    (unionTypes : List (String × Nat)) (unionMappedTypes : List (Nat × MappedType)) :
    Outcome (Except String MappedType) :=
  let resolvedType : MappedType :=
    { NativeType := pathToCamelCaseName s contextEntry compressOCPaths false ++ "_Union",
      ZeroValue := "nil" }
  if unionMappedTypes.length = 1 then
    match mapGet unionMappedTypes 0 with
    | none => .panics
    | some m => .returns (.ok { m with UnionTypes := some unionTypes })
  else .returns (.ok { resolvedType with UnionTypes := some unionTypes })

mutual
/-- The method `yangTypeToGoType`. -/
def yangTypeToGoType (s : goGenState) (fuel : Nat) (args : resolveTypeArgs)
    (compressOCPaths skipEnumDedup shortenEnumLeafNames : Bool) :
    Outcome (Except String MappedType) × List Call :=
  let defVal := TypeDefaultValue args.yangType
  let lookup := Call.LookupTypedef args.yangType args.contextEntry
  match s.LookupTypedef args.yangType args.contextEntry with
  | .error err => (.returns (.error err), [lookup])
  | .ok (some mtype) => (.returns (.ok (typedefMappedType s mtype defVal)), [lookup])
  | .ok none =>
    match args.yangType with
    | none => (.panics, [lookup])
    | some t =>
      match t.Kind with
      | .Yint8 =>
        (.returns (.ok { NativeType := "int8", ZeroValue := goZeroValues "int8",
                         DefaultValue := defVal }), [lookup])
      | .Yint16 =>
        (.returns (.ok { NativeType := "int16", ZeroValue := goZeroValues "int16",
                         DefaultValue := defVal }), [lookup])
      | .Yint32 =>
        (.returns (.ok { NativeType := "int32", ZeroValue := goZeroValues "int32",
                         DefaultValue := defVal }), [lookup])
      | .Yint64 =>
        (.returns (.ok { NativeType := "int64", ZeroValue := goZeroValues "int64",
                         DefaultValue := defVal }), [lookup])
      | .Yuint8 =>
        (.returns (.ok { NativeType := "uint8", ZeroValue := goZeroValues "uint8",
                         DefaultValue := defVal }), [lookup])
      | .Yuint16 =>
        (.returns (.ok { NativeType := "uint16", ZeroValue := goZeroValues "uint16",
                         DefaultValue := defVal }), [lookup])
      | .Yuint32 =>
        (.returns (.ok { NativeType := "uint32", ZeroValue := goZeroValues "uint32",
                         DefaultValue := defVal }), [lookup])
      | .Yuint64 =>
        (.returns (.ok { NativeType := "uint64", ZeroValue := goZeroValues "uint64",
                         DefaultValue := defVal }), [lookup])
      | .Ybool =>
        (.returns (.ok { NativeType := "bool", ZeroValue := goZeroValues "bool",
                         DefaultValue := defVal }), [lookup])
      | .Yempty =>
        (.returns (.ok { NativeType := EmptyTypeName, ZeroValue := goZeroValues EmptyTypeName }),
          [lookup])
      | .Ystring =>
        (.returns (.ok { NativeType := "string", ZeroValue := goZeroValues "string",
                         DefaultValue := defVal }), [lookup])
      | .Yunion =>
        match goUnionType s fuel args compressOCPaths skipEnumDedup shortenEnumLeafNames with
        | (o, calls) => (o, lookup :: calls)
      | .Yenum =>
        match args.contextEntry with
        | none => (.returns (.error "cannot map enum without context"), [lookup])
        | some contextEntry =>
          match s.LookupEnum t contextEntry with
          | .error err => (.returns (.error err), [lookup, .LookupEnum t contextEntry])
          | .ok mtype =>
            (.returns (.ok (enumMappedType s mtype defVal)), [lookup, .LookupEnum t contextEntry])
      | .Yidentityref =>
        match args.contextEntry with
        | none => (.returns (.error "cannot map identityref without context"), [lookup])
        | some contextEntry =>
          match contextEntry.Typ with
          | none => (.panics, [lookup])
          | some contextType =>
            match s.LookupIdentity contextType.IdentityBase with
            | .error err =>
              (.returns (.error err), [lookup, .LookupIdentity contextType.IdentityBase])
            | .ok mtype =>
              (.returns (.ok (enumMappedType s mtype defVal)),
                [lookup, .LookupIdentity contextType.IdentityBase])
      | .Ydecimal64 =>
        (.returns (.ok { NativeType := "float64", ZeroValue := goZeroValues "float64" }),
          [lookup])
      | .Yleafref =>
        match s.resolveLeafrefTarget t.Path args.contextEntry with
        | .error err =>
          (.returns (.error err), [lookup, .resolveLeafrefTarget t.Path args.contextEntry])
        | .ok target =>
          match fuel with
          | 0 => (.diverges, [lookup, .resolveLeafrefTarget t.Path args.contextEntry])
          | n + 1 =>
            match yangTypeToGoType s n { yangType := target.Typ, contextEntry := some target }
                compressOCPaths skipEnumDedup shortenEnumLeafNames with
            | (o, calls) =>
              (o, lookup :: .resolveLeafrefTarget t.Path args.contextEntry :: calls)
      | .Ybinary =>
        (.returns (.ok { NativeType := BinaryTypeName, ZeroValue := goZeroValues BinaryTypeName,
                         DefaultValue := defVal }), [lookup])
      | _ =>
        (.returns (.ok { NativeType := "interface\x7b\x7d",
                         ZeroValue := goZeroValues "interface\x7b\x7d" }), [lookup])
termination_by (fuel, sizeOf args.yangType, 1)
decreasing_by
  all_goals simp_wf
  · exact Prod.Lex.right _ (Prod.Lex.right _ (by omega))
  · exact Prod.Lex.left _ _ (by omega)
/-- The method `goUnionType`. -/
def goUnionType (s : goGenState) (fuel : Nat) (args : resolveTypeArgs)
    (compressOCPaths skipEnumDedup shortenEnumLeafNames : Bool) :
    Outcome (Except String MappedType) × List Call :=
  match args with
  | { yangType := none, contextEntry := _ } => (.panics, [])
  | { yangType := some t, contextEntry := contextEntry } =>
    match goUnionSubTypesRange s fuel t.Types contextEntry [] [] []
        compressOCPaths skipEnumDedup shortenEnumLeafNames with
    | (.returns (errs, unionTypes, unionMappedTypes), calls) =>
      if errs ≠ [] then (.returns (.error (errorsMappingElement errs)), calls)
      else (unionResolvedType s contextEntry compressOCPaths unionTypes unionMappedTypes, calls)
    | (.panics, calls) => (.panics, calls)
    | (.diverges, calls) => (.diverges, calls)
termination_by (fuel, sizeOf args.yangType, 0)
decreasing_by
  all_goals simp_wf
  have hlt : sizeOf t.Types < sizeOf t := by
    cases t
    simp only [YangType.Types, YangType.mk.sizeOf_spec]
    omega
  exact Prod.Lex.right _ (Prod.Lex.left _ _ (by omega))
/-- The loop `for _, st := range types { errs = append(errs, s.goUnionSubTypes(st, ...)...) }`
that both `goUnionType` and `goUnionSubTypes` run over the members of a union. -/
def goUnionSubTypesRange (s : goGenState) (fuel : Nat) (types : List YangType)
    (ctx : Option Entry) (errs : List String) (currentTypes : List (String × Nat))
    (unionMappedTypes : List (Nat × MappedType))
    (compressOCPaths skipEnumDedup shortenEnumLeafNames : Bool) :
    Outcome (List String × List (String × Nat) × List (Nat × MappedType)) × List Call :=
  match types with
  | [] => (.returns (errs, currentTypes, unionMappedTypes), [])
  | st :: rest =>
    match goUnionSubTypes s fuel st ctx currentTypes unionMappedTypes
        compressOCPaths skipEnumDedup shortenEnumLeafNames with
    | (.returns (errs1, currentTypes1, unionMappedTypes1), calls) =>
      match goUnionSubTypesRange s fuel rest ctx (errs ++ errs1) currentTypes1 unionMappedTypes1
          compressOCPaths skipEnumDedup shortenEnumLeafNames with
      | (o, calls1) => (o, calls ++ calls1)
    | (.panics, calls) => (.panics, calls)
    | (.diverges, calls) => (.diverges, calls)
termination_by (fuel, sizeOf types, 0)
decreasing_by
  all_goals simp_wf
  · have hpos : 0 < sizeOf rest := by cases rest <;> simp
    exact Prod.Lex.right _ (Prod.Lex.left _ _ (by omega))
  · exact Prod.Lex.right _ (Prod.Lex.left _ _ (by omega))
/-- The method `goUnionSubTypes`: the errors it returns and the two maps as it leaves them. -/
def goUnionSubTypes (s : goGenState) (fuel : Nat) (subtype : YangType) (ctx : Option Entry)
    (currentTypes : List (String × Nat)) (unionMappedTypes : List (Nat × MappedType))
    (compressOCPaths skipEnumDedup shortenEnumLeafNames : Bool) :
    Outcome (List String × List (String × Nat) × List (Nat × MappedType)) × List Call :=
  if subtype.Types.length ≠ 0 then
    goUnionSubTypesRange s fuel subtype.Types ctx [] currentTypes unionMappedTypes
      compressOCPaths skipEnumDedup shortenEnumLeafNames
  else
    match subtype.Kind with
    | .Yidentityref =>
      match s.LookupIdentity subtype.IdentityBase with
      | .error err =>
        (.returns ([err], currentTypes, unionMappedTypes),
          [.LookupIdentity subtype.IdentityBase])
      | .ok mtype =>
        (.returns ([], addUnionSubType (unionIdentityMappedType s mtype subtype)
            currentTypes unionMappedTypes),
          [.LookupIdentity subtype.IdentityBase])
    | _ =>
      match yangTypeToGoType s fuel { yangType := some subtype, contextEntry := ctx }
          compressOCPaths skipEnumDedup shortenEnumLeafNames with
      | (.returns (.error err), calls) =>
        (.returns ([err], currentTypes, unionMappedTypes), calls)
      | (.returns (.ok mtype), calls) =>
        (.returns ([], addUnionSubType mtype currentTypes unionMappedTypes), calls)
      | (.panics, calls) => (.panics, calls)
      | (.diverges, calls) => (.diverges, calls)
termination_by (fuel, sizeOf (some subtype), 2)
decreasing_by
  all_goals simp_wf
  · have hlt : sizeOf subtype.Types < sizeOf subtype := by
      cases subtype
      simp only [YangType.Types, YangType.mk.sizeOf_spec]
      omega
    exact Prod.Lex.right _ (Prod.Lex.left _ _ (by omega))
  · exact Prod.Lex.right _ (Prod.Lex.right _ (by omega))
end

/-! ## Definitions used to state the properties -/

/-- Calls made before a run, put in front of the calls of the run. -/
def withCalls {α : Type} (calls : List Call) (r : Outcome α × List Call) :
    Outcome α × List Call :=
  (r.1, calls ++ r.2)

/-- What `goUnionSubTypes` does to obtain the mapped type of one member that is not a union (its
`switch subtype.Kind`): an identity-reference is looked up by the base of the member, every
other kind goes through `yangTypeToGoType` with the context of the union. -/
def resolveUnionMember (s : goGenState) (fuel : Nat) (subtype : YangType) (ctx : Option Entry)
    (compressOCPaths skipEnumDedup shortenEnumLeafNames : Bool) :
    Outcome (Except String MappedType) × List Call :=
  match subtype.Kind with
  | .Yidentityref =>
    match s.LookupIdentity subtype.IdentityBase with
    | .error err => (.returns (.error err), [.LookupIdentity subtype.IdentityBase])
    | .ok mtype =>
      (.returns (.ok (unionIdentityMappedType s mtype subtype)),
        [.LookupIdentity subtype.IdentityBase])
  | _ =>
    yangTypeToGoType s fuel { yangType := some subtype, contextEntry := ctx }
      compressOCPaths skipEnumDedup shortenEnumLeafNames

mutual
/-- The members of a member tree that `goUnionSubTypes` does not descend into (those whose
field `Type` is empty), depth first. -/
def unionLeaves : YangType → List YangType
  | .mk n k d p b [] => [.mk n k d p b []]
  | .mk _ _ _ _ _ (t :: ts) => unionLeavesList (t :: ts)
/-- The leaves of a list of member trees, depth first. -/
def unionLeavesList : List YangType → List YangType
  | [] => []
  | t :: ts => unionLeaves t ++ unionLeavesList ts
end

/-- The flat counterpart of `goUnionSubTypesRange`: the members of a list without nesting are
resolved one after the other, an error is appended to `errs` and a mapped type is recorded by
`addUnionSubType`. -/
def foldUnionMembers (s : goGenState) (fuel : Nat) (leaves : List YangType) (ctx : Option Entry)
    (errs : List String) (currentTypes : List (String × Nat))
    (unionMappedTypes : List (Nat × MappedType))
    (compressOCPaths skipEnumDedup shortenEnumLeafNames : Bool) :
    Outcome (List String × List (String × Nat) × List (Nat × MappedType)) × List Call :=
  match leaves with
  | [] => (.returns (errs, currentTypes, unionMappedTypes), [])
  | l :: rest =>
    match resolveUnionMember s fuel l ctx compressOCPaths skipEnumDedup shortenEnumLeafNames with
    | (.returns (.error err), calls) =>
      withCalls calls (foldUnionMembers s fuel rest ctx (errs ++ [err]) currentTypes
        unionMappedTypes compressOCPaths skipEnumDedup shortenEnumLeafNames)
    | (.returns (.ok mtype), calls) =>
      withCalls calls (foldUnionMembers s fuel rest ctx errs
        (addUnionSubType mtype currentTypes unionMappedTypes).1
        (addUnionSubType mtype currentTypes unionMappedTypes).2
        compressOCPaths skipEnumDedup shortenEnumLeafNames)
    | (.panics, calls) => (.panics, calls)
    | (.diverges, calls) => (.diverges, calls)

/-- The first mapped type of every native type name, in the order of first occurrence. -/
def firstByName : List MappedType → List MappedType
  | [] => []
  | m :: ms => m :: (firstByName ms).filter (fun x => decide (x.NativeType ≠ m.NativeType))

/-- The union members of a list of resolved members: the distinct native type names, each
with the rank of its first occurrence. -/
def unionTypesOf (ms : List MappedType) : List (String × Nat) :=
  ((firstByName ms).map (fun m => m.NativeType)).zip (List.range (firstByName ms).length)

/-- The mapped type recorded at every position: the first member of that native type name. -/
def unionMappedTypesOf (ms : List MappedType) : List (Nat × MappedType) :=
  (List.range (firstByName ms).length).zip (firstByName ms)

/-- The errors among the results of the members, in order. -/
def errorsOf : List (Except String MappedType) → List String
  | [] => []
  | .error err :: rs => err :: errorsOf rs
  | .ok _ :: rs => errorsOf rs

/-- The mapped types among the results of the members, in order. -/
def mappedTypesOf : List (Except String MappedType) → List MappedType
  | [] => []
  | .error _ :: rs => mappedTypesOf rs
  | .ok m :: rs => m :: mappedTypesOf rs

/-- The calls made while the members of a flat list are resolved one after the other. -/
def unionMemberCalls (s : goGenState) (fuel : Nat) (ctx : Option Entry)
    (compressOCPaths skipEnumDedup shortenEnumLeafNames : Bool) : List YangType → List Call
  | [] => []
  | l :: rest =>
    (resolveUnionMember s fuel l ctx compressOCPaths skipEnumDedup shortenEnumLeafNames).2
      ++ unionMemberCalls s fuel ctx compressOCPaths skipEnumDedup shortenEnumLeafNames rest

/-- The table of the scalar kinds as the spec words it: the kind, its fixed native type name and
its fixed zero literal (`Binary` is the binary marker type). -/
def primitiveTable : List (TypeKind × String × String) :=
  [(.Yint8, "int8", "0"), (.Yint16, "int16", "0"), (.Yint32, "int32", "0"),
   (.Yint64, "int64", "0"), (.Yuint8, "uint8", "0"), (.Yuint16, "uint16", "0"),
   (.Yuint32, "uint32", "0"), (.Yuint64, "uint64", "0"), (.Ybool, "bool", "false"),
   (.Ystring, "string", "\"\""), (.Ybinary, "Binary", "nil")]

/-- The kinds that the `switch` of `yangTypeToGoType` names in a `case`. -/
def handledKinds : List TypeKind :=
  [.Yint8, .Yint16, .Yint32, .Yint64, .Yuint8, .Yuint16, .Yuint32, .Yuint64, .Ybool, .Yempty,
   .Ystring, .Yunion, .Yenum, .Yidentityref, .Ydecimal64, .Yleafref, .Ybinary]

/-- Whether the collaborator answers a recorded call with an error. -/
def Call.failed (s : goGenState) : Call → Bool
  | .LookupTypedef t c =>
    match s.LookupTypedef t c with
    | .error _ => true
    | .ok _ => false
  | .LookupEnum t c =>
    match s.LookupEnum t c with
    | .error _ => true
    | .ok _ => false
  | .LookupIdentity base =>
    match s.LookupIdentity base with
    | .error _ => true
    | .ok _ => false
  | .resolveLeafrefTarget path c =>
    match s.resolveLeafrefTarget path c with
    | .error _ => true
    | .ok _ => false

/-! ## Specification-side definitions for `pathToCamelCaseName` -/

/-- The element `e` and its ancestors, from the outermost ancestor down to `e`. -/
def ancestorsRootFirst : Option Entry → List Entry
  | none => []
  | some (e@(.mk _ _ parent)) => ancestorsRootFirst parent ++ [e]

/-- Whether an element is included in a path name: with path compression the valid compressed
elements, without it the elements that are not choice or case nodes. -/
def includedInPathName (s : goGenState) (compressOCPaths : Bool) (e : Entry) : Bool :=
  if compressOCPaths then s.IsOCCompressedValidElement e else !s.IsChoiceOrCase e

/-- The camel-case names of the included elements among `e` and its ancestors, from the
outermost one down to `e`. -/
def pathNamesRootFirst (s : goGenState) (compressOCPaths : Bool) (e : Option Entry) :
    List String :=
  ((ancestorsRootFirst e).filter (includedInPathName s compressOCPaths)).map
    (fun x => s.EntryCamelCaseName (some x))

/-- The text written for the path elements `l` when each of them is followed by an underscore,
the last element first. -/
def writeTail {α : Type} (name : α → String) (d : α) (l : List α) : String :=
  (List.range l.length).foldr (fun i buf => (buf ++ name (l.getD i d)).push '_') ""

/-! ## The enumeration Registry, from the specification -/

/-- Modelled from the spec: the schema path of an element, `/if/mode` for the leaf `mode` in
the container `if`; the function that computes schema paths is not part of the sources. -/
def Entry.Path : Entry → String
  | .mk name _ none => "/" ++ name
  | .mk name _ (some parent) => Entry.Path parent ++ "/" ++ name

/-- Modelled from the spec: the loop that makes a name unique among the names already
assigned, by appending underscores while the name is in use; the naming code of the Registry is
not part of the sources. -/
def makeNameUniqueLoop (used : List String) : Nat → String → String
  | 0, name => name
  | fuel + 1, name =>
    if name ∈ used then makeNameUniqueLoop used fuel (name ++ "_") else name

/-- Modelled from the spec: a name made unique among the names already assigned; as many
rounds as there are assigned names suffice (`makeNameUnique_not_mem`). -/
def makeNameUnique (used : List String) (name : String) : String :=
  makeNameUniqueLoop used used.length name

/-- The used names that start with `name`. -/
def usedWithPrefix (used : List String) (name : String) : List String :=
  used.filter (fun u => name.data.isPrefixOf u.data)

/-- Modelled from the spec: the Registry's `lookupEnum` in a run with `skipEnumDedup = true`,
whose code is not part of the sources. The entries are keyed by the schema path of the context
element and hold the assigned native type name, in insertion order. A first lookup of a path
assigns a name made unique among the assigned names, from the seed given by the local leaf name
(`shortenEnumLeafNames`) or the full path name, and adds the entry; a repeated lookup returns
the assigned name. -/
def registryLookupEnum (s : goGenState) (compressOCPaths shortenEnumLeafNames : Bool)
    (reg : List (String × String)) (c : Entry) : MappedType × List (String × String) :=
  match mapGet reg c.Path with
  | some name => ({ NativeType := name, IsEnumeratedValue := true }, reg)
  | none =>
    let seed :=
      if shortenEnumLeafNames then s.EntryCamelCaseName (some c)
      else pathToCamelCaseName s (some c) compressOCPaths false
    let name := makeNameUnique (reg.map Prod.snd) seed
    ({ NativeType := name, IsEnumeratedValue := true }, mapSet reg c.Path name)

/-- Modelled from the spec: the generator state whose enumeration lookup answers from the
Registry entries `reg`. -/
def withEnumRegistry (s : goGenState) (compressOCPaths shortenEnumLeafNames : Bool)
    (reg : List (String × String)) : goGenState :=
  { s with
    LookupEnum := fun _ c =>
      .ok (registryLookupEnum s compressOCPaths shortenEnumLeafNames reg c).1 }

/-! ## Specification-side definitions for chains of leaf-references -/

/-- One hop of a chain of leaf-reference targets: from a leaf-reference type, or from a union
that has a leaf-reference among the members it is flattened to, resolved in the context `c`,
to the type and the element of the target that the path index returns. -/
inductive leafrefStep (s : goGenState) : resolveTypeArgs → resolveTypeArgs → Prop
  | direct (t : YangType) (c : Option Entry) (target : Entry) :
      t.Kind = .Yleafref → s.resolveLeafrefTarget t.Path c = .ok target →
      leafrefStep s ⟨some t, c⟩ ⟨target.Typ, some target⟩
  | member (t l : YangType) (c : Option Entry) (target : Entry) :
      t.Kind = .Yunion → l ∈ unionLeavesList t.Types → l.Kind = .Yleafref →
      s.resolveLeafrefTarget l.Path c = .ok target →
      leafrefStep s ⟨some t, c⟩ ⟨target.Typ, some target⟩

/-- Every chain of leaf-reference targets that starts at `args` is finite: `args` is
accessible for the hops taken backwards. -/
def finiteLeafrefChains (s : goGenState) (args : resolveTypeArgs) : Prop :=
  Acc (fun b a => leafrefStep s a b) args

/-! ## Example schemas -/

/-- The type `int8`. -/
def exampleInt8 : YangType := .mk "int8" .Yint8 none "" none []

/-- The type `string`. -/
def exampleString : YangType := .mk "string" .Ystring none "" none []

/-- An enumeration type with the raw default `UP`. -/
def exampleEnum : YangType := .mk "enumeration" .Yenum (some "UP") "" none []

/-- An enumeration type without a default. -/
def exampleEnumNoDefault : YangType := .mk "enumeration" .Yenum none "" none []

/-- A typedef named `mode-type` that wraps an enumeration, with the raw default `UP`. -/
def exampleModeTypedef : YangType := .mk "mode-type" .Yenum (some "UP") "" none []

/-- An identity-reference with the given base and raw default. -/
def exampleIdentityref (base : String) (dflt : Option String) : YangType :=
  .mk "identityref" .Yidentityref dflt "" (some { Name := base }) []

/-- A leaf-reference with the path `../counter` and the given raw default. -/
def exampleLeafref (dflt : Option String) : YangType :=
  .mk "leafref" .Yleafref dflt "../counter" none []

/-- A union with the given members. -/
def exampleUnion (members : List YangType) : YangType :=
  .mk "union" .Yunion none "" none members

/-- The container `/a`. -/
def exampleEntryA : Entry := .mk "a" none none

/-- The leaf `/a/b`. -/
def exampleEntryAB : Entry := .mk "b" none (some exampleEntryA)

/-- The leaf `/a/counter` of type `int8` with the raw default `7`. -/
def exampleCounter : Entry :=
  .mk "counter" (some (.mk "int8" .Yint8 (some "7") "" none [])) (some exampleEntryA)

/-- The container `/if`. -/
def exampleEntryIf : Entry := .mk "if" none none

/-- The leaf `/if/mode`, an enumeration with the raw default `UP`. -/
def exampleMode : Entry := .mk "mode" (some exampleEnum) (some exampleEntryIf)

/-- A leaf `/if/kind` whose type is an identity-reference with the base `B`. -/
def exampleKindB : Entry :=
  .mk "kind" (some (exampleIdentityref "B" none)) (some exampleEntryIf)

/-- A registry, path index and helpers for the examples: the typedef `mode-type` and the leaf
`mode` are enumerations named `E_ModeType` and `If_Mode`, an identity with base `X` is named
`E_X`, the path `../counter` leads to `/a/counter`, a default `d` of the enumerated type `n` is
written `n_d`, and the camel-case name of an element is its name with a capital first letter. -/
def exampleState : goGenState where
  LookupTypedef := fun t _ =>
    if t.map YangType.Name = some "mode-type" then
      .ok (some { NativeType := "E_ModeType", IsEnumeratedValue := true })
    else .ok none
  LookupEnum := fun _ c =>
    if c.Name = "mode" then .ok { NativeType := "If_Mode", IsEnumeratedValue := true }
    else .error ("no enumeration for " ++ c.Name)
  LookupIdentity := fun base =>
    match base with
    | none => .error "no identity base"
    | some i => .ok { NativeType := "E_" ++ i.Name, IsEnumeratedValue := true }
  resolveLeafrefTarget := fun path _ =>
    if path = "../counter" then .ok exampleCounter else .error ("no leaf at " ++ path)
  enumDefaultValue := fun nativeType dflt _ => some (nativeType ++ "_" ++ dflt)
  IsOCCompressedValidElement := fun _ => true
  IsChoiceOrCase := fun _ => false
  EntryCamelCaseName := fun e =>
    match e with
    | none => ""
    | some e => e.Name.capitalize
  IsFakeRoot := fun _ => false

/-- The example registry with a `LookupEnum` that does not mark its result as enumerated. -/
def exampleStatePlainEnum : goGenState :=
  { exampleState with LookupEnum := fun _ _ => .ok { NativeType := "If_Mode" } }

/-- A decimal64 type with the raw default `1.5`. -/
def exampleDecimal64 : YangType := .mk "decimal64" .Ydecimal64 (some "1.5") "" none []

/-- An empty type that declares the raw default `true`. -/
def exampleEmpty : YangType := .mk "empty" .Yempty (some "true") "" none []

/-- A bits type, a kind without a case of its own, with the raw default `a`. -/
def exampleBits : YangType := .mk "bits" .Ybits (some "a") "" none []

/-- A boolean type with the raw default `true`. -/
def exampleBool : YangType := .mk "boolean" .Ybool (some "true") "" none []

/-- The example registry with a path index that resolves every path to the container `/if`,
an element without a type. -/
def exampleStateContainerTarget : goGenState :=
  { exampleState with resolveLeafrefTarget := fun _ _ => .ok exampleEntryIf }

/-- The example registry with lookups that fail: no enumeration and no identity is known and
no path resolves. -/
def exampleStateFailing : goGenState :=
  { exampleState with
    LookupEnum := fun _ _ => .error "unknown enumeration"
    LookupIdentity := fun _ => .error "unknown identity"
    resolveLeafrefTarget := fun _ _ => .error "unresolvable path" }

/-- A fake root element named `device`. -/
def exampleFakeRoot : Entry := .mk "device" none none

/-- The example registry in which the element named `device` is the fake root. -/
def exampleStateFakeRoot : goGenState :=
  { exampleState with
    IsFakeRoot := fun e =>
      match e with
      | none => false
      | some x => x.Name == "device" }

/-- The leaf `mode` in the container `a`, holding the example enumeration. -/
def exampleModeA : Entry := .mk "mode" (some exampleEnum) (some exampleEntryA)

/-- A leaf `loop` whose type is a leaf-reference. -/
def exampleLoop : Entry := .mk "loop" (some (exampleLeafref none)) none

/-- The example registry with a path index that resolves every leaf-reference to the leaf
`loop`, so the leaf-reference of `loop` resolves back to `loop`. -/
def exampleStateCyclic : goGenState :=
  { exampleState with resolveLeafrefTarget := fun _ _ => .ok exampleLoop }

end Ygen

/-! # The data tree of `experimental/datatree`

A shallow embedding of `validPathElem`, `TreeNode.IsStruct`, `TreeNode.IsLeaf`,
`TreeNode.IsValid`, `TreeNode.Equal`, `TreeNode.find`, `TreeNode.addNode` and
`TreeNode.addAllNodes`.

A tree node is a value: the subtree map is the list of its entries in iteration order, a nil
map is `none`, and the children are the nodes themselves, so a mutation of a node reached from
the tree is an update of the entry that holds it. The mutex, nil children and nodes shared
between two places of a tree are not part of the embedding. A path element carries the pointer
that is its identity as a map key; `proto.Equal` compares the name and the keys only. -/

namespace Datatree

/-- A path element `*gnmipb.PathElem`: `ptr` is the pointer, the identity of the element as a
key of a Go map, `Name` and `Key` are the fields of the message (`Key` a Go map, as the list of
its entries). -/
structure PathElem where
  ptr : Nat
  Name : String
  Key : List (String × String)
deriving DecidableEq

/-- The comparison `proto.Equal` on path elements: the names are equal and the key maps hold
the same value at every key of either; the pointers are not compared. -/
def protoEqual (a b : PathElem) : Bool :=
  a.Name == b.Name
    && (a.Key.map Prod.fst ++ b.Key.map Prod.fst).all
        (fun k => Ygen.mapGet a.Key k == Ygen.mapGet b.Key k)

/-- The type `TreeNode`: the subtree map (nil or the list of its entries), the struct reference
`goStruct` (nil or a reference) and the scalar value `leaf` (nil or a value). -/
inductive TreeNode : Type
  | mk (subtree : Option (List (PathElem × TreeNode))) (goStruct : Option Nat)
      (leaf : Option String)

/-- The field `subtree`. -/
def TreeNode.subtree : TreeNode → Option (List (PathElem × TreeNode))
  | .mk subtree _ _ => subtree

/-- The field `goStruct`. -/
def TreeNode.goStruct : TreeNode → Option Nat
  | .mk _ goStruct _ => goStruct

/-- The field `leaf`. -/
def TreeNode.leaf : TreeNode → Option String
  | .mk _ _ leaf => leaf

/-- The entries of the subtree map, none for a nil map. -/
def TreeNode.entries (t : TreeNode) : List (PathElem × TreeNode) :=
  t.subtree.getD []

/-- The errors of `validPathElem`. -/
inductive PathElemError : Type
  | nilName
  | nilKeyName
deriving DecidableEq

/-- The errors of `addNode` and `addAllNodes`, one for each place an error is made. -/
inductive TreeError : Type
  | invalidPathElement (err : PathElemError)
  | invalidChild (p : PathElem)
  | mismatchedTypes (newIsLeaf existingIsLeaf : Bool)
  | invalidChildAtPath (pp : List PathElem)
  | invalidLengthPath (l : Nat) (pp : List PathElem)
  | invalidPathElementAt (i : Nat) (err : PathElemError)
  | branchToLeaf (p : PathElem)
deriving DecidableEq

/-- The function `IsStruct`. -/
def TreeNode.IsStruct (t : TreeNode) : Bool :=
  t.goStruct.isSome

/-- The function `IsLeaf`. -/
def TreeNode.IsLeaf (t : TreeNode) : Bool :=
  t.leaf.isSome

/-- The function `IsValid`. -/
def TreeNode.IsValid (t : TreeNode) : Bool :=
  if t.IsStruct && t.IsLeaf then false
  else if t.IsLeaf && t.subtree.isSome then false
  else true

/-- The function `validPathElem`, `none` for a nil error. -/
def validPathElem (p : PathElem) : Option PathElemError :=
  if p.Name = "" then some .nilName
  else if (Ygen.mapGet p.Key "").isSome then some .nilKeyName
  else none

/-- The function `find`: the first entry, in iteration order, whose key is `proto.Equal` to
`p`. -/
def TreeNode.find (t : TreeNode) (p : PathElem) : Option (PathElem × TreeNode) :=
  t.entries.find? (fun e => protoEqual e.1 p)

mutual
/-- The function `Equal`, with `c = none` for a nil node: the nil check, the comparison of the
two subtree maps for nil and for their lengths, the loop over the entries of `t`, and the
comparison of the scalar values and of the struct references. -/
def TreeNode.Equal : TreeNode → Option TreeNode → Bool
  | _, none => false
  | .mk subtree goStruct leaf, some c =>
    if subtree.isNone != c.subtree.isNone then false
    else if subtree.isSome && (subtree.getD []).length != c.entries.length then false
    else if !equalRange (subtree.getD []) c then false
    else if leaf != c.leaf then false
    else if goStruct != c.goStruct then false
    else true
termination_by t => sizeOf t
decreasing_by
  simp_wf
  cases subtree <;> simp <;> omega
/-- The loop `for p, s := range t.subtree` of `Equal`: every entry of `t` has an entry in `c`
under a key that `find` returns, with an equal node. -/
def equalRange : List (PathElem × TreeNode) → TreeNode → Bool
  | [], _ => true
  | (p, s) :: rest, c =>
    match c.find p with
    | none => false
    | some (_, n) => if !TreeNode.Equal s (some n) then false else equalRange rest c
termination_by es => sizeOf es
decreasing_by
  all_goals simp_wf
  all_goals omega
end

/-- Deleting from a Go map: `delete(m, k)`. -/
def mapDelete (m : List (PathElem × TreeNode)) (k : PathElem) : List (PathElem × TreeNode) :=
  m.filter (fun e => decide (e.1 ≠ k))

/-- The function `addNode`: the error, `none` for nil, and the node `t` after the call. -/
def TreeNode.addNode (t : TreeNode) (p : PathElem) (c : TreeNode) :
    Option TreeError × TreeNode :=
  match validPathElem p with
  | some err => (some (.invalidPathElement err), t)
  | none =>
    if !c.IsValid then (some (.invalidChild p), t)
    else
      let t := TreeNode.mk (some t.entries) t.goStruct t.leaf
      match t.find p with
      | some (k, e) =>
        if e.IsLeaf != c.IsLeaf then (some (.mismatchedTypes c.IsLeaf e.IsLeaf), t)
        else
          (none, .mk (some (Ygen.mapSet (mapDelete t.entries k) p c)) t.goStruct t.leaf)
      | none => (none, .mk (some (Ygen.mapSet t.entries p c)) t.goStruct t.leaf)

/-- The node `t` after the child held at the key `k` has become `n`: the mutation of a child
seen from its parent. -/
def TreeNode.setChild (t : TreeNode) (k : PathElem) (n : TreeNode) : TreeNode :=
  .mk (t.subtree.map (fun es => es.map (fun e => if e.1 = k then (e.1, n) else e)))
    t.goStruct t.leaf

/-- The loop of `addAllNodes` from the node `cnode` and the index `i`, over the path elements
before the last one, followed by the `addNode` of the child at the last one. The result is the
error and the node `cnode` after the call: the interim nodes added before an error stay. -/
def addAllNodesFrom (last : PathElem) (c : TreeNode) :
    TreeNode → Nat → List PathElem → Option TreeError × TreeNode
  | cnode, _, [] => cnode.addNode last c
  | cnode, i, p :: rest =>
    match validPathElem p with
    | some err => (some (.invalidPathElementAt i err), cnode)
    | none =>
      match cnode.find p with
      | some (k, n) =>
        if n.IsLeaf then (some (.branchToLeaf p), cnode)
        else
          match addAllNodesFrom last c n (i + 1) rest with
          | (err, n1) => (err, cnode.setChild k n1)
      | none =>
        match cnode.addNode p (.mk none none none) with
        | (some err, cnode1) => (some err, cnode1)
        | (none, cnode1) =>
          match addAllNodesFrom last c (.mk none none none) (i + 1) rest with
          | (err, nn) => (err, cnode1.setChild p nn)

/-- The function `addAllNodes`, with `c = none` for a nil child: the error, `none` for nil, and
the node `t` after the call. The path has a last element once its length is at least 2. -/
def TreeNode.addAllNodes (t : TreeNode) (pp : List PathElem) (c : Option TreeNode) :
    Option TreeError × TreeNode :=
  match c with
  | none => (some (.invalidChildAtPath pp), t)
  | some c =>
    if !c.IsValid then (some (.invalidChildAtPath pp), t)
    else if pp.length < 2 then (some (.invalidLengthPath pp.length pp), t)
    else
      match pp.getLast? with
      | none => (some (.invalidLengthPath pp.length pp), t)
      | some last => addAllNodesFrom last c t 0 pp.dropLast

/-! ## Specification-side definitions for the data tree -/

/-- Walking from `t` by `find` along the path `pp`. -/
def walk : TreeNode → List PathElem → Option TreeNode
  | t, [] => some t
  | t, p :: rest =>
    match t.find p with
    | some (_, n) => walk n rest
    | none => none

/-- No two keys of the subtree of `t` are structurally equal. -/
def TreeNode.uniqueSiblingKeys (t : TreeNode) : Prop :=
  t.entries.Pairwise (fun e1 e2 => protoEqual e1.1 e2.1 = false)

/-- No node of the tree `t` has two structurally equal subtree keys. -/
inductive uniqueKeys : TreeNode → Prop
  | mk (subtree : Option (List (PathElem × TreeNode))) (goStruct : Option Nat)
      (leaf : Option String)
      (hkeys : (subtree.getD []).Pairwise (fun e1 e2 => protoEqual e1.1 e2.1 = false))
      (hsub : ∀ e ∈ subtree.getD [], uniqueKeys e.2) :
      uniqueKeys (.mk subtree goStruct leaf)

/-- The causes of an error of `addNode(p, c)` on `t`: the name of `p` is empty, a key of `p`
has an empty name, `c` is not valid, or `t` holds an entry whose key is structurally equal to
`p` and whose node is a leaf when `c` is not, or the other way round. -/
def addNodeErrorCause (t : TreeNode) (p : PathElem) (c : TreeNode) : Prop :=
  p.Name = "" ∨ "" ∈ p.Key.map Prod.fst ∨ c.IsValid = false
    ∨ ∃ e ∈ t.entries, protoEqual e.1 p = true ∧ e.2.IsLeaf ≠ c.IsLeaf

/-- The trees built by `addNode` and `addAllNodes` alone, from nodes without a subtree (the
empty node, a node that holds a scalar value, a node that holds a struct reference), where the
children that are added are built in the same way. -/
inductive builtByAdd : TreeNode → Prop
  | base (goStruct : Option Nat) (leaf : Option String) : builtByAdd (.mk none goStruct leaf)
  | addNode (t : TreeNode) (p : PathElem) (c : TreeNode) :
      builtByAdd t → builtByAdd c → builtByAdd (t.addNode p c).2
  | addAllNodes (t : TreeNode) (pp : List PathElem) (c : TreeNode) :
      builtByAdd t → builtByAdd c → builtByAdd (t.addAllNodes pp (some c)).2

/-! ## Examples for the data tree -/

/-- The path element `a`. -/
def examplePathA : PathElem := { ptr := 1, Name := "a", Key := [] }

/-- The path element `b`. -/
def examplePathB : PathElem := { ptr := 2, Name := "b", Key := [] }

/-- Another path element `b`, at another pointer. -/
def examplePathB2 : PathElem := { ptr := 3, Name := "b", Key := [] }

/-- A leaf node holding `"1"`. -/
def exampleLeaf : TreeNode := .mk none none (some "1")

/-- A leaf node holding `"2"`. -/
def exampleLeaf2 : TreeNode := .mk none none (some "2")

/-- The empty tree node `&TreeNode{}`. -/
def exampleEmptyNode : TreeNode := .mk none none none

/-- A node with the leaf `"1"` at `b`. -/
def exampleNodeB : TreeNode := .mk (some [(examplePathB, exampleLeaf)]) none none

/-- The node `exampleNodeB` after the leaf `"2"` has been added at the other element `b`. -/
def exampleNodeB2 : TreeNode := .mk (some [(examplePathB2, exampleLeaf2)]) none none

/-- A tree with the leaf `"1"` at `/a/b`. -/
def exampleTree : TreeNode := .mk (some [(examplePathA, exampleNodeB)]) none none

/-- The tree `exampleTree` after the leaf `"2"` has been added at `/a/b`. -/
def exampleTree2 : TreeNode := .mk (some [(examplePathA, exampleNodeB2)]) none none

/-- A third path element `b`, at a third pointer. -/
def examplePathB3 : PathElem := { ptr := 4, Name := "b", Key := [] }

/-- Another path element `a`, at another pointer. -/
def examplePathA2 : PathElem := { ptr := 5, Name := "a", Key := [] }

/-- A node with two structurally equal keys `b`: the first one holds a leaf, the second one the
empty node. -/
def exampleNodeDup : TreeNode :=
  .mk (some [(examplePathB, exampleLeaf), (examplePathB2, exampleEmptyNode)]) none none

/-- The node `exampleNodeDup` with its two entries in the other order. -/
def exampleNodeDup2 : TreeNode :=
  .mk (some [(examplePathB2, exampleEmptyNode), (examplePathB, exampleLeaf)]) none none

/-- A tree with the leaf `"1"` at `/a/b`, under other pointers than `exampleTree`. -/
def exampleTreeCopy : TreeNode :=
  .mk (some [(examplePathA2, .mk (some [(examplePathB2, exampleLeaf)]) none none)]) none none

end Datatree

namespace Ygen

/-! ## Lemmas on the embedding -/

theorem withCalls_nil {α : Type} (r : Outcome α × List Call) : withCalls [] r = r := by
  cases r; rfl

theorem withCalls_withCalls {α : Type} (c1 c2 : List Call) (r : Outcome α × List Call) :
    withCalls c1 (withCalls c2 r) = withCalls (c1 ++ c2) r := by
  simp [withCalls, List.append_assoc]

theorem goUnionSubTypes_leaf (s : goGenState) (fuel : Nat) (subtype : YangType)
    (ctx : Option Entry) (cur : List (String × Nat)) (mapped : List (Nat × MappedType))
    (b1 b2 b3 : Bool) (h : subtype.Types = []) :
    goUnionSubTypes s fuel subtype ctx cur mapped b1 b2 b3
      = foldUnionMembers s fuel [subtype] ctx [] cur mapped b1 b2 b3 := by
  rw [goUnionSubTypes]
  simp only [h, List.length_nil, ne_eq, not_true_eq_false, if_false, foldUnionMembers,
    resolveUnionMember]
  split
  · cases s.LookupIdentity subtype.IdentityBase <;> simp [withCalls]
  · rcases hr : yangTypeToGoType s fuel { yangType := some subtype, contextEntry := ctx } b1 b2 b3
      with ⟨o, calls⟩
    rcases o with (r | _) | _ | _ <;> simp [withCalls]

/-- Running the flat fold on `l1` from no errors and continuing on `l2` with the errors
appended is the flat fold on `l1 ++ l2`. -/
theorem foldUnionMembers_append (s : goGenState) (fuel : Nat) (ctx : Option Entry)
    (b1 b2 b3 : Bool) (l2 : List YangType) (errs : List String) :
    ∀ (l1 : List YangType) (e0 : List String) (cur : List (String × Nat))
      (mapped : List (Nat × MappedType)),
      (match foldUnionMembers s fuel l1 ctx e0 cur mapped b1 b2 b3 with
        | (.returns (e1, c1, m1), calls) =>
          withCalls calls (foldUnionMembers s fuel l2 ctx (errs ++ e1) c1 m1 b1 b2 b3)
        | (.panics, calls) => (.panics, calls)
        | (.diverges, calls) => (.diverges, calls))
      = foldUnionMembers s fuel (l1 ++ l2) ctx (errs ++ e0) cur mapped b1 b2 b3 := by
  intro l1
  induction l1 with
  | nil =>
    intro e0 cur mapped
    simp [foldUnionMembers, withCalls_nil]
  | cons a l1 ih =>
    intro e0 cur mapped
    simp only [foldUnionMembers, List.cons_append]
    rcases hr : resolveUnionMember s fuel a ctx b1 b2 b3 with ⟨o, calls⟩
    rcases o with (err | m) | _ | _
    · simp only [List.append_eq]
      rw [List.append_assoc, ← ih (e0 ++ [err]) cur mapped]
      rcases foldUnionMembers s fuel l1 ctx (e0 ++ [err]) cur mapped b1 b2 b3 with ⟨o1, calls1⟩
      rcases o1 with ⟨e1, c1, m1⟩ | _ | _ <;> simp [withCalls]
    · simp only [List.append_eq]
      rw [← ih e0]
      rcases foldUnionMembers s fuel l1 ctx e0 (addUnionSubType m cur mapped).1
        (addUnionSubType m cur mapped).2 b1 b2 b3 with ⟨o1, calls1⟩
      rcases o1 with ⟨e1, c1, m1⟩ | _ | _ <;> simp [withCalls]
    · simp
    · simp

mutual
/-- Union flattening, one member: `goUnionSubTypes` is the flat fold over the leaves of the
member. -/
theorem goUnionSubTypes_eq_fold (s : goGenState) (fuel : Nat) (subtype : YangType)
    (ctx : Option Entry) (cur : List (String × Nat)) (mapped : List (Nat × MappedType))
    (b1 b2 b3 : Bool) :
    goUnionSubTypes s fuel subtype ctx cur mapped b1 b2 b3
      = foldUnionMembers s fuel (unionLeaves subtype) ctx [] cur mapped b1 b2 b3 := by
  match subtype with
  | .mk n k d p b [] =>
    rw [goUnionSubTypes_leaf s fuel (.mk n k d p b []) ctx cur mapped b1 b2 b3 rfl, unionLeaves]
  | .mk n k d p b (t :: ts) =>
    rw [goUnionSubTypes, unionLeaves]
    simp only [YangType.Types, List.length_cons, ne_eq, Nat.add_one_ne_zero, not_false_eq_true,
      if_true]
    exact goUnionSubTypesRange_eq_fold s fuel (t :: ts) ctx [] cur mapped b1 b2 b3
/-- Union flattening, a list of members: `goUnionSubTypesRange` is the flat fold over the
leaves of the members. -/
theorem goUnionSubTypesRange_eq_fold (s : goGenState) (fuel : Nat) (types : List YangType)
    (ctx : Option Entry) (errs : List String) (cur : List (String × Nat))
    (mapped : List (Nat × MappedType)) (b1 b2 b3 : Bool) :
    goUnionSubTypesRange s fuel types ctx errs cur mapped b1 b2 b3
      = foldUnionMembers s fuel (unionLeavesList types) ctx errs cur mapped b1 b2 b3 := by
  match types with
  | [] => rw [goUnionSubTypesRange, unionLeavesList, foldUnionMembers]
  | st :: rest =>
    rw [goUnionSubTypesRange, unionLeavesList, goUnionSubTypes_eq_fold s fuel st]
    have ih := fun e c m => goUnionSubTypesRange_eq_fold s fuel rest ctx e c m b1 b2 b3
    simp only [ih]
    have happ := foldUnionMembers_append s fuel ctx b1 b2 b3 (unionLeavesList rest) errs
      (unionLeaves st) [] cur mapped
    rw [List.append_nil] at happ
    rw [← happ]
    rcases foldUnionMembers s fuel (unionLeaves st) ctx [] cur mapped b1 b2 b3 with ⟨o1, calls1⟩
    rcases o1 with ⟨e1, c1, m1⟩ | _ | _ <;> simp [withCalls]
end

theorem mapGet_eq_none_iff {κ ν : Type} [DecidableEq κ] (m : List (κ × ν)) (k : κ) :
    mapGet m k = none ↔ k ∉ m.map Prod.fst := by
  simp only [mapGet, Option.map_eq_none', List.find?_eq_none, decide_eq_true_eq, List.mem_map,
    not_exists, not_and]

theorem mapSet_of_not_mem {κ ν : Type} [DecidableEq κ] (m : List (κ × ν)) (k : κ) (v : ν)
    (h : k ∉ m.map Prod.fst) : mapSet m k v = m ++ [(k, v)] := by
  have hn : mapGet m k = none := (mapGet_eq_none_iff m k).2 h
  simp [mapSet, hn]

theorem firstByName_subset (ms : List MappedType) : ∀ x ∈ firstByName ms, x ∈ ms := by
  induction ms with
  | nil => simp [firstByName]
  | cons m ms ih =>
    intro x hx
    simp only [firstByName, List.mem_cons, List.mem_filter] at hx
    rcases hx with rfl | ⟨hx, _⟩
    · simp
    · exact List.mem_cons_of_mem _ (ih x hx)

theorem mem_names_firstByName (ms : List MappedType) (n : String) :
    n ∈ (firstByName ms).map (fun m => m.NativeType) ↔ n ∈ ms.map (fun m => m.NativeType) := by
  induction ms with
  | nil => simp [firstByName]
  | cons m ms ih =>
    simp only [firstByName, List.map_cons, List.mem_cons]
    by_cases hn : n = m.NativeType
    · simp [hn]
    · simp only [hn, false_or]
      rw [← ih]
      simp only [List.mem_map, List.mem_filter, decide_eq_true_eq]
      constructor
      · rintro ⟨x, ⟨hx, _⟩, rfl⟩
        exact ⟨x, hx, rfl⟩
      · rintro ⟨x, hx, rfl⟩
        exact ⟨x, ⟨hx, hn⟩, rfl⟩

theorem nodup_names_firstByName (ms : List MappedType) :
    ((firstByName ms).map (fun m => m.NativeType)).Nodup := by
  induction ms with
  | nil => simp [firstByName]
  | cons m ms ih =>
    simp only [firstByName, List.map_cons, List.nodup_cons]
    constructor
    · simp only [List.mem_map, List.mem_filter, decide_eq_true_eq, not_exists, not_and]
      rintro x ⟨_, hx⟩ h
      exact hx h
    · exact (ih.sublist (List.Sublist.map _ (List.filter_sublist _)))

theorem firstByName_append_singleton (acc : List MappedType) (m : MappedType) :
    firstByName (acc ++ [m])
      = if m.NativeType ∈ acc.map (fun x => x.NativeType) then firstByName acc
        else firstByName acc ++ [m] := by
  induction acc with
  | nil => simp [firstByName]
  | cons a acc ih =>
    rw [List.cons_append, firstByName, ih]
    simp only [List.map_cons, List.mem_cons]
    by_cases ha : m.NativeType = a.NativeType
    · simp only [ha, true_or, if_true, firstByName]
      split
      · rfl
      · simp [List.filter_append, ha]
    · simp only [ha, false_or, firstByName]
      split
      · rfl
      · simp [List.filter_append, ha]

theorem length_unionTypesOf (ms : List MappedType) :
    (unionTypesOf ms).length = (firstByName ms).length := by
  simp [unionTypesOf]

theorem length_unionMappedTypesOf (ms : List MappedType) :
    (unionMappedTypesOf ms).length = (firstByName ms).length := by
  simp [unionMappedTypesOf]

theorem map_fst_unionTypesOf (ms : List MappedType) :
    (unionTypesOf ms).map Prod.fst = (firstByName ms).map (fun m => m.NativeType) := by
  simp only [unionTypesOf]
  rw [List.map_fst_zip]
  simp

theorem map_snd_unionTypesOf (ms : List MappedType) :
    (unionTypesOf ms).map Prod.snd = List.range (unionTypesOf ms).length := by
  simp only [unionTypesOf]
  rw [List.map_snd_zip]
  · simp
  · simp

theorem map_fst_unionMappedTypesOf (ms : List MappedType) :
    (unionMappedTypesOf ms).map Prod.fst = List.range (firstByName ms).length := by
  simp only [unionMappedTypesOf]
  rw [List.map_fst_zip]
  simp

theorem map_snd_unionMappedTypesOf (ms : List MappedType) :
    (unionMappedTypesOf ms).map Prod.snd = firstByName ms := by
  simp only [unionMappedTypesOf]
  rw [List.map_snd_zip]
  simp

/-- One step of the de-duplication: recording the next resolved member. -/
theorem addUnionSubType_step (acc : List MappedType) (m : MappedType) :
    addUnionSubType m (unionTypesOf acc) (unionMappedTypesOf acc)
      = (unionTypesOf (acc ++ [m]), unionMappedTypesOf (acc ++ [m])) := by
  unfold addUnionSubType
  by_cases hm : m.NativeType ∈ acc.map (fun x => x.NativeType)
  · have hm1 : m.NativeType ∈ (unionTypesOf acc).map Prod.fst := by
      rw [map_fst_unionTypesOf, mem_names_firstByName]; exact hm
    have hsome : (mapGet (unionTypesOf acc) m.NativeType).isSome := by
      cases hg : mapGet (unionTypesOf acc) m.NativeType with
      | none => exact absurd hm1 ((mapGet_eq_none_iff _ _).1 hg)
      | some v => rfl
    cases hg : mapGet (unionTypesOf acc) m.NativeType with
    | none => rw [hg] at hsome; exact absurd hsome (by simp)
    | some v =>
      simp only [unionTypesOf, unionMappedTypesOf, firstByName_append_singleton, hm, if_true]
  · have hm1 : m.NativeType ∉ (unionTypesOf acc).map Prod.fst := by
      rw [map_fst_unionTypesOf, mem_names_firstByName]; exact hm
    have hnone : mapGet (unionTypesOf acc) m.NativeType = none := (mapGet_eq_none_iff _ _).2 hm1
    have hidx : (unionTypesOf acc).length ∉ (unionMappedTypesOf acc).map Prod.fst := by
      rw [map_fst_unionMappedTypesOf, length_unionTypesOf]
      simp
    simp only [hnone]
    rw [mapSet_of_not_mem _ _ _ hm1, mapSet_of_not_mem _ _ _ hidx]
    simp only [unionTypesOf, unionMappedTypesOf, firstByName_append_singleton, hm, if_false,
      List.map_append, List.map_cons, List.map_nil, List.length_append, List.length_singleton,
      List.range_succ, List.length_zip, List.length_map, List.length_range, min_self]
    rw [List.zip_append (by simp), List.zip_append (by simp)]
    simp

theorem foldUnionMembers_of_results (s : goGenState) (fuel : Nat) (ctx : Option Entry)
    (b1 b2 b3 : Bool) (leaves : List YangType) (rs : List (Except String MappedType))
    (h : List.Forall₂
      (fun l r => (resolveUnionMember s fuel l ctx b1 b2 b3).1 = .returns r) leaves rs) :
    ∀ (errs : List String) (acc : List MappedType),
      foldUnionMembers s fuel leaves ctx errs (unionTypesOf acc) (unionMappedTypesOf acc) b1 b2 b3
        = (.returns (errs ++ errorsOf rs, unionTypesOf (acc ++ mappedTypesOf rs),
              unionMappedTypesOf (acc ++ mappedTypesOf rs)),
            unionMemberCalls s fuel ctx b1 b2 b3 leaves) := by
  induction h with
  | nil =>
    intro errs acc
    simp [foldUnionMembers, errorsOf, mappedTypesOf, unionMemberCalls]
  | @cons l r leaves rs hl _ ih =>
    intro errs acc
    rcases hr : resolveUnionMember s fuel l ctx b1 b2 b3 with ⟨o, calls⟩
    rw [hr] at hl
    simp only at hl
    subst hl
    cases r with
    | error err =>
      simp only [foldUnionMembers, hr, ih, withCalls, errorsOf, mappedTypesOf, unionMemberCalls,
        List.append_assoc, List.singleton_append]
    | ok m =>
      simp only [foldUnionMembers, hr, addUnionSubType_step, ih, withCalls, errorsOf,
        mappedTypesOf, unionMemberCalls, List.append_assoc, List.singleton_append]

theorem errorsOf_map_ok (ms : List MappedType) : errorsOf (ms.map Except.ok) = [] := by
  induction ms with
  | nil => rfl
  | cons m ms ih => simpa [errorsOf] using ih

theorem mappedTypesOf_map_ok (ms : List MappedType) : mappedTypesOf (ms.map Except.ok) = ms := by
  induction ms with
  | nil => rfl
  | cons m ms ih => simpa [mappedTypesOf] using ih

/-- Members that all resolve to a mapped type are members that all return. -/
theorem forall₂_returns_of_ok (s : goGenState) (fuel : Nat) (ctx : Option Entry)
    (b1 b2 b3 : Bool) (leaves : List YangType) (ms : List MappedType)
    (h : List.Forall₂
      (fun l m => (resolveUnionMember s fuel l ctx b1 b2 b3).1 = .returns (.ok m)) leaves ms) :
    List.Forall₂ (fun l r => (resolveUnionMember s fuel l ctx b1 b2 b3).1 = .returns r)
      leaves (ms.map Except.ok) := by
  induction h with
  | nil => exact List.Forall₂.nil
  | cons hl _ ih => exact List.Forall₂.cons hl ih

/-- The run of `goUnionType` when every flattened member returns. -/
theorem goUnionType_of_results (s : goGenState) (fuel : Nat) (t : YangType) (ctx : Option Entry)
    (b1 b2 b3 : Bool) (rs : List (Except String MappedType))
    (h : List.Forall₂ (fun l r => (resolveUnionMember s fuel l ctx b1 b2 b3).1 = .returns r)
      (unionLeavesList t.Types) rs) :
    goUnionType s fuel ⟨some t, ctx⟩ b1 b2 b3
      = (if errorsOf rs ≠ [] then .returns (.error (errorsMappingElement (errorsOf rs)))
          else unionResolvedType s ctx b1 (unionTypesOf (mappedTypesOf rs))
            (unionMappedTypesOf (mappedTypesOf rs)),
          unionMemberCalls s fuel ctx b1 b2 b3 (unionLeavesList t.Types)) := by
  have hfold := foldUnionMembers_of_results s fuel ctx b1 b2 b3 _ rs h [] []
  have h1 : unionTypesOf [] = [] := rfl
  have h2 : unionMappedTypesOf [] = [] := rfl
  rw [h1, h2] at hfold
  rw [goUnionType]
  simp only [goUnionSubTypesRange_eq_fold, hfold, List.nil_append]
  split <;> rfl

/-- Reading the recorded mapped types by position. -/
theorem mapGet_zip_range' {ν : Type} (l : List ν) :
    ∀ (k j : Nat), mapGet ((List.range' k l.length).zip l) (k + j) = l[j]? := by
  induction l with
  | nil => intro k j; simp [mapGet]
  | cons a l ih =>
    intro k j
    cases j with
    | zero => simp [mapGet, List.range'_succ]
    | succ j =>
      have hk : k + (j + 1) = k + 1 + j := by omega
      rw [hk]
      have hne : ¬ (k = k + 1 + j) := by omega
      have := ih (k + 1) j
      simp only [mapGet] at this ⊢
      simp only [List.length_cons, List.range'_succ, List.zip_cons_cons, List.find?_cons, hne,
        decide_False, List.getElem?_cons_succ]
      exact this

theorem mapGet_unionMappedTypesOf (ms : List MappedType) (i : Nat) :
    mapGet (unionMappedTypesOf ms) i = (firstByName ms)[i]? := by
  have := mapGet_zip_range' (firstByName ms) 0 i
  simpa [unionMappedTypesOf, List.range_eq_range'] using this

/-- The end of `goUnionType` when one native type name was recorded. -/
theorem unionResolvedType_single (s : goGenState) (ctx : Option Entry) (b1 : Bool)
    (ms : List MappedType) (m0 : MappedType) (h : firstByName ms = [m0]) :
    unionResolvedType s ctx b1 (unionTypesOf ms) (unionMappedTypesOf ms)
      = .returns (.ok { m0 with UnionTypes := some [(m0.NativeType, 0)] }) := by
  have hlen : (unionMappedTypesOf ms).length = 1 := by
    rw [length_unionMappedTypesOf, h]; rfl
  have hget : mapGet (unionMappedTypesOf ms) 0 = some m0 := by
    rw [mapGet_unionMappedTypesOf, h]; rfl
  have hut : unionTypesOf ms = [(m0.NativeType, 0)] := by
    simp [unionTypesOf, h, List.range_succ]
  simp only [unionResolvedType, hlen, if_true, hget, hut]

/-- The end of `goUnionType` when the number of recorded native type names is not one. -/
theorem unionResolvedType_synthetic (s : goGenState) (ctx : Option Entry) (b1 : Bool)
    (ms : List MappedType) (h : (firstByName ms).length ≠ 1) :
    unionResolvedType s ctx b1 (unionTypesOf ms) (unionMappedTypesOf ms)
      = .returns (.ok { NativeType := pathToCamelCaseName s ctx b1 false ++ "_Union",
                        ZeroValue := "nil", UnionTypes := some (unionTypesOf ms) }) := by
  have hlen : (unionMappedTypesOf ms).length ≠ 1 := by
    rw [length_unionMappedTypesOf]; exact h
  simp only [unionResolvedType, hlen, if_false]

/-- The end of `goUnionType` is a mapped type, never an abort. -/
theorem unionResolvedType_returns (s : goGenState) (ctx : Option Entry) (b1 : Bool)
    (ms : List MappedType) :
    ∃ r, unionResolvedType s ctx b1 (unionTypesOf ms) (unionMappedTypesOf ms)
        = .returns (.ok r) ∧ r.UnionTypes = some (unionTypesOf ms) := by
  by_cases h : (firstByName ms).length = 1
  · obtain ⟨m0, hm0⟩ := List.length_eq_one.1 h
    refine ⟨_, unionResolvedType_single s ctx b1 ms m0 hm0, ?_⟩
    simp [unionTypesOf, hm0, List.range_succ]
  · exact ⟨_, unionResolvedType_synthetic s ctx b1 ms h, rfl⟩

/-- A pair of the union members names the mapped type recorded at its position. -/
theorem getElem?_of_mem_unionTypesOf (ms : List MappedType) (n : String) (i : Nat)
    (h : (n, i) ∈ unionTypesOf ms) :
    ∃ x, (firstByName ms)[i]? = some x ∧ x.NativeType = n := by
  obtain ⟨j, hj, hji⟩ := List.mem_iff_getElem.1 h
  simp only [unionTypesOf, List.getElem_zip, List.getElem_map, List.getElem_range,
    Prod.mk.injEq] at hji
  obtain ⟨hn, rfl⟩ := hji
  have hlt : j < (firstByName ms).length := by
    simpa [unionTypesOf] using hj
  exact ⟨(firstByName ms)[j], by simp [hlt], hn⟩

/-- Every mapped type kept by `firstByName` is the first member with its native type name. -/
theorem find?_of_mem_firstByName (ms : List MappedType) :
    ∀ x ∈ firstByName ms,
      ms.find? (fun m => decide (m.NativeType = x.NativeType)) = some x := by
  induction ms with
  | nil => simp [firstByName]
  | cons m ms ih =>
    intro x hx
    simp only [firstByName, List.mem_cons, List.mem_filter, decide_eq_true_eq] at hx
    rcases hx with rfl | ⟨hx, hne⟩
    · simp
    · have hne2 : ¬ (m.NativeType = x.NativeType) := fun h => hne h.symm
      simp only [List.find?_cons, hne2, decide_False]
      exact ih x hx

/-- The number of distinct native type names is the number of mapped types kept. -/
theorem card_names_eq_length_firstByName (ms : List MappedType) :
    (ms.map (fun m => m.NativeType)).toFinset.card = (firstByName ms).length := by
  have hset : (ms.map (fun m => m.NativeType)).toFinset
      = ((firstByName ms).map (fun m => m.NativeType)).toFinset := by
    ext n
    simp only [List.mem_toFinset]
    exact (mem_names_firstByName ms n).symm
  rw [hset, List.toFinset_card_of_nodup (nodup_names_firstByName ms), List.length_map]

/-- The position of a native type name is the number of distinct native type names that occur
before its first occurrence. -/
theorem rank_of_mem_unionTypesOf (ms : List MappedType) :
    ∀ n i, (n, i) ∈ unionTypesOf ms →
      i = ((ms.map (fun m => m.NativeType)).take
            ((ms.map (fun m => m.NativeType)).indexOf n)).toFinset.card := by
  induction ms using List.reverseRecOn with
  | nil => intro n i h; simp [unionTypesOf, firstByName] at h
  | append_singleton acc m ih =>
    intro n i h
    have hold : ∀ n i, (n, i) ∈ unionTypesOf acc →
        i = (((acc ++ [m]).map (fun m => m.NativeType)).take
              (((acc ++ [m]).map (fun m => m.NativeType)).indexOf n)).toFinset.card := by
      intro n i hni
      have hmem : n ∈ acc.map (fun m => m.NativeType) := by
        rw [← mem_names_firstByName, ← map_fst_unionTypesOf]
        exact List.mem_map.2 ⟨(n, i), hni, rfl⟩
      rw [List.map_append, List.indexOf_append_of_mem hmem,
        List.take_append_of_le_length (le_of_lt (List.indexOf_lt_length.2 hmem))]
      exact ih n i hni
    by_cases hm : m.NativeType ∈ acc.map (fun x => x.NativeType)
    · have heq : unionTypesOf (acc ++ [m]) = unionTypesOf acc := by
        simp only [unionTypesOf, firstByName_append_singleton, hm, if_true]
      rw [heq] at h
      exact hold n i h
    · have heq : unionTypesOf (acc ++ [m])
          = unionTypesOf acc ++ [(m.NativeType, (firstByName acc).length)] := by
        have := addUnionSubType_step acc m
        have hm1 : m.NativeType ∉ (unionTypesOf acc).map Prod.fst := by
          rw [map_fst_unionTypesOf, mem_names_firstByName]; exact hm
        have hnone : mapGet (unionTypesOf acc) m.NativeType = none :=
          (mapGet_eq_none_iff _ _).2 hm1
        simp only [addUnionSubType, hnone, Prod.mk.injEq] at this
        rw [← this.1, mapSet_of_not_mem _ _ _ hm1, length_unionTypesOf]
      rw [heq, List.mem_append, List.mem_singleton] at h
      rcases h with h | h
      · exact hold n i h
      · simp only [Prod.mk.injEq] at h
        obtain ⟨rfl, rfl⟩ := h
        rw [List.map_append, List.indexOf_append_of_not_mem hm]
        simp [card_names_eq_length_firstByName]

/-! ## Runs on the example schemas -/

/-- The member `int8` of a union resolves to `int8`. -/
theorem resolveUnionMember_exampleInt8 (fuel : Nat) (ctx : Option Entry) (b1 b2 b3 : Bool) :
    resolveUnionMember exampleState fuel exampleInt8 ctx b1 b2 b3
      = (.returns (.ok { NativeType := "int8", ZeroValue := "0" }),
          [.LookupTypedef (some exampleInt8) ctx]) := by
  rw [resolveUnionMember, exampleInt8]
  simp only [YangType.Kind]
  rw [yangTypeToGoType]
  simp [exampleState, YangType.Name, YangType.Kind, TypeDefaultValue, YangType.Default,
    goZeroValues, goZeroValuesTable, mapGet]

/-- The member `string` of a union resolves to `string`. -/
theorem resolveUnionMember_exampleString (fuel : Nat) (ctx : Option Entry) (b1 b2 b3 : Bool) :
    resolveUnionMember exampleState fuel exampleString ctx b1 b2 b3
      = (.returns (.ok { NativeType := "string", ZeroValue := "\"\"" }),
          [.LookupTypedef (some exampleString) ctx]) := by
  rw [resolveUnionMember, exampleString]
  simp only [YangType.Kind]
  rw [yangTypeToGoType]
  simp [exampleState, YangType.Name, YangType.Kind, TypeDefaultValue, YangType.Default,
    goZeroValues, goZeroValuesTable, mapGet]

/-- An enumeration member of a union without context fails. -/
theorem resolveUnionMember_exampleEnum_no_context (fuel : Nat) (b1 b2 b3 : Bool) :
    resolveUnionMember exampleState fuel exampleEnum none b1 b2 b3
      = (.returns (.error "cannot map enum without context"),
          [.LookupTypedef (some exampleEnum) none]) := by
  rw [resolveUnionMember, exampleEnum]
  simp only [YangType.Kind]
  rw [yangTypeToGoType]
  simp [exampleState, YangType.Name, YangType.Kind]

/-- The camel-case path name of the leaf `/a/b`. -/
theorem pathToCamelCaseName_exampleEntryAB :
    pathToCamelCaseName exampleState (some exampleEntryAB) false false = "A_B" := by
  simp [pathToCamelCaseName, pathElementsLoop, exampleEntryAB, exampleEntryA, exampleState]
  decide

/-! ## Further lemmas on unions -/

/-- The run of `goUnionType` depends on the union only through the leaves of its members. -/
theorem goUnionType_congr_leaves (s : goGenState) (fuel : Nat) (t1 t2 : YangType)
    (ctx : Option Entry) (b1 b2 b3 : Bool)
    (h : unionLeavesList t1.Types = unionLeavesList t2.Types) :
    goUnionType s fuel ⟨some t1, ctx⟩ b1 b2 b3 = goUnionType s fuel ⟨some t2, ctx⟩ b1 b2 b3 := by
  rw [goUnionType, goUnionType]
  simp only [goUnionSubTypesRange_eq_fold, h]

/-- The union branch of `yangTypeToGoType`. -/
theorem yangTypeToGoType_Yunion (s : goGenState) (fuel : Nat) (t : YangType) (ctx : Option Entry)
    (b1 b2 b3 : Bool) (hk : t.Kind = .Yunion) (htd : s.LookupTypedef (some t) ctx = .ok none) :
    yangTypeToGoType s fuel ⟨some t, ctx⟩ b1 b2 b3
      = ((goUnionType s fuel ⟨some t, ctx⟩ b1 b2 b3).1,
          .LookupTypedef (some t) ctx :: (goUnionType s fuel ⟨some t, ctx⟩ b1 b2 b3).2) := by
  rw [yangTypeToGoType]
  simp only [htd, hk]

theorem mem_errorsOf (rs : List (Except String MappedType)) (e : String) :
    e ∈ errorsOf rs ↔ Except.error e ∈ rs := by
  induction rs with
  | nil => simp [errorsOf]
  | cons r rs ih =>
    cases r with
    | error err => simp [errorsOf, ih]
    | ok m => simp [errorsOf, ih]

theorem errorsOf_ne_nil_iff (rs : List (Except String MappedType)) :
    errorsOf rs ≠ [] ↔ ∃ e, Except.error e ∈ rs := by
  constructor
  · intro h
    obtain ⟨e, he⟩ := List.exists_mem_of_ne_nil _ h
    exact ⟨e, (mem_errorsOf rs e).1 he⟩
  · rintro ⟨e, he⟩ hnil
    have := (mem_errorsOf rs e).2 he
    rw [hnil] at this
    exact absurd this (List.not_mem_nil e)

/-- Two members with different native type names leave more than one recorded name. -/
theorem length_firstByName_ne_one (ms : List MappedType)
    (h : ∃ m1 ∈ ms, ∃ m2 ∈ ms, m1.NativeType ≠ m2.NativeType) :
    (firstByName ms).length ≠ 1 := by
  intro hlen
  obtain ⟨x, hx⟩ := List.length_eq_one.1 hlen
  obtain ⟨m1, hm1, m2, hm2, hne⟩ := h
  have h1 : m1.NativeType ∈ (firstByName ms).map (fun m => m.NativeType) :=
    (mem_names_firstByName ms _).2 (List.mem_map.2 ⟨m1, hm1, rfl⟩)
  have h2 : m2.NativeType ∈ (firstByName ms).map (fun m => m.NativeType) :=
    (mem_names_firstByName ms _).2 (List.mem_map.2 ⟨m2, hm2, rfl⟩)
  rw [hx] at h1 h2
  simp only [List.map_cons, List.map_nil, List.mem_singleton] at h1 h2
  exact hne (h1.trans h2.symm)

/-- Members that all have the native type name of the first one leave one recorded name. -/
theorem firstByName_of_same_name (m0 : MappedType) (ms : List MappedType)
    (h : ∀ m ∈ ms, m.NativeType = m0.NativeType) : firstByName (m0 :: ms) = [m0] := by
  simp only [firstByName, List.cons.injEq, true_and, List.filter_eq_nil_iff, decide_eq_true_eq,
    ne_eq, not_not]
  intro x hx
  exact h x (firstByName_subset ms x hx)

/-- The run of `goUnionType` when every flattened member resolves to a mapped type. -/
theorem goUnionType_of_mapped (s : goGenState) (fuel : Nat) (t : YangType) (ctx : Option Entry)
    (b1 b2 b3 : Bool) (ms : List MappedType)
    (h : List.Forall₂
      (fun l m => (resolveUnionMember s fuel l ctx b1 b2 b3).1 = .returns (.ok m))
      (unionLeavesList t.Types) ms) :
    goUnionType s fuel ⟨some t, ctx⟩ b1 b2 b3
      = (unionResolvedType s ctx b1 (unionTypesOf ms) (unionMappedTypesOf ms),
          unionMemberCalls s fuel ctx b1 b2 b3 (unionLeavesList t.Types)) := by
  have hr := forall₂_returns_of_ok s fuel ctx b1 b2 b3 _ ms h
  rw [goUnionType_of_results s fuel t ctx b1 b2 b3 _ hr, errorsOf_map_ok, mappedTypesOf_map_ok]
  simp only [ne_eq, not_true_eq_false, if_false]

/-! ## Fuel -/

mutual
/-- Fuel monotonicity of `yangTypeToGoType`: a run that does not use up its fuel is the same
with one more hop of fuel. -/
theorem yangTypeToGoType_fuel_succ (s : goGenState) :
    ∀ (n : Nat) (args : resolveTypeArgs) (b1 b2 b3 : Bool),
      (yangTypeToGoType s n args b1 b2 b3).1 ≠ .diverges →
      yangTypeToGoType s (n + 1) args b1 b2 b3 = yangTypeToGoType s n args b1 b2 b3
  | n, ⟨none, c⟩, b1, b2, b3, _ => by
    rw [yangTypeToGoType.eq_1 s (n + 1), yangTypeToGoType.eq_1 s n]
  | 0, ⟨some t, c⟩, b1, b2, b3, h => by
    have hL := yangTypeToGoType.eq_1 s (0 + 1) ⟨some t, c⟩ b1 b2 b3
    have hR := yangTypeToGoType.eq_1 s 0 ⟨some t, c⟩ b1 b2 b3
    rw [hR] at h
    rw [hL, hR]
    clear hL hR
    cases htd : s.LookupTypedef (some t) c with
    | error err => rfl
    | ok o =>
      cases o with
      | some M => rfl
      | none =>
        simp only [htd] at h ⊢
        cases hk : t.Kind <;> simp only [hk] at h ⊢
        · cases ht : s.resolveLeafrefTarget t.Path c with
          | error err => rfl
          | ok target =>
            simp only [ht] at h
            exact absurd rfl h
        · rw [goUnionType_fuel_succ s 0 ⟨some t, c⟩ b1 b2 b3 h]
  | k + 1, ⟨some t, c⟩, b1, b2, b3, h => by
    have hL := yangTypeToGoType.eq_1 s (k + 1 + 1) ⟨some t, c⟩ b1 b2 b3
    have hR := yangTypeToGoType.eq_1 s (k + 1) ⟨some t, c⟩ b1 b2 b3
    rw [hR] at h
    rw [hL, hR]
    clear hL hR
    cases htd : s.LookupTypedef (some t) c with
    | error err => rfl
    | ok o =>
      cases o with
      | some M => rfl
      | none =>
        simp only [htd] at h ⊢
        cases hk : t.Kind <;> simp only [hk] at h ⊢
        · cases ht : s.resolveLeafrefTarget t.Path c with
          | error err => rfl
          | ok target =>
            simp only [ht] at h ⊢
            rw [yangTypeToGoType_fuel_succ s k ⟨target.Typ, some target⟩ b1 b2 b3 h]
        · rw [goUnionType_fuel_succ s (k + 1) ⟨some t, c⟩ b1 b2 b3 h]
termination_by n args => (n, sizeOf args.yangType, 1)
decreasing_by
  all_goals simp_wf
  · exact Prod.Lex.right _ (Prod.Lex.right _ (by omega))
  · exact Prod.Lex.left _ _ (by omega)
  · exact Prod.Lex.right _ (Prod.Lex.right _ (by omega))
/-- Fuel monotonicity of `goUnionType`. -/
theorem goUnionType_fuel_succ (s : goGenState) :
    ∀ (n : Nat) (args : resolveTypeArgs) (b1 b2 b3 : Bool),
      (goUnionType s n args b1 b2 b3).1 ≠ .diverges →
      goUnionType s (n + 1) args b1 b2 b3 = goUnionType s n args b1 b2 b3
  | n, ⟨none, c⟩, b1, b2, b3, _ => by
    rw [goUnionType.eq_1, goUnionType.eq_1]
  | n, ⟨some t, c⟩, b1, b2, b3, h => by
    have hL := goUnionType.eq_2 s (n + 1) b1 b2 b3 t c
    have hR := goUnionType.eq_2 s n b1 b2 b3 t c
    rw [hR] at h
    rw [hL, hR]
    clear hL hR
    have hrange : (goUnionSubTypesRange s n t.Types c [] [] [] b1 b2 b3).1 ≠ .diverges := by
      intro hd
      rcases hr : goUnionSubTypesRange s n t.Types c [] [] [] b1 b2 b3 with ⟨o, calls⟩
      rw [hr] at hd h
      simp only at hd
      subst hd
      exact h rfl
    rw [goUnionSubTypesRange_fuel_succ s n t.Types c [] [] [] b1 b2 b3 hrange]
termination_by n args => (n, sizeOf args.yangType, 0)
decreasing_by
  all_goals simp_wf
  have hlt : sizeOf t.Types < sizeOf t := by
    cases t
    simp only [YangType.Types, YangType.mk.sizeOf_spec]
    omega
  exact Prod.Lex.right _ (Prod.Lex.left _ _ (by omega))
/-- Fuel monotonicity of the member loop. -/
theorem goUnionSubTypesRange_fuel_succ (s : goGenState) :
    ∀ (n : Nat) (types : List YangType) (ctx : Option Entry) (errs : List String)
      (cur : List (String × Nat)) (mapped : List (Nat × MappedType)) (b1 b2 b3 : Bool),
      (goUnionSubTypesRange s n types ctx errs cur mapped b1 b2 b3).1 ≠ .diverges →
      goUnionSubTypesRange s (n + 1) types ctx errs cur mapped b1 b2 b3
        = goUnionSubTypesRange s n types ctx errs cur mapped b1 b2 b3
  | n, [], ctx, errs, cur, mapped, b1, b2, b3, _ => by
    rw [goUnionSubTypesRange, goUnionSubTypesRange]
  | n, st :: rest, ctx, errs, cur, mapped, b1, b2, b3, h => by
    have hL := goUnionSubTypesRange.eq_2 s (n + 1) ctx errs cur mapped b1 b2 b3 st rest
    have hR := goUnionSubTypesRange.eq_2 s n ctx errs cur mapped b1 b2 b3 st rest
    rw [hR] at h
    rw [hL, hR]
    clear hL hR
    have hsub : (goUnionSubTypes s n st ctx cur mapped b1 b2 b3).1 ≠ .diverges := by
      intro hd
      rcases hr : goUnionSubTypes s n st ctx cur mapped b1 b2 b3 with ⟨o, calls⟩
      rw [hr] at hd h
      simp only at hd
      subst hd
      exact h rfl
    rw [goUnionSubTypes_fuel_succ s n st ctx cur mapped b1 b2 b3 hsub]
    rcases hr : goUnionSubTypes s n st ctx cur mapped b1 b2 b3 with ⟨o, calls⟩
    rw [hr] at h
    rcases o with ⟨e1, c1, m1⟩ | _ | _
    · simp only at h ⊢
      rw [goUnionSubTypesRange_fuel_succ s n rest ctx (errs ++ e1) c1 m1 b1 b2 b3 h]
    · rfl
    · rfl
termination_by n types => (n, sizeOf types, 0)
decreasing_by
  all_goals simp_wf
  · have hpos : 0 < sizeOf rest := by cases rest <;> simp
    exact Prod.Lex.right _ (Prod.Lex.left _ _ (by omega))
  · exact Prod.Lex.right _ (Prod.Lex.left _ _ (by omega))
/-- Fuel monotonicity of `goUnionSubTypes`. -/
theorem goUnionSubTypes_fuel_succ (s : goGenState) :
    ∀ (n : Nat) (subtype : YangType) (ctx : Option Entry) (cur : List (String × Nat))
      (mapped : List (Nat × MappedType)) (b1 b2 b3 : Bool),
      (goUnionSubTypes s n subtype ctx cur mapped b1 b2 b3).1 ≠ .diverges →
      goUnionSubTypes s (n + 1) subtype ctx cur mapped b1 b2 b3
        = goUnionSubTypes s n subtype ctx cur mapped b1 b2 b3
  | n, subtype, ctx, cur, mapped, b1, b2, b3, h => by
    have hL := goUnionSubTypes.eq_1 s (n + 1) subtype ctx cur mapped b1 b2 b3
    have hR := goUnionSubTypes.eq_1 s n subtype ctx cur mapped b1 b2 b3
    rw [hR] at h
    rw [hL, hR]
    clear hL hR
    by_cases hty : subtype.Types.length ≠ 0
    · simp only [if_pos hty] at h ⊢
      exact goUnionSubTypesRange_fuel_succ s n subtype.Types ctx [] cur mapped b1 b2 b3 h
    · simp only [if_neg hty] at h ⊢
      have hy : subtype.Kind ≠ .Yidentityref →
          (yangTypeToGoType s n ⟨some subtype, ctx⟩ b1 b2 b3).1 ≠ .diverges := by
        intro hk hd
        rcases hr : yangTypeToGoType s n ⟨some subtype, ctx⟩ b1 b2 b3 with ⟨o, calls⟩
        rw [hr] at hd h
        simp only at hd
        subst hd
        revert h
        cases hkd : subtype.Kind <;> simp only [hkd, ne_eq, not_true_eq_false, imp_self]
        exact absurd hkd hk
      cases hkd : subtype.Kind <;> simp only [hkd] at hy ⊢ <;>
        rw [yangTypeToGoType_fuel_succ s n ⟨some subtype, ctx⟩ b1 b2 b3 (hy (by simp))]
termination_by n subtype => (n, sizeOf (some subtype), 2)
decreasing_by
  all_goals simp_wf
  all_goals
    have hlt : sizeOf subtype.Types < sizeOf subtype := by
      cases subtype
      simp only [YangType.Types, YangType.mk.sizeOf_spec]
      omega
    first
      | exact Prod.Lex.right _ (Prod.Lex.left _ _ (by omega))
      | exact Prod.Lex.right _ (Prod.Lex.right _ (by omega))
end

/-- A run of `yangTypeToGoType` that does not use up its fuel is the same with any larger
fuel. -/
theorem yangTypeToGoType_fuel_le (s : goGenState) (n m : Nat) (args : resolveTypeArgs)
    (b1 b2 b3 : Bool) (h : (yangTypeToGoType s n args b1 b2 b3).1 ≠ .diverges) (hnm : n ≤ m) :
    yangTypeToGoType s m args b1 b2 b3 = yangTypeToGoType s n args b1 b2 b3 := by
  induction m with
  | zero =>
    have : n = 0 := by omega
    subst this
    rfl
  | succ k ih =>
    by_cases hk : n ≤ k
    · have hkn := ih hk
      rw [yangTypeToGoType_fuel_succ s k args b1 b2 b3 (by rw [hkn]; exact h), hkn]
    · have : n = k + 1 := by omega
      subst this
      rfl

/-! ## The text of the aggregate error -/

/-- Every string of a list occurs in the list joined by a separator. -/
theorem infix_intercalate_go (sep e : String) :
    ∀ (l : List String) (acc : String), (e ∈ l ∨ e.data <:+: acc.data) →
      e.data <:+: (String.intercalate.go acc sep l).data := by
  intro l
  induction l with
  | nil =>
    intro acc h
    rcases h with h | h
    · exact absurd h (List.not_mem_nil e)
    · simpa [String.intercalate.go] using h
  | cons a l ih =>
    intro acc h
    simp only [String.intercalate.go]
    apply ih
    rcases h with h | h
    · rcases List.mem_cons.1 h with rfl | h
      · right
        simp only [String.data_append]
        exact (List.suffix_append _ _).isInfix
      · exact Or.inl h
    · right
      simp only [String.data_append, List.append_assoc]
      exact h.trans (List.prefix_append _ _).isInfix

/-- Every error of the list occurs in the text of the aggregate error. -/
theorem infix_errorsMappingElement (errs : List String) (e : String) (h : e ∈ errs) :
    e.data <:+: (errorsMappingElement errs).data := by
  have hin : e.data <:+: (" ".intercalate errs).data := by
    cases errs with
    | nil => exact absurd h (List.not_mem_nil e)
    | cons a l =>
      simp only [String.intercalate]
      apply infix_intercalate_go
      rcases List.mem_cons.1 h with rfl | h
      · exact Or.inr List.infix_rfl
      · exact Or.inl h
  simp only [errorsMappingElement, String.data_append]
  exact hin.trans ((List.suffix_append _ _).isInfix.trans (List.prefix_append _ _).isInfix)

/-! ## Calls of a run that returns a mapped type -/

mutual
/-- A run of `yangTypeToGoType` that returns a mapped type made no call that failed, provided
this holds of the runs with one hop of fuel less. -/
theorem yangTypeToGoType_calls_of_mapped (s : goGenState) (n : Nat)
    (hprev : ∀ k, n = k + 1 → ∀ (args : resolveTypeArgs) (b1 b2 b3 : Bool) (m : MappedType)
      (calls : List Call), yangTypeToGoType s k args b1 b2 b3 = (.returns (.ok m), calls) →
      ∀ call ∈ calls, call.failed s = false) :
    ∀ (args : resolveTypeArgs) (b1 b2 b3 : Bool) (m : MappedType) (calls : List Call),
      yangTypeToGoType s n args b1 b2 b3 = (.returns (.ok m), calls) →
      ∀ call ∈ calls, call.failed s = false
  | ⟨none, c⟩, b1, b2, b3, m, calls, h => by
    rw [yangTypeToGoType] at h
    cases htd : s.LookupTypedef none c with
    | error err => simp [htd] at h
    | ok o =>
      cases o with
      | none => simp [htd] at h
      | some M =>
        simp only [htd, Prod.mk.injEq] at h
        obtain ⟨_, rfl⟩ := h
        intro call hc
        simp only [List.mem_singleton] at hc
        subst hc
        simp [Call.failed, htd]
  | ⟨some t, c⟩, b1, b2, b3, m, calls, h => by
    rw [yangTypeToGoType] at h
    cases htd : s.LookupTypedef (some t) c with
    | error err => simp [htd] at h
    | ok o =>
      have htdok : (Call.LookupTypedef (some t) c).failed s = false := by
        simp [Call.failed, htd]
      cases o with
      | some M =>
        simp only [htd, Prod.mk.injEq] at h
        obtain ⟨_, rfl⟩ := h
        intro call hc
        simp only [List.mem_singleton] at hc
        subst hc
        exact htdok
      | none =>
        simp only [htd] at h
        cases hk : t.Kind <;> simp only [hk] at h
        case Yunion =>
          rcases hu : goUnionType s n ⟨some t, c⟩ b1 b2 b3 with ⟨o, ucalls⟩
          rw [hu] at h
          simp only [Prod.mk.injEq] at h
          obtain ⟨rfl, rfl⟩ := h
          intro call hc
          rcases List.mem_cons.1 hc with rfl | hc
          · exact htdok
          · exact goUnionType_calls_of_mapped s n hprev ⟨some t, c⟩ b1 b2 b3 m ucalls hu call hc
        case Yleafref =>
          cases ht : s.resolveLeafrefTarget t.Path c with
          | error err => simp [ht] at h
          | ok target =>
            have hrlok : (Call.resolveLeafrefTarget t.Path c).failed s = false := by
              simp [Call.failed, ht]
            simp only [ht] at h
            cases n with
            | zero => simp at h
            | succ k =>
              simp only at h
              rcases hr : yangTypeToGoType s k ⟨target.Typ, some target⟩ b1 b2 b3
                with ⟨o, rcalls⟩
              rw [hr] at h
              simp only [Prod.mk.injEq] at h
              obtain ⟨rfl, rfl⟩ := h
              intro call hc
              rcases List.mem_cons.1 hc with rfl | hc
              · exact htdok
              · rcases List.mem_cons.1 hc with rfl | hc
                · exact hrlok
                · exact hprev k rfl _ b1 b2 b3 m rcalls hr call hc
        case Yenum =>
          cases c with
          | none => simp at h
          | some ce =>
            simp only at h
            cases he : s.LookupEnum t ce with
            | error err => simp [he] at h
            | ok M =>
              simp only [he, Prod.mk.injEq] at h
              obtain ⟨_, rfl⟩ := h
              intro call hc
              rcases List.mem_cons.1 hc with rfl | hc
              · exact htdok
              · simp only [List.mem_singleton] at hc
                subst hc
                simp [Call.failed, he]
        case Yidentityref =>
          cases c with
          | none => simp at h
          | some ce =>
            simp only at h
            cases hct : ce.Typ with
            | none => simp [hct] at h
            | some ct =>
              simp only [hct] at h
              cases hi : s.LookupIdentity ct.IdentityBase with
              | error err => simp [hi] at h
              | ok M =>
                simp only [hi, Prod.mk.injEq] at h
                obtain ⟨_, rfl⟩ := h
                intro call hc
                rcases List.mem_cons.1 hc with rfl | hc
                · exact htdok
                · simp only [List.mem_singleton] at hc
                  subst hc
                  simp [Call.failed, hi]
        all_goals
          simp only [Prod.mk.injEq] at h
          obtain ⟨_, rfl⟩ := h
          intro call hc
          simp only [List.mem_singleton] at hc
          subst hc
          exact htdok
termination_by args => (sizeOf args.yangType, 1)
decreasing_by
  all_goals simp_wf
  all_goals exact Prod.Lex.right _ (by omega)
/-- A run of `goUnionType` that returns a mapped type made no call that failed. -/
theorem goUnionType_calls_of_mapped (s : goGenState) (n : Nat)
    (hprev : ∀ k, n = k + 1 → ∀ (args : resolveTypeArgs) (b1 b2 b3 : Bool) (m : MappedType)
      (calls : List Call), yangTypeToGoType s k args b1 b2 b3 = (.returns (.ok m), calls) →
      ∀ call ∈ calls, call.failed s = false) :
    ∀ (args : resolveTypeArgs) (b1 b2 b3 : Bool) (m : MappedType) (calls : List Call),
      goUnionType s n args b1 b2 b3 = (.returns (.ok m), calls) →
      ∀ call ∈ calls, call.failed s = false
  | ⟨none, c⟩, b1, b2, b3, m, calls, h => by
    rw [goUnionType.eq_1] at h
    simp at h
  | ⟨some t, c⟩, b1, b2, b3, m, calls, h => by
    rw [goUnionType.eq_2] at h
    rcases hr : goUnionSubTypesRange s n t.Types c [] [] [] b1 b2 b3 with ⟨o, rcalls⟩
    rw [hr] at h
    rcases o with ⟨e, uT, uM⟩ | _ | _
    · simp only at h
      obtain ⟨suf, hsuf, hok⟩ :=
        goUnionSubTypesRange_calls_of_mapped s n hprev t.Types c [] [] [] b1 b2 b3 e uT uM
          rcalls hr
      by_cases he : e = []
      · simp only [he, ne_eq, not_true_eq_false, if_false, Prod.mk.injEq] at h
        obtain ⟨_, rfl⟩ := h
        apply hok
        rw [he] at hsuf
        simpa using hsuf.symm
      · simp [he] at h
    · simp at h
    · simp at h
termination_by args => (sizeOf args.yangType, 0)
decreasing_by
  all_goals simp_wf
  have hlt : sizeOf t.Types < sizeOf t := by
    cases t
    simp only [YangType.Types, YangType.mk.sizeOf_spec]
    omega
  exact Prod.Lex.left _ _ (by omega)
/-- The member loop only appends to the errors, and when it appends none it made no call that
failed. -/
theorem goUnionSubTypesRange_calls_of_mapped (s : goGenState) (n : Nat)
    (hprev : ∀ k, n = k + 1 → ∀ (args : resolveTypeArgs) (b1 b2 b3 : Bool) (m : MappedType)
      (calls : List Call), yangTypeToGoType s k args b1 b2 b3 = (.returns (.ok m), calls) →
      ∀ call ∈ calls, call.failed s = false) :
    ∀ (types : List YangType) (ctx : Option Entry) (errs : List String)
      (cur : List (String × Nat)) (mapped : List (Nat × MappedType)) (b1 b2 b3 : Bool)
      (e : List String) (cur1 : List (String × Nat)) (mapped1 : List (Nat × MappedType))
      (calls : List Call),
      goUnionSubTypesRange s n types ctx errs cur mapped b1 b2 b3
        = (.returns (e, cur1, mapped1), calls) →
      ∃ suf, e = errs ++ suf ∧ (suf = [] → ∀ call ∈ calls, call.failed s = false)
  | [], ctx, errs, cur, mapped, b1, b2, b3, e, cur1, mapped1, calls, h => by
    rw [goUnionSubTypesRange] at h
    simp only [Prod.mk.injEq, Outcome.returns.injEq] at h
    obtain ⟨⟨rfl, _, _⟩, rfl⟩ := h
    exact ⟨[], by simp, fun _ call hc => absurd hc (List.not_mem_nil call)⟩
  | st :: rest, ctx, errs, cur, mapped, b1, b2, b3, e, cur1, mapped1, calls, h => by
    rw [goUnionSubTypesRange.eq_2] at h
    rcases hs : goUnionSubTypes s n st ctx cur mapped b1 b2 b3 with ⟨o, scalls⟩
    rw [hs] at h
    rcases o with ⟨e1, c1, m1⟩ | _ | _
    · simp only at h
      rcases hr : goUnionSubTypesRange s n rest ctx (errs ++ e1) c1 m1 b1 b2 b3
        with ⟨o2, rcalls⟩
      rw [hr] at h
      simp only [Prod.mk.injEq] at h
      obtain ⟨rfl, rfl⟩ := h
      obtain ⟨suf2, hsuf2, hok2⟩ :=
        goUnionSubTypesRange_calls_of_mapped s n hprev rest ctx (errs ++ e1) c1 m1 b1 b2 b3
          e cur1 mapped1 rcalls hr
      have hok1 := goUnionSubTypes_calls_of_mapped s n hprev st ctx cur mapped b1 b2 b3
        e1 c1 m1 scalls hs
      refine ⟨e1 ++ suf2, by rw [hsuf2, List.append_assoc], ?_⟩
      intro hnil call hc
      have h1 : e1 = [] := (List.append_eq_nil.1 hnil).1
      have h2 : suf2 = [] := (List.append_eq_nil.1 hnil).2
      rcases List.mem_append.1 hc with hc | hc
      · exact hok1 h1 call hc
      · exact hok2 h2 call hc
    · simp at h
    · simp at h
termination_by types => (sizeOf types, 0)
decreasing_by
  all_goals simp_wf
  · exact Prod.Lex.left _ _ (by omega)
  · have hpos : 0 < sizeOf rest := by cases rest <;> simp
    exact Prod.Lex.left _ _ (by omega)
/-- A run of `goUnionSubTypes` that returns no error made no call that failed. -/
theorem goUnionSubTypes_calls_of_mapped (s : goGenState) (n : Nat)
    (hprev : ∀ k, n = k + 1 → ∀ (args : resolveTypeArgs) (b1 b2 b3 : Bool) (m : MappedType)
      (calls : List Call), yangTypeToGoType s k args b1 b2 b3 = (.returns (.ok m), calls) →
      ∀ call ∈ calls, call.failed s = false) :
    ∀ (subtype : YangType) (ctx : Option Entry) (cur : List (String × Nat))
      (mapped : List (Nat × MappedType)) (b1 b2 b3 : Bool) (e : List String)
      (cur1 : List (String × Nat)) (mapped1 : List (Nat × MappedType)) (calls : List Call),
      goUnionSubTypes s n subtype ctx cur mapped b1 b2 b3
        = (.returns (e, cur1, mapped1), calls) →
      e = [] → ∀ call ∈ calls, call.failed s = false
  | subtype, ctx, cur, mapped, b1, b2, b3, e, cur1, mapped1, calls, h => by
    rw [goUnionSubTypes] at h
    by_cases hty : subtype.Types.length ≠ 0
    · simp only [if_pos hty] at h
      obtain ⟨suf, hsuf, hok⟩ :=
        goUnionSubTypesRange_calls_of_mapped s n hprev subtype.Types ctx [] cur mapped
          b1 b2 b3 e cur1 mapped1 calls h
      intro he
      apply hok
      rw [he] at hsuf
      simpa using hsuf.symm
    · simp only [if_neg hty] at h
      intro he
      have hmember : ∀ (y : Outcome (Except String MappedType) × List Call),
          yangTypeToGoType s n ⟨some subtype, ctx⟩ b1 b2 b3 = y →
          (match y with
            | (.returns (.error err), ycalls) => (Outcome.returns ([err], cur, mapped), ycalls)
            | (.returns (.ok mtype), ycalls) =>
              (Outcome.returns ([], addUnionSubType mtype cur mapped), ycalls)
            | (.panics, ycalls) => (Outcome.panics, ycalls)
            | (.diverges, ycalls) => (Outcome.diverges, ycalls))
            = (.returns (e, cur1, mapped1), calls) →
          ∀ call ∈ calls, call.failed s = false := by
        intro y hy hm
        rcases y with ⟨o, ycalls⟩
        rcases o with (err | mtype) | _ | _
        · simp only [Prod.mk.injEq, Outcome.returns.injEq] at hm
          rw [← hm.1.1] at he
          exact absurd he (by simp)
        · simp only [Prod.mk.injEq] at hm
          obtain ⟨_, rfl⟩ := hm
          exact yangTypeToGoType_calls_of_mapped s n hprev ⟨some subtype, ctx⟩ b1 b2 b3
            mtype ycalls hy
        · simp at hm
        · simp at hm
      cases hk : subtype.Kind with
      | Yidentityref =>
        simp only [hk] at h
        cases hi : s.LookupIdentity subtype.IdentityBase with
        | error err =>
          simp only [hi, Prod.mk.injEq, Outcome.returns.injEq] at h
          rw [← h.1.1] at he
          exact absurd he (by simp)
        | ok M =>
          simp only [hi, Prod.mk.injEq] at h
          obtain ⟨_, rfl⟩ := h
          intro call hc
          simp only [List.mem_singleton] at hc
          subst hc
          simp [Call.failed, hi]
      | _ =>
        simp only [hk] at h
        exact hmember _ rfl h
termination_by subtype => (sizeOf (some subtype), 2)
decreasing_by
  all_goals simp_wf
  all_goals
    have hlt : sizeOf subtype.Types < sizeOf subtype := by
      cases subtype
      simp only [YangType.Types, YangType.mk.sizeOf_spec]
      omega
    first
      | exact Prod.Lex.left _ _ (by omega)
      | exact Prod.Lex.right _ (by omega)
end

/-- A run of `yangTypeToGoType` that returns a mapped type made no call that failed, whatever
the fuel. -/
theorem yangTypeToGoType_no_failed_call (s : goGenState) :
    ∀ (n : Nat) (args : resolveTypeArgs) (b1 b2 b3 : Bool) (m : MappedType)
      (calls : List Call), yangTypeToGoType s n args b1 b2 b3 = (.returns (.ok m), calls) →
      ∀ call ∈ calls, call.failed s = false := by
  intro n
  induction n with
  | zero =>
    exact yangTypeToGoType_calls_of_mapped s 0 (fun k hk => absurd hk (by omega))
  | succ j ih =>
    refine yangTypeToGoType_calls_of_mapped s (j + 1) (fun k hk => ?_)
    have hkj : k = j := by omega
    subst hkj
    exact ih

/-! ## Lemmas on `pathToCamelCaseName` -/

/-- Pushing an underscore appends the text `_`. -/
theorem push_underscore (s : String) : s.push '_' = s ++ "_" := by
  apply String.ext
  simp

/-- Joining one more text: the loop of `String.intercalate`. -/
theorem intercalate_go_snoc (sep : String) (y : String) : ∀ (as : List String) (acc : String),
    String.intercalate.go acc sep (as ++ [y]) = String.intercalate.go acc sep as ++ sep ++ y
  | [], acc => by simp [String.intercalate.go]
  | a :: as, acc => by
    simp only [List.cons_append, String.intercalate.go]
    exact intercalate_go_snoc sep y as _

/-- Joining one more text to a non-empty list adds one separator and the text. -/
theorem intercalate_snoc (sep : String) (xs : List String) (y : String) (h : xs ≠ []) :
    sep.intercalate (xs ++ [y]) = sep.intercalate xs ++ sep ++ y := by
  cases xs with
  | nil => exact absurd rfl h
  | cons x xs =>
    simp only [List.cons_append, String.intercalate]
    exact intercalate_go_snoc sep y xs x

/-- The length of the loop of `String.intercalate`. -/
theorem intercalate_go_length (sep : String) : ∀ (as : List String) (acc : String),
    (String.intercalate.go acc sep as).length
      = acc.length + (as.map String.length).sum + as.length * sep.length
  | [], acc => by simp [String.intercalate.go]
  | a :: as, acc => by
    simp only [String.intercalate.go]
    rw [intercalate_go_length sep as]
    simp only [String.length_append, List.map_cons, List.sum_cons, List.length_cons]
    ring

/-- The length of a joined text: the lengths of the texts and one separator less than there
are texts. -/
theorem intercalate_length (sep : String) (xs : List String) :
    (sep.intercalate xs).length
      = (xs.map String.length).sum + (xs.length - 1) * sep.length := by
  cases xs with
  | nil => simp [String.intercalate]
  | cons x xs =>
    simp only [String.intercalate]
    rw [intercalate_go_length]
    simp only [List.map_cons, List.sum_cons, List.length_cons, Nat.add_sub_cancel]

/-- The indices below `n` from the last to the first. -/
theorem range_reverse_eq (n : Nat) :
    (List.range n).reverse = (List.range n).map (fun i => n - 1 - i) := by
  apply List.ext_getElem (by simp)
  intro i h1 h2
  simp

/-- One more element at the front is written last. -/
theorem writeTail_cons {α : Type} (name : α → String) (d : α) (a : α) (l : List α) :
    writeTail name d (a :: l) = (writeTail name d l ++ name a).push '_' := by
  unfold writeTail
  rw [List.length_cons, List.range_succ_eq_map, List.foldr_cons, List.foldr_map]
  simp

/-- The text of `writeTail` followed by one more text is the joined text. -/
theorem writeTail_append {α : Type} (name : α → String) (d : α) : ∀ (l : List α) (y : String),
    writeTail name d l ++ y = "_".intercalate (l.reverse.map name ++ [y])
  | [], y => by simp [writeTail, String.intercalate, String.intercalate.go]
  | b :: l, y => by
    rw [writeTail_cons, writeTail_append name d l (name b), push_underscore,
      List.reverse_cons, List.map_append, List.map_singleton,
      intercalate_snoc "_" _ y (by simp)]

/-- The writing loop of `pathToCamelCaseName` joins the names, last element first, by
underscores. -/
theorem writeLoop_eq {α : Type} (name : α → String) (d : α) (l : List α) :
    (List.range l.length).foldl
      (fun buf i =>
        let idx := l.length - 1 - i
        let buf := buf ++ name (l.getD idx d)
        if idx ≠ 0 then buf.push '_' else buf) ""
      = "_".intercalate (l.reverse.map name) := by
  have h1 : (List.range l.length).foldl
      (fun buf i =>
        let idx := l.length - 1 - i
        let buf := buf ++ name (l.getD idx d)
        if idx ≠ 0 then buf.push '_' else buf) ""
      = (List.range l.length).foldr
          (fun idx buf => if idx ≠ 0 then (buf ++ name (l.getD idx d)).push '_'
            else buf ++ name (l.getD idx d)) "" := by
    rw [← List.foldl_reverse, range_reverse_eq, List.foldl_map]
  rw [h1]
  cases l with
  | nil => simp [String.intercalate]
  | cons a l =>
    rw [List.length_cons, List.range_succ_eq_map, List.foldr_cons, List.foldr_map]
    simp only [ne_eq, not_true_eq_false, if_false, List.getD_cons_zero, Function.comp,
      Nat.succ_ne_zero, not_false_eq_true, if_true, List.getD_cons_succ, List.reverse_cons,
      List.map_append, List.map_singleton]
    exact writeTail_append name d l (name a)

/-- The function `writePathElements` joins the names of the path elements, last element first,
by underscores. -/
theorem writePathElements_eq (s : goGenState) (l : List (Option Entry)) :
    writePathElements s l = "_".intercalate (l.reverse.map s.EntryCamelCaseName) :=
  writeLoop_eq s.EntryCamelCaseName none l

/-- The first loop of `pathToCamelCaseName` collects the included elements among `e` and its
ancestors, `e` first. -/
theorem pathElementsLoop_eq (s : goGenState) (compress : Bool) :
    ∀ e : Option Entry, pathElementsLoop s compress e
      = (((ancestorsRootFirst e).filter (includedInPathName s compress)).reverse).map some
  | none => by
    rw [pathElementsLoop, ancestorsRootFirst]
    rfl
  | some (.mk n t parent) => by
    rw [pathElementsLoop, ancestorsRootFirst, pathElementsLoop_eq s compress parent]
    rw [List.filter_append, List.reverse_append, List.map_append]
    congr 1
    cases compress <;>
      by_cases h1 : s.IsOCCompressedValidElement (.mk n t parent) = true <;>
      by_cases h2 : s.IsChoiceOrCase (.mk n t parent) = true <;>
      simp [includedInPathName, List.filter, h1, h2]

/-! ## Lemmas on the enumeration Registry -/

/-- Appending an underscore to a used name leaves fewer used names that start with it. -/
theorem usedWithPrefix_lt (used : List String) (name : String) (h : name ∈ used) :
    (usedWithPrefix used (name ++ "_")).length < (usedWithPrefix used name).length := by
  induction used with
  | nil => exact absurd h (List.not_mem_nil _)
  | cons u us ih =>
    have hmono : ∀ l : List String,
        (usedWithPrefix l (name ++ "_")).length ≤ (usedWithPrefix l name).length := by
      intro l
      induction l with
      | nil => simp [usedWithPrefix]
      | cons v vs ihv =>
        simp only [usedWithPrefix, List.filter_cons] at ihv ⊢
        by_cases h1 : (name ++ "_").data.isPrefixOf v.data = true
        · have h2 : name.data.isPrefixOf v.data = true := by
            rw [List.isPrefixOf_iff_prefix] at h1 ⊢
            exact (List.prefix_append _ _).trans (by simpa using h1)
          simp only [h1, h2, if_true, List.length_cons]
          omega
        · by_cases h2 : name.data.isPrefixOf v.data = true
          · simp only [h1, h2, if_true, if_false, Bool.false_eq_true, List.length_cons]
            omega
          · simp only [h1, h2, if_false, Bool.false_eq_true]
            exact ihv
    by_cases hu : u = name
    · subst hu
      have h1 : ¬ ((u ++ "_").data.isPrefixOf u.data = true) := by
        rw [List.isPrefixOf_iff_prefix]
        intro hp
        have := hp.length_le
        simp at this
      have h2 : u.data.isPrefixOf u.data = true := by
        rw [List.isPrefixOf_iff_prefix]
      have := hmono us
      simp only [usedWithPrefix, List.filter_cons, h1, h2, if_true, if_false,
        Bool.false_eq_true, List.length_cons] at this ⊢
      omega
    · have hmem : name ∈ us := by
        rcases List.mem_cons.1 h with h | h
        · exact absurd h.symm hu
        · exact h
      have := ih hmem
      simp only [usedWithPrefix, List.filter_cons] at this ⊢
      by_cases h1 : (name ++ "_").data.isPrefixOf u.data = true
      · have h2 : name.data.isPrefixOf u.data = true := by
          rw [List.isPrefixOf_iff_prefix] at h1 ⊢
          exact (List.prefix_append _ _).trans (by simpa using h1)
        simp only [h1, h2, if_true, List.length_cons]
        omega
      · by_cases h2 : name.data.isPrefixOf u.data = true
        · simp only [h1, h2, if_true, if_false, Bool.false_eq_true, List.length_cons]
          omega
        · simp only [h1, h2, if_false, Bool.false_eq_true]
          exact this

/-- The loop returns an unused name when it has as many rounds as there are used names that
start with the name. -/
theorem makeNameUniqueLoop_not_mem (used : List String) : ∀ (fuel : Nat) (name : String),
    (usedWithPrefix used name).length ≤ fuel → makeNameUniqueLoop used fuel name ∉ used
  | 0, name, h => by
    simp only [makeNameUniqueLoop]
    intro hmem
    have : name ∈ usedWithPrefix used name := by
      simp only [usedWithPrefix, List.mem_filter, List.isPrefixOf_iff_prefix]
      exact ⟨hmem, List.prefix_rfl⟩
    have hpos := List.length_pos_of_mem this
    omega
  | fuel + 1, name, h => by
    simp only [makeNameUniqueLoop]
    by_cases hmem : name ∈ used
    · rw [if_pos hmem]
      apply makeNameUniqueLoop_not_mem used fuel
      have := usedWithPrefix_lt used name hmem
      omega
    · rw [if_neg hmem]
      exact hmem

/-- A name made unique is not among the used names. -/
theorem makeNameUnique_not_mem (used : List String) (name : String) :
    makeNameUnique used name ∉ used := by
  apply makeNameUniqueLoop_not_mem
  exact List.length_filter_le _ _

/-- A value read from a map is the value of an entry of the map. -/
theorem mem_of_mapGet {κ ν : Type} [DecidableEq κ] (m : List (κ × ν)) (k : κ) (v : ν)
    (h : mapGet m k = some v) : (k, v) ∈ m := by
  simp only [mapGet, Option.map_eq_some'] at h
  obtain ⟨p, hp, rfl⟩ := h
  have hk := List.find?_some hp
  have hmem := List.mem_of_find?_eq_some hp
  simp only [decide_eq_true_eq] at hk
  rw [← hk]
  exact hmem

/-- The entries after a lookup: the name returned is assigned to the path of the context, and
the names stay pairwise distinct. -/
theorem registryLookupEnum_spec (s : goGenState) (b1 b3 : Bool) (reg : List (String × String))
    (c : Entry) (hnd : (reg.map Prod.snd).Nodup) :
    (c.Path, (registryLookupEnum s b1 b3 reg c).1.NativeType)
        ∈ (registryLookupEnum s b1 b3 reg c).2
      ∧ ((registryLookupEnum s b1 b3 reg c).2.map Prod.snd).Nodup := by
  unfold registryLookupEnum
  cases hget : mapGet reg c.Path with
  | some name => exact ⟨mem_of_mapGet reg c.Path name hget, hnd⟩
  | none =>
    have hnot := (mapGet_eq_none_iff reg c.Path).1 hget
    simp only [mapSet_of_not_mem reg c.Path _ hnot, List.mem_append, List.mem_singleton,
      or_true, true_and, List.map_append, List.map_cons, List.map_nil]
    rw [List.nodup_append]
    refine ⟨hnd, List.nodup_singleton _, ?_⟩
    intro a ha hb
    simp only [List.mem_singleton] at hb
    subst hb
    exact makeNameUnique_not_mem _ _ ha

/-- Two lookups in sequence at two different schema paths return two different names. -/
theorem registryLookupEnum_distinct (s : goGenState) (b1 b3 : Bool)
    (reg : List (String × String)) (c1 c2 : Entry) (hnd : (reg.map Prod.snd).Nodup)
    (hpath : c1.Path ≠ c2.Path) :
    (registryLookupEnum s b1 b3 reg c1).1.NativeType
      ≠ (registryLookupEnum s b1 b3 (registryLookupEnum s b1 b3 reg c1).2 c2).1.NativeType := by
  obtain ⟨hmem1, hnd1⟩ := registryLookupEnum_spec s b1 b3 reg c1 hnd
  generalize (registryLookupEnum s b1 b3 reg c1).1.NativeType = n1 at hmem1 ⊢
  generalize (registryLookupEnum s b1 b3 reg c1).2 = reg1 at hmem1 hnd1 ⊢
  unfold registryLookupEnum
  cases hget : mapGet reg1 c2.Path with
  | some n2 =>
    simp only
    intro heq
    subst heq
    have hmem2 := mem_of_mapGet reg1 c2.Path n1 hget
    have hinj := List.inj_on_of_nodup_map hnd1 hmem1 hmem2 rfl
    exact hpath (congrArg Prod.fst hinj)
  | none =>
    simp only
    intro heq
    apply makeNameUnique_not_mem (reg1.map Prod.snd)
    rw [← heq]
    exact List.mem_map_of_mem Prod.snd hmem1

/-- The two example leaves named `mode` are at two different schema paths. -/
theorem exampleMode_path_ne : exampleMode.Path ≠ exampleModeA.Path := by
  have h1 : exampleMode.Path = "/if/mode" := by
    simp only [exampleMode, exampleEntryIf, Entry.Path]
    decide
  have h2 : exampleModeA.Path = "/a/mode" := by
    simp only [exampleModeA, exampleEntryA, Entry.Path]
    decide
  rw [h1, h2]
  decide

/-! ## The flags of a run -/

mutual
/-- A run of `yangTypeToGoType` is the same for all values of `skipEnumDedup` and
`shortenEnumLeafNames`, and for two values of `compressOCPaths` that give the same path names,
provided this holds of the runs with one hop of fuel less. -/
theorem yangTypeToGoType_flags_step (s : goGenState) (n : Nat) (b1 c1 : Bool)
    (hname : ∀ e, pathToCamelCaseName s e b1 false = pathToCamelCaseName s e c1 false)
    (hprev : ∀ k, n = k + 1 → ∀ (args : resolveTypeArgs) (b2 b3 c2 c3 : Bool),
      yangTypeToGoType s k args b1 b2 b3 = yangTypeToGoType s k args c1 c2 c3) :
    ∀ (args : resolveTypeArgs) (b2 b3 c2 c3 : Bool),
      yangTypeToGoType s n args b1 b2 b3 = yangTypeToGoType s n args c1 c2 c3
  | ⟨none, c⟩, b2, b3, c2, c3 => by
    rw [yangTypeToGoType.eq_1 s n _ b1 b2 b3, yangTypeToGoType.eq_1 s n _ c1 c2 c3]
  | ⟨some t, c⟩, b2, b3, c2, c3 => by
    rw [yangTypeToGoType.eq_1 s n _ b1 b2 b3, yangTypeToGoType.eq_1 s n _ c1 c2 c3]
    cases htd : s.LookupTypedef (some t) c with
    | error err => rfl
    | ok o =>
      cases o with
      | some M => rfl
      | none =>
        simp only [htd]
        cases hk : t.Kind <;> simp only [hk]
        · cases ht : s.resolveLeafrefTarget t.Path c with
          | error err => rfl
          | ok target =>
            simp only [ht]
            cases n with
            | zero => rfl
            | succ k =>
              simp only
              rw [hprev k rfl ⟨target.Typ, some target⟩ b2 b3 c2 c3]
        · rw [goUnionType_flags_step s n b1 c1 hname hprev ⟨some t, c⟩ b2 b3 c2 c3]
termination_by args => (sizeOf args.yangType, 1)
decreasing_by
  all_goals simp_wf
  all_goals exact Prod.Lex.right _ (by omega)
/-- The flags of a run of `goUnionType`. -/
theorem goUnionType_flags_step (s : goGenState) (n : Nat) (b1 c1 : Bool)
    (hname : ∀ e, pathToCamelCaseName s e b1 false = pathToCamelCaseName s e c1 false)
    (hprev : ∀ k, n = k + 1 → ∀ (args : resolveTypeArgs) (b2 b3 c2 c3 : Bool),
      yangTypeToGoType s k args b1 b2 b3 = yangTypeToGoType s k args c1 c2 c3) :
    ∀ (args : resolveTypeArgs) (b2 b3 c2 c3 : Bool),
      goUnionType s n args b1 b2 b3 = goUnionType s n args c1 c2 c3
  | ⟨none, c⟩, b2, b3, c2, c3 => by
    rw [goUnionType.eq_1, goUnionType.eq_1]
  | ⟨some t, c⟩, b2, b3, c2, c3 => by
    rw [goUnionType.eq_2 s n b1 b2 b3, goUnionType.eq_2 s n c1 c2 c3,
      goUnionSubTypesRange_flags_step s n b1 c1 hname hprev t.Types c [] [] [] b2 b3 c2 c3]
    simp only [unionResolvedType, hname]
termination_by args => (sizeOf args.yangType, 0)
decreasing_by
  all_goals simp_wf
  have hlt : sizeOf t.Types < sizeOf t := by
    cases t
    simp only [YangType.Types, YangType.mk.sizeOf_spec]
    omega
  exact Prod.Lex.left _ _ (by omega)
/-- The flags of a run of the member loop. -/
theorem goUnionSubTypesRange_flags_step (s : goGenState) (n : Nat) (b1 c1 : Bool)
    (hname : ∀ e, pathToCamelCaseName s e b1 false = pathToCamelCaseName s e c1 false)
    (hprev : ∀ k, n = k + 1 → ∀ (args : resolveTypeArgs) (b2 b3 c2 c3 : Bool),
      yangTypeToGoType s k args b1 b2 b3 = yangTypeToGoType s k args c1 c2 c3) :
    ∀ (types : List YangType) (ctx : Option Entry) (errs : List String)
      (cur : List (String × Nat)) (mapped : List (Nat × MappedType)) (b2 b3 c2 c3 : Bool),
      goUnionSubTypesRange s n types ctx errs cur mapped b1 b2 b3
        = goUnionSubTypesRange s n types ctx errs cur mapped c1 c2 c3
  | [], ctx, errs, cur, mapped, b2, b3, c2, c3 => by
    rw [goUnionSubTypesRange, goUnionSubTypesRange]
  | st :: rest, ctx, errs, cur, mapped, b2, b3, c2, c3 => by
    rw [goUnionSubTypesRange.eq_2 s n ctx errs cur mapped b1 b2 b3,
      goUnionSubTypesRange.eq_2 s n ctx errs cur mapped c1 c2 c3,
      goUnionSubTypes_flags_step s n b1 c1 hname hprev st ctx cur mapped b2 b3 c2 c3]
    rcases goUnionSubTypes s n st ctx cur mapped c1 c2 c3 with ⟨o, calls⟩
    rcases o with ⟨e1, cur1, m1⟩ | _ | _
    · simp only
      rw [goUnionSubTypesRange_flags_step s n b1 c1 hname hprev rest ctx (errs ++ e1) cur1 m1
        b2 b3 c2 c3]
    · rfl
    · rfl
termination_by types => (sizeOf types, 0)
decreasing_by
  all_goals simp_wf
  all_goals
    have hpos : 0 < sizeOf rest := by cases rest <;> simp
    exact Prod.Lex.left _ _ (by omega)
/-- The flags of a run of `goUnionSubTypes`. -/
theorem goUnionSubTypes_flags_step (s : goGenState) (n : Nat) (b1 c1 : Bool)
    (hname : ∀ e, pathToCamelCaseName s e b1 false = pathToCamelCaseName s e c1 false)
    (hprev : ∀ k, n = k + 1 → ∀ (args : resolveTypeArgs) (b2 b3 c2 c3 : Bool),
      yangTypeToGoType s k args b1 b2 b3 = yangTypeToGoType s k args c1 c2 c3) :
    ∀ (subtype : YangType) (ctx : Option Entry) (cur : List (String × Nat))
      (mapped : List (Nat × MappedType)) (b2 b3 c2 c3 : Bool),
      goUnionSubTypes s n subtype ctx cur mapped b1 b2 b3
        = goUnionSubTypes s n subtype ctx cur mapped c1 c2 c3
  | subtype, ctx, cur, mapped, b2, b3, c2, c3 => by
    rw [goUnionSubTypes.eq_1 s n subtype ctx cur mapped b1 b2 b3,
      goUnionSubTypes.eq_1 s n subtype ctx cur mapped c1 c2 c3]
    by_cases hty : subtype.Types.length ≠ 0
    · simp only [if_pos hty]
      exact goUnionSubTypesRange_flags_step s n b1 c1 hname hprev subtype.Types ctx [] cur
        mapped b2 b3 c2 c3
    · simp only [if_neg hty]
      rw [yangTypeToGoType_flags_step s n b1 c1 hname hprev ⟨some subtype, ctx⟩ b2 b3 c2 c3]
termination_by subtype => (sizeOf (some subtype), 2)
decreasing_by
  all_goals simp_wf
  all_goals
    have hlt : sizeOf subtype.Types < sizeOf subtype := by
      cases subtype
      simp only [YangType.Types, YangType.mk.sizeOf_spec]
      omega
    first
      | exact Prod.Lex.left _ _ (by omega)
      | exact Prod.Lex.right _ (by omega)
end

/-- A run of `yangTypeToGoType` is the same for all values of `skipEnumDedup` and
`shortenEnumLeafNames`, and for two values of `compressOCPaths` that give the same path
names. -/
theorem yangTypeToGoType_flags (s : goGenState) (b1 c1 : Bool)
    (hname : ∀ e, pathToCamelCaseName s e b1 false = pathToCamelCaseName s e c1 false) :
    ∀ (n : Nat) (args : resolveTypeArgs) (b2 b3 c2 c3 : Bool),
      yangTypeToGoType s n args b1 b2 b3 = yangTypeToGoType s n args c1 c2 c3 := by
  intro n
  induction n with
  | zero =>
    exact yangTypeToGoType_flags_step s 0 b1 c1 hname (fun k hk => absurd hk (by omega))
  | succ j ih =>
    refine yangTypeToGoType_flags_step s (j + 1) b1 c1 hname (fun k hk => ?_)
    have hkj : k = j := by omega
    subst hkj
    exact ih

/-- In the example registry every element is included in a path name with and without path
compression, so the path names are the same. -/
theorem exampleState_path_names (e : Option Entry) :
    pathToCamelCaseName exampleState e true false
      = pathToCamelCaseName exampleState e false false := by
  simp only [pathToCamelCaseName, Bool.false_and, Bool.false_eq_true, if_false]
  rw [pathElementsLoop_eq, pathElementsLoop_eq]
  have h : ∀ b x, includedInPathName exampleState b x = true := by
    intro b x
    cases b <;> simp [includedInPathName, exampleState]
  rw [List.filter_congr (fun x _ => (h true x).trans (h false x).symm)]

/-! ## Runs that end -/

mutual
/-- The leaves of a member tree have no members of their own. -/
theorem unionLeaves_types : ∀ (t l : YangType), l ∈ unionLeaves t → l.Types = []
  | .mk n k d p b [], l, h => by
    rw [unionLeaves] at h
    simp only [List.mem_singleton] at h
    subst h
    rfl
  | .mk n k d p b (t :: ts), l, h => by
    rw [unionLeaves] at h
    exact unionLeavesList_types (t :: ts) l h
/-- The leaves of a list of member trees have no members of their own. -/
theorem unionLeavesList_types : ∀ (ts : List YangType) (l : YangType),
    l ∈ unionLeavesList ts → l.Types = []
  | [], l, h => by
    rw [unionLeavesList] at h
    exact absurd h (List.not_mem_nil l)
  | t :: ts, l, h => by
    rw [unionLeavesList] at h
    rcases List.mem_append.1 h with h | h
    · exact unionLeaves_types t l h
    · exact unionLeavesList_types ts l h
end

/-- A run on a nil type ends whatever the fuel. -/
theorem yangTypeToGoType_none_ends (s : goGenState) (n : Nat) (c : Option Entry)
    (b1 b2 b3 : Bool) : (yangTypeToGoType s n ⟨none, c⟩ b1 b2 b3).1 ≠ .diverges := by
  rw [yangTypeToGoType]
  cases htd : s.LookupTypedef none c with
  | error err => simp
  | ok o => cases o <;> simp

/-- A run on a type that is neither a leaf-reference nor a union ends whatever the fuel. -/
theorem yangTypeToGoType_plain_ends (s : goGenState) (n : Nat) (t : YangType)
    (c : Option Entry) (b1 b2 b3 : Bool) (hl : t.Kind ≠ .Yleafref) (hu : t.Kind ≠ .Yunion) :
    (yangTypeToGoType s n ⟨some t, c⟩ b1 b2 b3).1 ≠ .diverges := by
  rw [yangTypeToGoType]
  cases htd : s.LookupTypedef (some t) c with
  | error err => simp
  | ok o =>
    cases o with
    | some M => simp
    | none =>
      simp only
      cases hk : t.Kind with
      | Yleafref => exact absurd hk hl
      | Yunion => exact absurd hk hu
      | Yenum =>
        simp only
        cases c with
        | none => simp
        | some ce => cases he : s.LookupEnum t ce <;> simp [he]
      | Yidentityref =>
        simp only
        cases c with
        | none => simp
        | some ce =>
          simp only
          cases ce.Typ with
          | none => simp
          | some ct => cases hi : s.LookupIdentity ct.IdentityBase <;> simp [hi]
      | _ => simp

/-- A run on a leaf-reference ends with one more hop of fuel than the run on its target. -/
theorem yangTypeToGoType_leafref_ends (s : goGenState) (n : Nat) (t : YangType)
    (c : Option Entry) (b1 b2 b3 : Bool) (hk : t.Kind = .Yleafref)
    (h : ∀ target, s.resolveLeafrefTarget t.Path c = .ok target →
      (yangTypeToGoType s n ⟨target.Typ, some target⟩ b1 b2 b3).1 ≠ .diverges) :
    (yangTypeToGoType s (n + 1) ⟨some t, c⟩ b1 b2 b3).1 ≠ .diverges := by
  rw [yangTypeToGoType]
  cases htd : s.LookupTypedef (some t) c with
  | error err => simp
  | ok o =>
    cases o with
    | some M => simp
    | none =>
      simp only [hk]
      cases ht : s.resolveLeafrefTarget t.Path c with
      | error err => simp
      | ok target =>
        simp only
        exact h target ht

/-- The flat member loop ends when the resolution of every member ends. -/
theorem foldUnionMembers_ends (s : goGenState) (n : Nat) (ctx : Option Entry)
    (b1 b2 b3 : Bool) :
    ∀ (leaves : List YangType) (errs : List String) (cur : List (String × Nat))
      (mapped : List (Nat × MappedType)),
      (∀ l ∈ leaves, (resolveUnionMember s n l ctx b1 b2 b3).1 ≠ .diverges) →
      (foldUnionMembers s n leaves ctx errs cur mapped b1 b2 b3).1 ≠ .diverges
  | [], errs, cur, mapped, _ => by simp [foldUnionMembers]
  | l :: rest, errs, cur, mapped, h => by
    have hl := h l (List.mem_cons_self l rest)
    have hrest : ∀ x ∈ rest, (resolveUnionMember s n x ctx b1 b2 b3).1 ≠ .diverges :=
      fun x hx => h x (List.mem_cons_of_mem l hx)
    simp only [foldUnionMembers]
    rcases hr : resolveUnionMember s n l ctx b1 b2 b3 with ⟨o, calls⟩
    rw [hr] at hl
    rcases o with (err | m) | _ | _
    · simp only [withCalls]
      exact foldUnionMembers_ends s n ctx b1 b2 b3 rest _ _ _ hrest
    · simp only [withCalls]
      exact foldUnionMembers_ends s n ctx b1 b2 b3 rest _ _ _ hrest
    · simp
    · exact absurd rfl hl

/-- A run on a union ends when the resolution of every member it is flattened to ends. -/
theorem yangTypeToGoType_union_ends (s : goGenState) (n : Nat) (t : YangType)
    (c : Option Entry) (b1 b2 b3 : Bool) (hk : t.Kind = .Yunion)
    (h : ∀ l ∈ unionLeavesList t.Types, (resolveUnionMember s n l c b1 b2 b3).1 ≠ .diverges) :
    (yangTypeToGoType s n ⟨some t, c⟩ b1 b2 b3).1 ≠ .diverges := by
  rw [yangTypeToGoType]
  cases htd : s.LookupTypedef (some t) c with
  | error err => simp
  | ok o =>
    cases o with
    | some M => simp
    | none =>
      simp only [hk]
      rw [goUnionType.eq_2, goUnionSubTypesRange_eq_fold]
      have hf := foldUnionMembers_ends s n c b1 b2 b3 (unionLeavesList t.Types) [] [] [] h
      rcases hr : foldUnionMembers s n (unionLeavesList t.Types) c [] [] [] b1 b2 b3
        with ⟨o, calls⟩
      rw [hr] at hf
      rcases o with ⟨errs, uT, uM⟩ | _ | _
      · simp only
        by_cases he : errs ≠ []
        · simp [he]
        · simp only [he, if_false, unionResolvedType]
          split
          · split <;> simp
          · simp
      · simp
      · exact absurd rfl hf

/-- The resolution of a union member that ends, ends with any larger fuel. -/
theorem resolveUnionMember_ends_le (s : goGenState) (n m : Nat) (l : YangType)
    (c : Option Entry) (b1 b2 b3 : Bool)
    (h : (resolveUnionMember s n l c b1 b2 b3).1 ≠ .diverges) (hnm : n ≤ m) :
    (resolveUnionMember s m l c b1 b2 b3).1 ≠ .diverges := by
  unfold resolveUnionMember at h ⊢
  cases hk : l.Kind <;> simp only [hk] at h ⊢ <;>
    first
      | exact h
      | (rw [yangTypeToGoType_fuel_le s n m _ b1 b2 b3 h hnm]; exact h)

/-- One fuel for all members of a list, when there is a fuel for each. -/
theorem exists_fuel_members (s : goGenState) (c : Option Entry) :
    ∀ (leaves : List YangType),
      (∀ l ∈ leaves, ∃ N, ∀ b1 b2 b3, (resolveUnionMember s N l c b1 b2 b3).1 ≠ .diverges) →
      ∃ N, ∀ l ∈ leaves, ∀ b1 b2 b3, (resolveUnionMember s N l c b1 b2 b3).1 ≠ .diverges
  | [], _ => ⟨0, fun l hl => absurd hl (List.not_mem_nil l)⟩
  | x :: rest, h => by
    obtain ⟨N1, h1⟩ := h x (List.mem_cons_self x rest)
    obtain ⟨N2, h2⟩ := exists_fuel_members s c rest
      (fun l hl => h l (List.mem_cons_of_mem x hl))
    refine ⟨max N1 N2, fun l hl b1 b2 b3 => ?_⟩
    rcases List.mem_cons.1 hl with rfl | hl
    · exact resolveUnionMember_ends_le s N1 _ l c b1 b2 b3 (h1 b1 b2 b3) (Nat.le_max_left _ _)
    · exact resolveUnionMember_ends_le s N2 _ l c b1 b2 b3 (h2 l hl b1 b2 b3)
        (Nat.le_max_right _ _)

/-- The resolution of a union member without members of its own ends with enough fuel, when
the run on the target of the member, if it is a leaf-reference, does. -/
theorem resolveUnionMember_ends (s : goGenState) (l : YangType) (c : Option Entry)
    (hT : l.Types = [])
    (h : ∀ target, l.Kind = .Yleafref → s.resolveLeafrefTarget l.Path c = .ok target →
      ∃ N, ∀ b1 b2 b3, (yangTypeToGoType s N ⟨target.Typ, some target⟩ b1 b2 b3).1
        ≠ .diverges) :
    ∃ N, ∀ b1 b2 b3, (resolveUnionMember s N l c b1 b2 b3).1 ≠ .diverges := by
  cases hk : l.Kind with
  | Yleafref =>
    cases hr : s.resolveLeafrefTarget l.Path c with
    | error err =>
      refine ⟨1, fun b1 b2 b3 => ?_⟩
      simp only [resolveUnionMember, hk]
      exact yangTypeToGoType_leafref_ends s 0 l c b1 b2 b3 hk
        (fun target ht => by rw [hr] at ht; exact absurd ht (by simp))
    | ok target =>
      obtain ⟨N, hN⟩ := h target hk hr
      refine ⟨N + 1, fun b1 b2 b3 => ?_⟩
      simp only [resolveUnionMember, hk]
      refine yangTypeToGoType_leafref_ends s N l c b1 b2 b3 hk (fun tg ht => ?_)
      rw [hr] at ht
      have htg : target = tg := by injection ht
      subst htg
      exact hN b1 b2 b3
  | Yidentityref =>
    refine ⟨0, fun b1 b2 b3 => ?_⟩
    simp only [resolveUnionMember, hk]
    cases hi : s.LookupIdentity l.IdentityBase <;> simp
  | Yunion =>
    refine ⟨0, fun b1 b2 b3 => ?_⟩
    simp only [resolveUnionMember, hk]
    refine yangTypeToGoType_union_ends s 0 l c b1 b2 b3 hk (fun x hx => ?_)
    rw [hT, unionLeavesList] at hx
    exact absurd hx (List.not_mem_nil x)
  | _ =>
    refine ⟨0, fun b1 b2 b3 => ?_⟩
    simp only [resolveUnionMember, hk]
    exact yangTypeToGoType_plain_ends s 0 l c b1 b2 b3 (by simp [hk]) (by simp [hk])

/-- A run of `yangTypeToGoType` on an input from which every chain of leaf-reference targets
is finite ends with enough fuel. -/
theorem yangTypeToGoType_ends_of_finite (s : goGenState) (args : resolveTypeArgs)
    (h : finiteLeafrefChains s args) :
    ∃ N, ∀ b1 b2 b3, (yangTypeToGoType s N args b1 b2 b3).1 ≠ .diverges := by
  unfold finiteLeafrefChains at h
  induction h with
  | intro a _ ih =>
    rcases a with ⟨y, c⟩
    cases y with
    | none => exact ⟨0, fun b1 b2 b3 => yangTypeToGoType_none_ends s 0 c b1 b2 b3⟩
    | some t =>
      by_cases hl : t.Kind = .Yleafref
      · cases hr : s.resolveLeafrefTarget t.Path c with
        | error err =>
          refine ⟨1, fun b1 b2 b3 => ?_⟩
          exact yangTypeToGoType_leafref_ends s 0 t c b1 b2 b3 hl
            (fun target ht => by rw [hr] at ht; exact absurd ht (by simp))
        | ok target =>
          obtain ⟨N, hN⟩ := ih _ (leafrefStep.direct t c target hl hr)
          refine ⟨N + 1, fun b1 b2 b3 => ?_⟩
          refine yangTypeToGoType_leafref_ends s N t c b1 b2 b3 hl (fun tg ht => ?_)
          rw [hr] at ht
          have htg : target = tg := by injection ht
          subst htg
          exact hN b1 b2 b3
      · by_cases hu : t.Kind = .Yunion
        · have hm : ∀ l ∈ unionLeavesList t.Types,
              ∃ N, ∀ b1 b2 b3, (resolveUnionMember s N l c b1 b2 b3).1 ≠ .diverges :=
            fun l hmem => resolveUnionMember_ends s l c (unionLeavesList_types _ l hmem)
              (fun target hkl hrl => ih _ (leafrefStep.member t l c target hu hmem hkl hrl))
          obtain ⟨N, hN⟩ := exists_fuel_members s c _ hm
          exact ⟨N, fun b1 b2 b3 =>
            yangTypeToGoType_union_ends s N t c b1 b2 b3 hu (fun l hmem => hN l hmem b1 b2 b3)⟩
        · exact ⟨0, fun b1 b2 b3 => yangTypeToGoType_plain_ends s 0 t c b1 b2 b3 hl hu⟩

/-- A run on a leaf-reference type of an element to which the type resolves back is unfinished
whatever the fuel. -/
theorem yangTypeToGoType_self_target_diverges (s : goGenState) (t : YangType) (x : Entry)
    (b1 b2 b3 : Bool) (hk : t.Kind = .Yleafref) (hty : x.Typ = some t)
    (htd : s.LookupTypedef (some t) (some x) = .ok none)
    (hr : s.resolveLeafrefTarget t.Path (some x) = .ok x) :
    ∀ fuel : Nat, (yangTypeToGoType s fuel ⟨some t, some x⟩ b1 b2 b3).1 = .diverges
  | 0 => by
    rw [yangTypeToGoType]
    simp only [htd, hk, hr]
  | n + 1 => by
    have ih := yangTypeToGoType_self_target_diverges s t x b1 b2 b3 hk hty htd hr n
    rw [yangTypeToGoType]
    simp only [htd, hk, hr, hty]
    exact ih

/-- A run on a leaf-reference whose target has a leaf-reference type that resolves back to the
target is unfinished whatever the fuel. -/
theorem yangTypeToGoType_cycle_diverges (s : goGenState) (t1 t2 : YangType) (c : Option Entry)
    (x : Entry) (b1 b2 b3 : Bool) (hk1 : t1.Kind = .Yleafref)
    (htd1 : s.LookupTypedef (some t1) c = .ok none)
    (hr1 : s.resolveLeafrefTarget t1.Path c = .ok x)
    (hk2 : t2.Kind = .Yleafref) (hty : x.Typ = some t2)
    (htd2 : s.LookupTypedef (some t2) (some x) = .ok none)
    (hr2 : s.resolveLeafrefTarget t2.Path (some x) = .ok x) (fuel : Nat) :
    (yangTypeToGoType s fuel ⟨some t1, c⟩ b1 b2 b3).1 = .diverges := by
  cases fuel with
  | zero =>
    rw [yangTypeToGoType]
    simp only [htd1, hk1, hr1]
  | succ n =>
    have ih := yangTypeToGoType_self_target_diverges s t2 x b1 b2 b3 hk2 hty htd2 hr2 n
    rw [yangTypeToGoType]
    simp only [htd1, hk1, hr1, hty]
    exact ih

/-- No chain of leaf-reference targets starts at a type that is neither a leaf-reference nor a
union. -/
theorem finiteLeafrefChains_plain (s : goGenState) (y : Option YangType) (c : Option Entry)
    (hl : ∀ t, y = some t → t.Kind ≠ .Yleafref) (hu : ∀ t, y = some t → t.Kind ≠ .Yunion) :
    finiteLeafrefChains s ⟨y, c⟩ := by
  refine Acc.intro _ (fun b hb => ?_)
  cases hb with
  | direct t c target hk hr => exact absurd hk (hl t rfl)
  | member t l c target hk hmem hkl hr => exact absurd hk (hu t rfl)

/-- The chains of leaf-reference targets from a leaf-reference are finite when those from its
target are. -/
theorem finiteLeafrefChains_leafref (s : goGenState) (t : YangType) (c : Option Entry)
    (hk : t.Kind = .Yleafref)
    (h : ∀ target, s.resolveLeafrefTarget t.Path c = .ok target →
      finiteLeafrefChains s ⟨target.Typ, some target⟩) :
    finiteLeafrefChains s ⟨some t, c⟩ := by
  refine Acc.intro _ (fun b hb => ?_)
  cases hb with
  | direct t c target hk hr => exact h target hr
  | member t l c target hku hmem hkl hr =>
    rw [hk] at hku
    exact absurd hku (by simp)

/-- In the example registry the chain of leaf-reference targets from the example
leaf-reference is finite: its target is the leaf `counter` of type `int8`. -/
theorem finiteLeafrefChains_exampleLeafref :
    finiteLeafrefChains exampleState ⟨some (exampleLeafref none), some exampleEntryAB⟩ := by
  refine finiteLeafrefChains_leafref exampleState _ _ rfl (fun target hr => ?_)
  have htarget : target = exampleCounter := by
    have h0 : exampleState.resolveLeafrefTarget (exampleLeafref none).Path
        (some exampleEntryAB) = .ok exampleCounter := rfl
    rw [h0] at hr
    injection hr with hr
    exact hr.symm
  subst htarget
  refine finiteLeafrefChains_plain exampleState _ _ (fun t ht => ?_) (fun t ht => ?_)
  · have : t = .mk "int8" .Yint8 (some "7") "" none [] := by
      simp only [exampleCounter, Entry.Typ, Option.some.injEq] at ht
      exact ht.symm
    subst this
    simp [YangType.Kind]
  · have : t = .mk "int8" .Yint8 (some "7") "" none [] := by
      simp only [exampleCounter, Entry.Typ, Option.some.injEq] at ht
      exact ht.symm
    subst this
    simp [YangType.Kind]

/-! ## C1: leaf-reference transparency -/

/-- C1: leaf-reference transparency. For a leaf-reference type `L` for which the typedef lookup
yields nothing and whose path resolves in the context `c` to the target `T`, the run of
`yangTypeToGoType` on `L` ends exactly as the run on `T.Type` in the context `T` that it makes
with the remaining fuel (the same mapped type, the same error, the same abort), after the two
calls to the typedef lookup and to the path index. The raw default of `L` has no influence:
every leaf-reference `L2` with the same path (and no typedef) ends as `L` does. When the run on
the target ends within the fuel `n`, the fuel plays no role: with every larger fuel `m` the
leaf-reference and its target both end as the target does with `n`. -/
theorem C1_leafref_transparent (s : goGenState) (n : Nat) (L : YangType) (c : Option Entry)
    (T : Entry) (b1 b2 b3 : Bool) (hk : L.Kind = .Yleafref)
    (htd : s.LookupTypedef (some L) c = .ok none)
    (ht : s.resolveLeafrefTarget L.Path c = .ok T) :
    (yangTypeToGoType s (n + 1) ⟨some L, c⟩ b1 b2 b3).1
        = (yangTypeToGoType s n ⟨T.Typ, some T⟩ b1 b2 b3).1
      ∧ (yangTypeToGoType s (n + 1) ⟨some L, c⟩ b1 b2 b3).2
        = .LookupTypedef (some L) c :: .resolveLeafrefTarget L.Path c
            :: (yangTypeToGoType s n ⟨T.Typ, some T⟩ b1 b2 b3).2
      ∧ (∀ L2 : YangType, L2.Kind = .Yleafref → L2.Path = L.Path →
          s.LookupTypedef (some L2) c = .ok none →
          (yangTypeToGoType s (n + 1) ⟨some L2, c⟩ b1 b2 b3).1
            = (yangTypeToGoType s (n + 1) ⟨some L, c⟩ b1 b2 b3).1)
      ∧ ((yangTypeToGoType s n ⟨T.Typ, some T⟩ b1 b2 b3).1 ≠ .diverges →
          ∀ m, n ≤ m →
            (yangTypeToGoType s (m + 1) ⟨some L, c⟩ b1 b2 b3).1
                = (yangTypeToGoType s n ⟨T.Typ, some T⟩ b1 b2 b3).1
              ∧ (yangTypeToGoType s (m + 1) ⟨T.Typ, some T⟩ b1 b2 b3).1
                = (yangTypeToGoType s n ⟨T.Typ, some T⟩ b1 b2 b3).1) := by
  have key : ∀ (k : Nat) (L1 : YangType), L1.Kind = .Yleafref → L1.Path = L.Path →
      s.LookupTypedef (some L1) c = .ok none →
      yangTypeToGoType s (k + 1) ⟨some L1, c⟩ b1 b2 b3
        = ((yangTypeToGoType s k ⟨T.Typ, some T⟩ b1 b2 b3).1,
            .LookupTypedef (some L1) c :: .resolveLeafrefTarget L1.Path c
              :: (yangTypeToGoType s k ⟨T.Typ, some T⟩ b1 b2 b3).2) := by
    intro k L1 hk1 hp1 htd1
    rw [yangTypeToGoType]
    simp only [htd1, hk1, hp1, ht]
  refine ⟨?_, ?_, ?_, ?_⟩
  · rw [key n L hk rfl htd]
  · rw [key n L hk rfl htd]
  · intro L2 hk2 hp2 htd2
    rw [key n L2 hk2 hp2 htd2, key n L hk rfl htd]
  · intro hend m hnm
    rw [key m L hk rfl htd]
    simp only
    rw [yangTypeToGoType_fuel_le s n m _ b1 b2 b3 hend hnm,
      yangTypeToGoType_fuel_le s n (m + 1) _ b1 b2 b3 hend (by omega)]
    exact ⟨rfl, rfl⟩

/-- Witness of C1: the leaf-reference `../counter` with the raw default `3`, whose target is the
leaf `/a/counter` of type `int8` with the raw default `7`, resolves to `int8` with the default
`7` of the target, as does the same leaf-reference without a default, with every fuel. -/
theorem C1_leafref_transparent_witness :
    (exampleLeafref (some "3")).Kind = .Yleafref
      ∧ exampleState.LookupTypedef (some (exampleLeafref (some "3"))) (some exampleEntryAB)
          = .ok none
      ∧ exampleState.resolveLeafrefTarget (exampleLeafref (some "3")).Path (some exampleEntryAB)
          = .ok exampleCounter
      ∧ (exampleLeafref none).Kind = .Yleafref
      ∧ (exampleLeafref none).Path = (exampleLeafref (some "3")).Path
      ∧ exampleState.LookupTypedef (some (exampleLeafref none)) (some exampleEntryAB) = .ok none
      ∧ (yangTypeToGoType exampleState 0 ⟨exampleCounter.Typ, some exampleCounter⟩
            false false false).1 ≠ .diverges
      ∧ (yangTypeToGoType exampleState 0 ⟨exampleCounter.Typ, some exampleCounter⟩
            false false false).1
          = .returns (.ok { NativeType := "int8", ZeroValue := "0", DefaultValue := some "7" })
      ∧ (yangTypeToGoType exampleState 1 ⟨some (exampleLeafref (some "3")), some exampleEntryAB⟩
            false false false).1
          = (yangTypeToGoType exampleState 0 ⟨exampleCounter.Typ, some exampleCounter⟩
              false false false).1
      ∧ (yangTypeToGoType exampleState 1 ⟨some (exampleLeafref none), some exampleEntryAB⟩
            false false false).1
          = (yangTypeToGoType exampleState 1
              ⟨some (exampleLeafref (some "3")), some exampleEntryAB⟩ false false false).1
      ∧ (yangTypeToGoType exampleState (5 + 1)
            ⟨some (exampleLeafref (some "3")), some exampleEntryAB⟩ false false false).1
          = (yangTypeToGoType exampleState 0 ⟨exampleCounter.Typ, some exampleCounter⟩
              false false false).1 := by
  have hrun : (yangTypeToGoType exampleState 0 ⟨exampleCounter.Typ, some exampleCounter⟩
        false false false).1
      = .returns (.ok { NativeType := "int8", ZeroValue := "0", DefaultValue := some "7" }) := by
    rw [yangTypeToGoType]
    simp [exampleState, exampleCounter, Entry.Typ, YangType.Name, YangType.Kind,
      TypeDefaultValue, YangType.Default, goZeroValues, goZeroValuesTable, mapGet]
  have hend : (yangTypeToGoType exampleState 0 ⟨exampleCounter.Typ, some exampleCounter⟩
      false false false).1 ≠ .diverges := by
    rw [hrun]
    exact fun h => nomatch h
  have hthm := C1_leafref_transparent exampleState 0 (exampleLeafref (some "3"))
    (some exampleEntryAB) exampleCounter false false false rfl rfl rfl
  exact ⟨rfl, rfl, rfl, rfl, rfl, rfl, hend, hrun, hthm.1,
    hthm.2.2.1 (exampleLeafref none) rfl rfl rfl, (hthm.2.2.2 hend 5 (by omega)).1⟩

/-! ## C2: union de-duplication and indexing -/

/-- C2: union de-duplication and indexing. When every flattened member of a union resolves
(member by member to the mapped types `ms`), the member loop of `goUnionType` ends without
error with the maps `unionTypesOf ms` and `unionMappedTypesOf ms`, and `goUnionType` returns a
mapped type whose union members are `unionTypesOf ms`. The keys of this map are exactly the
native type names of the resolved members, without repeats; its values are `0, 1, ..., n-1`;
every name is mapped to the rank of its first occurrence (the number of distinct names that
occur before it in declaration order), and the mapped type recorded at that position is the
one of the first member that resolved to the name. -/
theorem C2_union_dedup_index (s : goGenState) (fuel : Nat) (t : YangType) (ctx : Option Entry)
    (b1 b2 b3 : Bool) (ms : List MappedType)
    (h : List.Forall₂
      (fun l m => (resolveUnionMember s fuel l ctx b1 b2 b3).1 = .returns (.ok m))
      (unionLeavesList t.Types) ms) :
    (goUnionSubTypesRange s fuel t.Types ctx [] [] [] b1 b2 b3).1
        = .returns ([], unionTypesOf ms, unionMappedTypesOf ms)
      ∧ (∃ r, (goUnionType s fuel ⟨some t, ctx⟩ b1 b2 b3).1 = .returns (.ok r)
            ∧ r.UnionTypes = some (unionTypesOf ms))
      ∧ (∀ n, n ∈ (unionTypesOf ms).map Prod.fst ↔ n ∈ ms.map (fun m => m.NativeType))
      ∧ ((unionTypesOf ms).map Prod.fst).Nodup
      ∧ (unionTypesOf ms).map Prod.snd = List.range (unionTypesOf ms).length
      ∧ (∀ n i, (n, i) ∈ unionTypesOf ms →
          i = ((ms.map (fun m => m.NativeType)).take
                ((ms.map (fun m => m.NativeType)).indexOf n)).toFinset.card
          ∧ mapGet (unionMappedTypesOf ms) i
              = ms.find? (fun m => decide (m.NativeType = n))) := by
  have hr := forall₂_returns_of_ok s fuel ctx b1 b2 b3 _ ms h
  refine ⟨?_, ?_, ?_, ?_, ?_, ?_⟩
  · have hfold := foldUnionMembers_of_results s fuel ctx b1 b2 b3 _ _ hr [] []
    have h1 : unionTypesOf [] = [] := rfl
    have h2 : unionMappedTypesOf [] = [] := rfl
    rw [h1, h2] at hfold
    rw [goUnionSubTypesRange_eq_fold, hfold, errorsOf_map_ok, mappedTypesOf_map_ok]
    rfl
  · rw [goUnionType_of_results s fuel t ctx b1 b2 b3 _ hr, errorsOf_map_ok,
      mappedTypesOf_map_ok]
    simp only [ne_eq, not_true_eq_false, if_false]
    exact unionResolvedType_returns s ctx b1 ms
  · intro n
    rw [map_fst_unionTypesOf]
    exact mem_names_firstByName ms n
  · rw [map_fst_unionTypesOf]
    exact nodup_names_firstByName ms
  · exact map_snd_unionTypesOf ms
  · intro n i hni
    refine ⟨rank_of_mem_unionTypesOf ms n i hni, ?_⟩
    obtain ⟨x, hx, hxn⟩ := getElem?_of_mem_unionTypesOf ms n i hni
    rw [mapGet_unionMappedTypesOf, hx, ← hxn]
    exact (find?_of_mem_firstByName ms x (List.getElem?_mem hx)).symm

/-- Witness of C2: the union `{int8, string, int8}` in the context `/a/b` has the union
members `int8` at position 0 and `string` at position 1. -/
theorem C2_union_dedup_index_witness :
    List.Forall₂
        (fun l m => (resolveUnionMember exampleState 0 l (some exampleEntryAB)
          false false false).1 = .returns (.ok m))
        (unionLeavesList (exampleUnion [exampleInt8, exampleString, exampleInt8]).Types)
        [{ NativeType := "int8", ZeroValue := "0" }, { NativeType := "string", ZeroValue := "\"\"" },
          { NativeType := "int8", ZeroValue := "0" }]
      ∧ (goUnionSubTypesRange exampleState 0
            (exampleUnion [exampleInt8, exampleString, exampleInt8]).Types
            (some exampleEntryAB) [] [] [] false false false).1
          = .returns ([], [("int8", 0), ("string", 1)],
              [(0, { NativeType := "int8", ZeroValue := "0" }),
               (1, { NativeType := "string", ZeroValue := "\"\"" })])
      ∧ ("string", 1) ∈ unionTypesOf
          [{ NativeType := "int8", ZeroValue := "0" },
            { NativeType := "string", ZeroValue := "\"\"" },
            { NativeType := "int8", ZeroValue := "0" }]
      ∧ mapGet (unionMappedTypesOf
            [{ NativeType := "int8", ZeroValue := "0" },
              { NativeType := "string", ZeroValue := "\"\"" },
              { NativeType := "int8", ZeroValue := "0" }]) 1
          = some { NativeType := "string", ZeroValue := "\"\"" } := by
  have h : List.Forall₂
      (fun l m => (resolveUnionMember exampleState 0 l (some exampleEntryAB)
        false false false).1 = .returns (.ok m))
      (unionLeavesList (exampleUnion [exampleInt8, exampleString, exampleInt8]).Types)
      [{ NativeType := "int8", ZeroValue := "0" }, { NativeType := "string", ZeroValue := "\"\"" },
        { NativeType := "int8", ZeroValue := "0" }] :=
    List.Forall₂.cons (congrArg Prod.fst (resolveUnionMember_exampleInt8 0 _ _ _ _))
      (List.Forall₂.cons (congrArg Prod.fst (resolveUnionMember_exampleString 0 _ _ _ _))
        (List.Forall₂.cons (congrArg Prod.fst (resolveUnionMember_exampleInt8 0 _ _ _ _))
          List.Forall₂.nil))
  have hmem : ("string", 1) ∈ unionTypesOf
      [{ NativeType := "int8", ZeroValue := "0" },
        { NativeType := "string", ZeroValue := "\"\"" },
        { NativeType := "int8", ZeroValue := "0" }] := by
    decide
  exact ⟨h, (C2_union_dedup_index exampleState 0 _ _ false false false _ h).1, hmem,
    ((C2_union_dedup_index exampleState 0 _ _ false false false _ h).2.2.2.2.2
      "string" 1 hmem).2⟩

/-! ## C3: union flattening is flat -/

/-- C3: union flattening is flat. The run of `goUnionType` (outcome and calls) depends on the
union only through the depth-first sequence of the leaves of its member tree: two unions with
the same leaves, whatever their nesting, run alike in every context and under every
configuration. In particular the union `{A, union{B, C}}` runs as the flat union `{A, B, C}`,
and so does `yangTypeToGoType` on two union types without typedef that have the same leaves. -/
theorem C3_union_flattening_flat (s : goGenState) (fuel : Nat) (ctx : Option Entry)
    (b1 b2 b3 : Bool) :
    (∀ t1 t2 : YangType, unionLeavesList t1.Types = unionLeavesList t2.Types →
        goUnionType s fuel ⟨some t1, ctx⟩ b1 b2 b3 = goUnionType s fuel ⟨some t2, ctx⟩ b1 b2 b3)
      ∧ (∀ (A B C : YangType) (n : String) (k : TypeKind) (d : Option String) (p : String)
          (i : Option Identity) (n2 : String) (k2 : TypeKind) (d2 : Option String) (p2 : String)
          (i2 : Option Identity),
          goUnionType s fuel ⟨some (.mk n k d p i [A, .mk n2 k2 d2 p2 i2 [B, C]]), ctx⟩ b1 b2 b3
            = goUnionType s fuel ⟨some (.mk n k d p i [A, B, C]), ctx⟩ b1 b2 b3)
      ∧ (∀ t1 t2 : YangType, t1.Kind = .Yunion → t2.Kind = .Yunion →
          s.LookupTypedef (some t1) ctx = .ok none → s.LookupTypedef (some t2) ctx = .ok none →
          unionLeavesList t1.Types = unionLeavesList t2.Types →
          (yangTypeToGoType s fuel ⟨some t1, ctx⟩ b1 b2 b3).1
            = (yangTypeToGoType s fuel ⟨some t2, ctx⟩ b1 b2 b3).1) := by
  refine ⟨?_, ?_, ?_⟩
  · intro t1 t2 h
    exact goUnionType_congr_leaves s fuel t1 t2 ctx b1 b2 b3 h
  · intro A B C n k d p i n2 k2 d2 p2 i2
    apply goUnionType_congr_leaves
    simp [YangType.Types, unionLeavesList, unionLeaves]
  · intro t1 t2 hk1 hk2 htd1 htd2 h
    rw [yangTypeToGoType_Yunion s fuel t1 ctx b1 b2 b3 hk1 htd1,
      yangTypeToGoType_Yunion s fuel t2 ctx b1 b2 b3 hk2 htd2,
      goUnionType_congr_leaves s fuel t1 t2 ctx b1 b2 b3 h]

/-- Witness of C3: the union `{int8, union{string, int8}}` has the leaves of the flat union
`{int8, string, int8}` and runs as it does, under `goUnionType` and under
`yangTypeToGoType`. -/
theorem C3_union_flattening_flat_witness :
    unionLeavesList (exampleUnion [exampleInt8, exampleUnion [exampleString, exampleInt8]]).Types
        = unionLeavesList (exampleUnion [exampleInt8, exampleString, exampleInt8]).Types
      ∧ (exampleUnion [exampleInt8, exampleUnion [exampleString, exampleInt8]]).Kind = .Yunion
      ∧ (exampleUnion [exampleInt8, exampleString, exampleInt8]).Kind = .Yunion
      ∧ exampleState.LookupTypedef
          (some (exampleUnion [exampleInt8, exampleUnion [exampleString, exampleInt8]]))
          (some exampleEntryAB) = .ok none
      ∧ exampleState.LookupTypedef
          (some (exampleUnion [exampleInt8, exampleString, exampleInt8]))
          (some exampleEntryAB) = .ok none
      ∧ goUnionType exampleState 0
          ⟨some (exampleUnion [exampleInt8, exampleUnion [exampleString, exampleInt8]]),
            some exampleEntryAB⟩ false false false
        = goUnionType exampleState 0
          ⟨some (exampleUnion [exampleInt8, exampleString, exampleInt8]), some exampleEntryAB⟩
          false false false
      ∧ (yangTypeToGoType exampleState 0
          ⟨some (exampleUnion [exampleInt8, exampleUnion [exampleString, exampleInt8]]),
            some exampleEntryAB⟩ false false false).1
        = (yangTypeToGoType exampleState 0
          ⟨some (exampleUnion [exampleInt8, exampleString, exampleInt8]), some exampleEntryAB⟩
          false false false).1 :=
  ⟨rfl, rfl, rfl, rfl, rfl,
    (C3_union_flattening_flat exampleState 0 (some exampleEntryAB) false false false).1
      _ _ rfl,
    (C3_union_flattening_flat exampleState 0 (some exampleEntryAB) false false false).2.2
      _ _ rfl rfl rfl rfl rfl⟩

/-! ## C4: union error aggregation -/

/-- C4: union error aggregation. Let every flattened member of a union return, member by member
with the results `rs` (a mapped type or an error). Then `goUnionType` fails if and only if at
least one member failed; when a member failed it returns one error and no mapped type, whose
text is `errors mapping element: [...]` around the errors of all failing members in declaration
order, so that the error of every failing member occurs in the text; every member is resolved
whether or not an earlier one failed (the calls made are those of all members, in order); and
for two members that both fail, with errors `e1` and `e2`, the text is
`errors mapping element: [e1 e2]`. -/
theorem C4_union_error_aggregation (s : goGenState) (fuel : Nat) (t : YangType)
    (ctx : Option Entry) (b1 b2 b3 : Bool) (rs : List (Except String MappedType))
    (h : List.Forall₂ (fun l r => (resolveUnionMember s fuel l ctx b1 b2 b3).1 = .returns r)
      (unionLeavesList t.Types) rs) :
    ((∃ e, (goUnionType s fuel ⟨some t, ctx⟩ b1 b2 b3).1 = .returns (.error e))
        ↔ ∃ e, Except.error e ∈ rs)
      ∧ ((∃ e, Except.error e ∈ rs) →
          (goUnionType s fuel ⟨some t, ctx⟩ b1 b2 b3).1
            = .returns (.error (errorsMappingElement (errorsOf rs))))
      ∧ (∀ e, e ∈ errorsOf rs ↔ Except.error e ∈ rs)
      ∧ (∀ e, Except.error e ∈ rs → e.data <:+: (errorsMappingElement (errorsOf rs)).data)
      ∧ (goUnionType s fuel ⟨some t, ctx⟩ b1 b2 b3).2
          = unionMemberCalls s fuel ctx b1 b2 b3 (unionLeavesList t.Types)
      ∧ (∀ e1 e2, rs = [.error e1, .error e2] →
          (goUnionType s fuel ⟨some t, ctx⟩ b1 b2 b3).1
            = .returns (.error ("errors mapping element: [" ++ e1 ++ " " ++ e2 ++ "]"))) := by
  have hrun := goUnionType_of_results s fuel t ctx b1 b2 b3 rs h
  have hfail : (∃ e, Except.error e ∈ rs) →
      (goUnionType s fuel ⟨some t, ctx⟩ b1 b2 b3).1
        = .returns (.error (errorsMappingElement (errorsOf rs))) := by
    intro he
    have hne : errorsOf rs ≠ [] := (errorsOf_ne_nil_iff rs).2 he
    rw [hrun]
    simp only [hne, ne_eq, not_false_eq_true, if_true]
  refine ⟨⟨?_, ?_⟩, hfail, mem_errorsOf rs,
    fun e he => infix_errorsMappingElement _ e ((mem_errorsOf rs e).2 he), ?_, ?_⟩
  · rintro ⟨e, he⟩
    by_contra hno
    have hnil : errorsOf rs = [] := by
      by_contra hne
      exact hno ((errorsOf_ne_nil_iff rs).1 hne)
    rw [hrun] at he
    simp only [hnil, ne_eq, not_true_eq_false, if_false] at he
    obtain ⟨r, hr, _⟩ := unionResolvedType_returns s ctx b1 (mappedTypesOf rs)
    rw [hr] at he
    cases he
  · intro he
    exact ⟨_, hfail he⟩
  · rw [hrun]
  · intro e1 e2 hrs
    rw [hfail ⟨e1, by rw [hrs]; exact List.mem_cons_self _ _⟩, hrs]
    simp [errorsOf, errorsMappingElement, String.intercalate, String.intercalate.go,
      String.append_assoc]

/-- Witness of C4: the union of two enumerations resolved without a context fails with one
error that carries the errors of both members. -/
theorem C4_union_error_aggregation_witness :
    List.Forall₂
        (fun l r => (resolveUnionMember exampleState 0 l none false false false).1 = .returns r)
        (unionLeavesList (exampleUnion [exampleEnum, exampleEnum]).Types)
        [.error "cannot map enum without context", .error "cannot map enum without context"]
      ∧ (goUnionType exampleState 0 ⟨some (exampleUnion [exampleEnum, exampleEnum]), none⟩
            false false false).1
          = .returns (.error ("errors mapping element: [" ++ "cannot map enum without context"
              ++ " " ++ "cannot map enum without context" ++ "]")) := by
  have h : List.Forall₂
      (fun l r => (resolveUnionMember exampleState 0 l none false false false).1 = .returns r)
      (unionLeavesList (exampleUnion [exampleEnum, exampleEnum]).Types)
      [.error "cannot map enum without context", .error "cannot map enum without context"] :=
    List.Forall₂.cons (congrArg Prod.fst (resolveUnionMember_exampleEnum_no_context 0 _ _ _))
      (List.Forall₂.cons (congrArg Prod.fst (resolveUnionMember_exampleEnum_no_context 0 _ _ _))
        List.Forall₂.nil)
  exact ⟨h, (C4_union_error_aggregation exampleState 0 _ none false false false _ h).2.2.2.2.2
    _ _ rfl⟩

/-! ## C5: union wrapper synthesis -/

/-- C5: union wrapper synthesis. When every flattened member of a union resolves (to the mapped
types `ms`) and two of them have different native type names, `goUnionType` returns the
synthetic mapped type named `pathToCamelCaseName(context, compressOCPaths, false)` followed by
`_Union`, with zero value `nil`, no default value, not enumerated, and with the de-duplicated
name-to-position map as union members. For the members `int8` and `string` in the context
`/a/b` this is `A_B_Union` with the union members `int8` at 0 and `string` at 1. -/
theorem C5_union_wrapper_synthesis :
    (∀ (s : goGenState) (fuel : Nat) (t : YangType) (ctx : Option Entry) (b1 b2 b3 : Bool)
        (ms : List MappedType),
        List.Forall₂
          (fun l m => (resolveUnionMember s fuel l ctx b1 b2 b3).1 = .returns (.ok m))
          (unionLeavesList t.Types) ms →
        (∃ m1 ∈ ms, ∃ m2 ∈ ms, m1.NativeType ≠ m2.NativeType) →
        (goUnionType s fuel ⟨some t, ctx⟩ b1 b2 b3).1
          = .returns (.ok { NativeType := pathToCamelCaseName s ctx b1 false ++ "_Union",
                            ZeroValue := "nil", DefaultValue := none,
                            IsEnumeratedValue := false,
                            UnionTypes := some (unionTypesOf ms) }))
      ∧ (goUnionType exampleState 0
            ⟨some (exampleUnion [exampleInt8, exampleString]), some exampleEntryAB⟩
            false false false).1
          = .returns (.ok { NativeType := "A_B_Union", ZeroValue := "nil",
                            UnionTypes := some [("int8", 0), ("string", 1)] }) := by
  have general : ∀ (s : goGenState) (fuel : Nat) (t : YangType) (ctx : Option Entry)
      (b1 b2 b3 : Bool) (ms : List MappedType),
      List.Forall₂
        (fun l m => (resolveUnionMember s fuel l ctx b1 b2 b3).1 = .returns (.ok m))
        (unionLeavesList t.Types) ms →
      (∃ m1 ∈ ms, ∃ m2 ∈ ms, m1.NativeType ≠ m2.NativeType) →
      (goUnionType s fuel ⟨some t, ctx⟩ b1 b2 b3).1
        = .returns (.ok { NativeType := pathToCamelCaseName s ctx b1 false ++ "_Union",
                          ZeroValue := "nil", DefaultValue := none,
                          IsEnumeratedValue := false,
                          UnionTypes := some (unionTypesOf ms) }) := by
    intro s fuel t ctx b1 b2 b3 ms h hmany
    rw [goUnionType_of_mapped s fuel t ctx b1 b2 b3 ms h]
    exact unionResolvedType_synthetic s ctx b1 ms (length_firstByName_ne_one ms hmany)
  refine ⟨general, ?_⟩
  have h : List.Forall₂
      (fun l m => (resolveUnionMember exampleState 0 l (some exampleEntryAB)
        false false false).1 = .returns (.ok m))
      (unionLeavesList (exampleUnion [exampleInt8, exampleString]).Types)
      [{ NativeType := "int8", ZeroValue := "0" },
        { NativeType := "string", ZeroValue := "\"\"" }] :=
    List.Forall₂.cons (congrArg Prod.fst (resolveUnionMember_exampleInt8 0 _ _ _ _))
      (List.Forall₂.cons (congrArg Prod.fst (resolveUnionMember_exampleString 0 _ _ _ _))
        List.Forall₂.nil)
  rw [general exampleState 0 _ _ false false false _ h
    ⟨_, List.mem_cons_self _ _, _, List.mem_cons_of_mem _ (List.mem_cons_self _ _), by decide⟩,
    pathToCamelCaseName_exampleEntryAB]
  rfl

/-- Witness of C5: the members `int8` and `string` of the example union resolve, to two
different native type names, and the union in the context `/a/b` is named `A_B_Union`. -/
theorem C5_union_wrapper_synthesis_witness :
    List.Forall₂
        (fun l m => (resolveUnionMember exampleState 0 l (some exampleEntryAB)
          false false false).1 = .returns (.ok m))
        (unionLeavesList (exampleUnion [exampleInt8, exampleString]).Types)
        [{ NativeType := "int8", ZeroValue := "0" },
          { NativeType := "string", ZeroValue := "\"\"" }]
      ∧ (∃ m1 ∈ [({ NativeType := "int8", ZeroValue := "0" } : MappedType),
            { NativeType := "string", ZeroValue := "\"\"" }],
          ∃ m2 ∈ [({ NativeType := "int8", ZeroValue := "0" } : MappedType),
            { NativeType := "string", ZeroValue := "\"\"" }], m1.NativeType ≠ m2.NativeType)
      ∧ (goUnionType exampleState 0
            ⟨some (exampleUnion [exampleInt8, exampleString]), some exampleEntryAB⟩
            false false false).1
          = .returns (.ok
              { NativeType := pathToCamelCaseName exampleState (some exampleEntryAB) false false
                  ++ "_Union",
                ZeroValue := "nil", DefaultValue := none, IsEnumeratedValue := false,
                UnionTypes := some (unionTypesOf
                  [{ NativeType := "int8", ZeroValue := "0" },
                    { NativeType := "string", ZeroValue := "\"\"" }]) }) := by
  have h : List.Forall₂
      (fun l m => (resolveUnionMember exampleState 0 l (some exampleEntryAB)
        false false false).1 = .returns (.ok m))
      (unionLeavesList (exampleUnion [exampleInt8, exampleString]).Types)
      [{ NativeType := "int8", ZeroValue := "0" },
        { NativeType := "string", ZeroValue := "\"\"" }] :=
    List.Forall₂.cons (congrArg Prod.fst (resolveUnionMember_exampleInt8 0 _ _ _ _))
      (List.Forall₂.cons (congrArg Prod.fst (resolveUnionMember_exampleString 0 _ _ _ _))
        List.Forall₂.nil)
  have hmany : ∃ m1 ∈ [({ NativeType := "int8", ZeroValue := "0" } : MappedType),
        { NativeType := "string", ZeroValue := "\"\"" }],
      ∃ m2 ∈ [({ NativeType := "int8", ZeroValue := "0" } : MappedType),
        { NativeType := "string", ZeroValue := "\"\"" }], m1.NativeType ≠ m2.NativeType :=
    ⟨_, List.mem_cons_self _ _, _, List.mem_cons_of_mem _ (List.mem_cons_self _ _), by decide⟩
  exact ⟨h, hmany,
    C5_union_wrapper_synthesis.1 exampleState 0 _ _ false false false _ h hmany⟩

/-! ## C6: single-member collapse -/

/-- C6: single-member collapse. When every flattened member of a union resolves and all of them
resolve to the native type name of the first one, `goUnionType` returns the mapped type `m0` of
the first member (its native type name, zero value, default value and enumerated-ness) with the
union members attached, which hold the one entry that maps the name to position 0. The union
`{string, string}` resolves to `string` with the zero value `""` and the union members
`string` at 0. -/
theorem C6_single_member_collapse :
    (∀ (s : goGenState) (fuel : Nat) (t : YangType) (ctx : Option Entry) (b1 b2 b3 : Bool)
        (m0 : MappedType) (ms : List MappedType),
        List.Forall₂
          (fun l m => (resolveUnionMember s fuel l ctx b1 b2 b3).1 = .returns (.ok m))
          (unionLeavesList t.Types) (m0 :: ms) →
        (∀ m ∈ ms, m.NativeType = m0.NativeType) →
        (goUnionType s fuel ⟨some t, ctx⟩ b1 b2 b3).1
          = .returns (.ok { NativeType := m0.NativeType, ZeroValue := m0.ZeroValue,
                            DefaultValue := m0.DefaultValue,
                            IsEnumeratedValue := m0.IsEnumeratedValue,
                            UnionTypes := some [(m0.NativeType, 0)] }))
      ∧ (goUnionType exampleState 0
            ⟨some (exampleUnion [exampleString, exampleString]), some exampleEntryAB⟩
            false false false).1
          = .returns (.ok { NativeType := "string", ZeroValue := "\"\"",
                            UnionTypes := some [("string", 0)] }) := by
  have general : ∀ (s : goGenState) (fuel : Nat) (t : YangType) (ctx : Option Entry)
      (b1 b2 b3 : Bool) (m0 : MappedType) (ms : List MappedType),
      List.Forall₂
        (fun l m => (resolveUnionMember s fuel l ctx b1 b2 b3).1 = .returns (.ok m))
        (unionLeavesList t.Types) (m0 :: ms) →
      (∀ m ∈ ms, m.NativeType = m0.NativeType) →
      (goUnionType s fuel ⟨some t, ctx⟩ b1 b2 b3).1
        = .returns (.ok { NativeType := m0.NativeType, ZeroValue := m0.ZeroValue,
                          DefaultValue := m0.DefaultValue,
                          IsEnumeratedValue := m0.IsEnumeratedValue,
                          UnionTypes := some [(m0.NativeType, 0)] }) := by
    intro s fuel t ctx b1 b2 b3 m0 ms h hsame
    rw [goUnionType_of_mapped s fuel t ctx b1 b2 b3 _ h]
    exact unionResolvedType_single s ctx b1 _ m0 (firstByName_of_same_name m0 ms hsame)
  refine ⟨general, ?_⟩
  have h : List.Forall₂
      (fun l m => (resolveUnionMember exampleState 0 l (some exampleEntryAB)
        false false false).1 = .returns (.ok m))
      (unionLeavesList (exampleUnion [exampleString, exampleString]).Types)
      [{ NativeType := "string", ZeroValue := "\"\"" },
        { NativeType := "string", ZeroValue := "\"\"" }] :=
    List.Forall₂.cons (congrArg Prod.fst (resolveUnionMember_exampleString 0 _ _ _ _))
      (List.Forall₂.cons (congrArg Prod.fst (resolveUnionMember_exampleString 0 _ _ _ _))
        List.Forall₂.nil)
  rw [general exampleState 0 _ _ false false false _ _ h (by simp)]

/-- Witness of C6: the two members of the union `{string, string}` resolve to the same native
type name, and the union resolves to the mapped type of `string` with one union member. -/
theorem C6_single_member_collapse_witness :
    List.Forall₂
        (fun l m => (resolveUnionMember exampleState 0 l (some exampleEntryAB)
          false false false).1 = .returns (.ok m))
        (unionLeavesList (exampleUnion [exampleString, exampleString]).Types)
        [{ NativeType := "string", ZeroValue := "\"\"" },
          { NativeType := "string", ZeroValue := "\"\"" }]
      ∧ (∀ m ∈ [({ NativeType := "string", ZeroValue := "\"\"" } : MappedType)],
          m.NativeType = ({ NativeType := "string", ZeroValue := "\"\"" } : MappedType).NativeType)
      ∧ (goUnionType exampleState 0
            ⟨some (exampleUnion [exampleString, exampleString]), some exampleEntryAB⟩
            false false false).1
          = .returns (.ok { NativeType := "string", ZeroValue := "\"\"", DefaultValue := none,
                            IsEnumeratedValue := false, UnionTypes := some [("string", 0)] }) := by
  have h : List.Forall₂
      (fun l m => (resolveUnionMember exampleState 0 l (some exampleEntryAB)
        false false false).1 = .returns (.ok m))
      (unionLeavesList (exampleUnion [exampleString, exampleString]).Types)
      [{ NativeType := "string", ZeroValue := "\"\"" },
        { NativeType := "string", ZeroValue := "\"\"" }] :=
    List.Forall₂.cons (congrArg Prod.fst (resolveUnionMember_exampleString 0 _ _ _ _))
      (List.Forall₂.cons (congrArg Prod.fst (resolveUnionMember_exampleString 0 _ _ _ _))
        List.Forall₂.nil)
  have hsame : ∀ m ∈ [({ NativeType := "string", ZeroValue := "\"\"" } : MappedType)],
      m.NativeType = ({ NativeType := "string", ZeroValue := "\"\"" } : MappedType).NativeType := by
    simp
  exact ⟨h, hsame,
    C6_single_member_collapse.1 exampleState 0 _ _ false false false _ _ h hsame⟩

/-! ## C7: typedef-enumeration precedence -/

/-- C7: typedef-enumeration precedence. For a schema type `t` of any kind, when the typedef
lookup of the registry returns the mapped type `M` without error, `yangTypeToGoType` returns
`M` with the zero value set to `"0"` and, when `t` has a raw default `d`, with the default
value set to the result of the formatter for `(M.NativeType, d, "E_")`; the only call made is
the typedef lookup, so neither `LookupEnum`, `LookupIdentity` nor the path index is
consulted. -/
theorem C7_typedef_precedence (s : goGenState) (fuel : Nat) (t : YangType) (c : Option Entry)
    (b1 b2 b3 : Bool) (M : MappedType) (h : s.LookupTypedef (some t) c = .ok (some M)) :
    yangTypeToGoType s fuel ⟨some t, c⟩ b1 b2 b3
      = (.returns (.ok { M with
            ZeroValue := "0",
            DefaultValue :=
              match t.Default with
              | some d => s.enumDefaultValue M.NativeType d "E_"
              | none => M.DefaultValue }),
          [.LookupTypedef (some t) c]) := by
  rw [yangTypeToGoType]
  simp only [h, typedefMappedType, TypeDefaultValue, goEnumPrefix]
  cases t.Default <;> rfl

/-- Witness of C7: the typedef `mode-type` with the raw default `UP`, known to the registry as
the enumeration `E_ModeType`. -/
theorem C7_typedef_precedence_witness :
    exampleState.LookupTypedef (some exampleModeTypedef) (some exampleMode)
        = .ok (some { NativeType := "E_ModeType", IsEnumeratedValue := true })
      ∧ yangTypeToGoType exampleState 0 ⟨some exampleModeTypedef, some exampleMode⟩
          false false false
        = (.returns (.ok { NativeType := "E_ModeType", IsEnumeratedValue := true,
                           ZeroValue := "0", DefaultValue := some "E_ModeType_UP" }),
            [.LookupTypedef (some exampleModeTypedef) (some exampleMode)]) :=
  ⟨rfl, C7_typedef_precedence exampleState 0 exampleModeTypedef (some exampleMode)
    false false false _ rfl⟩

/-! ## C8: enumeration lowering -/

/-- C8, counterexample: with a registry whose `LookupEnum` answers `If_Mode` without marking it
as enumerated, the enumeration leaf `/if/mode` resolves to a mapped type that is not marked as
enumerated: `yangTypeToGoType` does not set the mark itself. -/
theorem C8_enum_lowering_counterexample :
    exampleEnum.Kind = .Yenum
      ∧ exampleStatePlainEnum.LookupTypedef (some exampleEnum) (some exampleMode) = .ok none
      ∧ exampleStatePlainEnum.LookupEnum exampleEnum exampleMode
          = .ok { NativeType := "If_Mode" }
      ∧ (yangTypeToGoType exampleStatePlainEnum 0 ⟨some exampleEnum, some exampleMode⟩
            false false false).1
          = .returns (.ok { NativeType := "If_Mode", ZeroValue := "0",
                            IsEnumeratedValue := false, DefaultValue := some "If_Mode_UP" })
      ∧ ¬ ∃ r, (yangTypeToGoType exampleStatePlainEnum 0 ⟨some exampleEnum, some exampleMode⟩
            false false false).1 = .returns (.ok r) ∧ r.IsEnumeratedValue = true := by
  have hrun : (yangTypeToGoType exampleStatePlainEnum 0 ⟨some exampleEnum, some exampleMode⟩
        false false false).1
      = .returns (.ok { NativeType := "If_Mode", ZeroValue := "0",
                        IsEnumeratedValue := false, DefaultValue := some "If_Mode_UP" }) := by
    rw [yangTypeToGoType]
    simp [exampleStatePlainEnum, exampleState, exampleEnum, YangType.Name, YangType.Kind,
      enumMappedType, TypeDefaultValue, YangType.Default, goEnumPrefix]
  refine ⟨rfl, rfl, rfl, hrun, ?_⟩
  rintro ⟨r, hr, hen⟩
  rw [hrun] at hr
  simp only [Outcome.returns.injEq, Except.ok.injEq] at hr
  rw [← hr] at hen
  exact absurd hen (by decide)

/-- C8, amended: enumeration lowering. For an enumeration type `t` with the context `c`, when
the typedef lookup yields nothing and `LookupEnum t c` succeeds with the mapped type `M`,
`yangTypeToGoType` returns `M` with the zero value set to `"0"` and, when `t` has a raw default
`d`, with the default value set to the result of the formatter for `(M.NativeType, d, "E_")`:
the native type name is the one of `M` and the result is marked as enumerated exactly when `M`
is, for `yangTypeToGoType` leaves the mark as the registry set it. For
the leaf `mode` at `/if/mode` with the raw default `UP` and a registry that answers `If_Mode`,
marked as enumerated, the result is `If_Mode` with zero value `"0"`, enumerated. -/
theorem C8_enum_lowering :
    (∀ (s : goGenState) (fuel : Nat) (t : YangType) (c : Entry) (b1 b2 b3 : Bool)
        (M : MappedType),
        t.Kind = .Yenum → s.LookupTypedef (some t) (some c) = .ok none →
        s.LookupEnum t c = .ok M →
        yangTypeToGoType s fuel ⟨some t, some c⟩ b1 b2 b3
          = (.returns (.ok { M with
                ZeroValue := "0",
                DefaultValue :=
                  match t.Default with
                  | some d => s.enumDefaultValue M.NativeType d "E_"
                  | none => M.DefaultValue }),
              [.LookupTypedef (some t) (some c), .LookupEnum t c]))
      ∧ (yangTypeToGoType exampleState 0 ⟨some exampleEnum, some exampleMode⟩
            false false false).1
          = .returns (.ok { NativeType := "If_Mode", ZeroValue := "0",
                            IsEnumeratedValue := true, DefaultValue := some "If_Mode_UP" }) := by
  have general : ∀ (s : goGenState) (fuel : Nat) (t : YangType) (c : Entry) (b1 b2 b3 : Bool)
      (M : MappedType),
      t.Kind = .Yenum → s.LookupTypedef (some t) (some c) = .ok none →
      s.LookupEnum t c = .ok M →
      yangTypeToGoType s fuel ⟨some t, some c⟩ b1 b2 b3
        = (.returns (.ok { M with
              ZeroValue := "0",
              DefaultValue :=
                match t.Default with
                | some d => s.enumDefaultValue M.NativeType d "E_"
                | none => M.DefaultValue }),
            [.LookupTypedef (some t) (some c), .LookupEnum t c]) := by
    intro s fuel t c b1 b2 b3 M hk htd hen
    rw [yangTypeToGoType]
    simp only [htd, hk, hen, enumMappedType, TypeDefaultValue, goEnumPrefix]
    cases t.Default <;> rfl
  refine ⟨general, ?_⟩
  rw [general exampleState 0 exampleEnum exampleMode false false false
    { NativeType := "If_Mode", IsEnumeratedValue := true } rfl rfl rfl]
  rfl

/-- Witness of C8 as amended: the leaf `/if/mode` with the example registry. -/
theorem C8_enum_lowering_witness :
    exampleEnum.Kind = .Yenum
      ∧ exampleState.LookupTypedef (some exampleEnum) (some exampleMode) = .ok none
      ∧ exampleState.LookupEnum exampleEnum exampleMode
          = .ok { NativeType := "If_Mode", IsEnumeratedValue := true }
      ∧ yangTypeToGoType exampleState 0 ⟨some exampleEnum, some exampleMode⟩ false false false
          = (.returns (.ok { NativeType := "If_Mode", ZeroValue := "0",
                             IsEnumeratedValue := true, UnionTypes := none,
                             DefaultValue := some "If_Mode_UP" }),
              [.LookupTypedef (some exampleEnum) (some exampleMode),
                .LookupEnum exampleEnum exampleMode]) :=
  ⟨rfl, rfl, rfl, C8_enum_lowering.1 exampleState 0 exampleEnum exampleMode false false false
    { NativeType := "If_Mode", IsEnumeratedValue := true } rfl rfl rfl⟩

/-! ## C9: identity-reference lowering -/

/-- C9, counterexample: an identity-reference type with the base `A`, resolved in the context of
the leaf `/if/kind` whose own type has the base `B`, is looked up in the registry under `B`:
the call made is `LookupIdentity B`, no call is made for `A`, and the result is `E_B` although
the registry names the base `A` of the type `E_A`. -/
theorem C9_identityref_lowering_counterexample :
    (exampleIdentityref "A" none).Kind = .Yidentityref
      ∧ exampleState.LookupTypedef (some (exampleIdentityref "A" none)) (some exampleKindB)
          = .ok none
      ∧ exampleState.LookupIdentity (exampleIdentityref "A" none).IdentityBase
          = .ok { NativeType := "E_A", IsEnumeratedValue := true }
      ∧ yangTypeToGoType exampleState 0 ⟨some (exampleIdentityref "A" none), some exampleKindB⟩
            false false false
          = (.returns (.ok { NativeType := "E_B", IsEnumeratedValue := true, ZeroValue := "0" }),
              [.LookupTypedef (some (exampleIdentityref "A" none)) (some exampleKindB),
                .LookupIdentity (some { Name := "B" })])
      ∧ Call.LookupIdentity (exampleIdentityref "A" none).IdentityBase
          ∉ (yangTypeToGoType exampleState 0
              ⟨some (exampleIdentityref "A" none), some exampleKindB⟩ false false false).2 := by
  have hrun : yangTypeToGoType exampleState 0
        ⟨some (exampleIdentityref "A" none), some exampleKindB⟩ false false false
      = (.returns (.ok { NativeType := "E_B", IsEnumeratedValue := true, ZeroValue := "0" }),
          [.LookupTypedef (some (exampleIdentityref "A" none)) (some exampleKindB),
            .LookupIdentity (some { Name := "B" })]) := by
    rw [yangTypeToGoType]
    simp [exampleState, exampleIdentityref, exampleKindB, Entry.Typ, YangType.Name,
      YangType.Kind, YangType.IdentityBase, enumMappedType, TypeDefaultValue, YangType.Default]
  refine ⟨rfl, rfl, rfl, hrun, ?_⟩
  rw [hrun]
  simp [exampleIdentityref, YangType.IdentityBase]

/-- C9, amended: identity-reference lowering uses the identity base of the type of the context
element. For an identity-reference type `t` with a context `c` whose own type `ct` is present,
when the typedef lookup yields nothing, `yangTypeToGoType` queries the registry with
`LookupIdentity ct.IdentityBase`; an error of the lookup is returned, and a mapped type `M` is
returned with the zero value `"0"` and, when `t` has a raw default `d`, with the default value
set to the result of the formatter for `(M.NativeType, d, "E_")`. When the type of `c` is `t`
itself, the base looked up is the one of `t`. -/
theorem C9_identityref_lowering (s : goGenState) (fuel : Nat) (t ct : YangType) (c : Entry)
    (b1 b2 b3 : Bool) (hk : t.Kind = .Yidentityref)
    (htd : s.LookupTypedef (some t) (some c) = .ok none) (hct : c.Typ = some ct) :
    yangTypeToGoType s fuel ⟨some t, some c⟩ b1 b2 b3
        = (match s.LookupIdentity ct.IdentityBase with
            | .error err => .returns (.error err)
            | .ok M =>
              .returns (.ok { M with
                ZeroValue := "0",
                DefaultValue :=
                  match t.Default with
                  | some d => s.enumDefaultValue M.NativeType d "E_"
                  | none => M.DefaultValue }),
            [.LookupTypedef (some t) (some c), .LookupIdentity ct.IdentityBase])
      ∧ (ct = t →
          (yangTypeToGoType s fuel ⟨some t, some c⟩ b1 b2 b3).2
            = [.LookupTypedef (some t) (some c), .LookupIdentity t.IdentityBase]) := by
  have hrun : yangTypeToGoType s fuel ⟨some t, some c⟩ b1 b2 b3
      = (match s.LookupIdentity ct.IdentityBase with
          | .error err => .returns (.error err)
          | .ok M =>
            .returns (.ok { M with
              ZeroValue := "0",
              DefaultValue :=
                match t.Default with
                | some d => s.enumDefaultValue M.NativeType d "E_"
                | none => M.DefaultValue }),
          [.LookupTypedef (some t) (some c), .LookupIdentity ct.IdentityBase]) := by
    rw [yangTypeToGoType]
    simp only [htd, hk, hct, enumMappedType, TypeDefaultValue, goEnumPrefix]
    cases s.LookupIdentity ct.IdentityBase with
    | error err => rfl
    | ok M => cases t.Default <;> rfl
  refine ⟨hrun, ?_⟩
  intro h
  rw [hrun, h]

/-- Witness of C9 as amended: the identity-reference with base `B` and raw default `X` in the
context of the leaf `/if/kind`, whose own type has the base `B`; and the type of that leaf
itself, for which the base looked up is its own. -/
theorem C9_identityref_lowering_witness :
    (exampleIdentityref "B" (some "X")).Kind = .Yidentityref
      ∧ exampleState.LookupTypedef (some (exampleIdentityref "B" (some "X"))) (some exampleKindB)
          = .ok none
      ∧ exampleKindB.Typ = some (exampleIdentityref "B" none)
      ∧ yangTypeToGoType exampleState 0
            ⟨some (exampleIdentityref "B" (some "X")), some exampleKindB⟩ false false false
          = (.returns (.ok { NativeType := "E_B", IsEnumeratedValue := true, ZeroValue := "0",
                             DefaultValue := some "E_B_X" }),
              [.LookupTypedef (some (exampleIdentityref "B" (some "X"))) (some exampleKindB),
                .LookupIdentity (some { Name := "B" })])
      ∧ (yangTypeToGoType exampleState 0
            ⟨some (exampleIdentityref "B" none), some exampleKindB⟩ false false false).2
          = [.LookupTypedef (some (exampleIdentityref "B" none)) (some exampleKindB),
              .LookupIdentity (exampleIdentityref "B" none).IdentityBase] :=
  ⟨rfl, rfl, rfl,
    (C9_identityref_lowering exampleState 0 (exampleIdentityref "B" (some "X"))
      (exampleIdentityref "B" none) exampleKindB false false false rfl rfl rfl).1,
    (C9_identityref_lowering exampleState 0 (exampleIdentityref "B" none)
      (exampleIdentityref "B" none) exampleKindB false false false rfl rfl rfl).2 rfl⟩

/-! ## C10: identity-reference members of a union -/

/-- C10: identity-reference union members use the base of the member. For a member `m` of a
union that is not itself a union and has the kind identity-reference, `goUnionSubTypes` makes
the one call `LookupIdentity m.IdentityBase`, whatever the context `ctx` of the union; when the
lookup succeeds with `M`, the mapped type of the member is `M` with the zero value `"0"` and
with the default value set to the formatted default of the member when it declares one and to
nil otherwise, recorded under its native type name unless that name is already present.
A union of two identity-references whose registry names differ has two members, at the
positions 0 and 1. -/
theorem C10_union_identityref_member (s : goGenState) (fuel : Nat) (m : YangType)
    (b1 b2 b3 : Bool) (hleaf : m.Types = []) (hk : m.Kind = .Yidentityref) :
    (∀ (ctx : Option Entry) (cur : List (String × Nat)) (mapped : List (Nat × MappedType))
        (M : MappedType), s.LookupIdentity m.IdentityBase = .ok M →
        goUnionSubTypes s fuel m ctx cur mapped b1 b2 b3
          = (.returns ([], addUnionSubType
                { M with
                  ZeroValue := "0",
                  DefaultValue :=
                    match m.Default with
                    | some d => s.enumDefaultValue M.NativeType d "E_"
                    | none => none }
                cur mapped),
              [.LookupIdentity m.IdentityBase]))
      ∧ (∀ (ctx1 ctx2 : Option Entry) (cur : List (String × Nat))
          (mapped : List (Nat × MappedType)),
          goUnionSubTypes s fuel m ctx1 cur mapped b1 b2 b3
            = goUnionSubTypes s fuel m ctx2 cur mapped b1 b2 b3)
      ∧ (∀ (t m2 : YangType) (ctx : Option Entry) (M M2 : MappedType),
          t.Types = [m, m2] → m2.Types = [] → m2.Kind = .Yidentityref →
          s.LookupIdentity m.IdentityBase = .ok M → s.LookupIdentity m2.IdentityBase = .ok M2 →
          M.NativeType ≠ M2.NativeType →
          ∃ r, (goUnionType s fuel ⟨some t, ctx⟩ b1 b2 b3).1 = .returns (.ok r)
            ∧ r.UnionTypes = some [(M.NativeType, 0), (M2.NativeType, 1)]) := by
  have hmember : ∀ (m : YangType) (ctx : Option Entry), m.Kind = .Yidentityref →
      resolveUnionMember s fuel m ctx b1 b2 b3
        = (match s.LookupIdentity m.IdentityBase with
            | .error err => .returns (.error err)
            | .ok M => .returns (.ok (unionIdentityMappedType s M m)),
            [.LookupIdentity m.IdentityBase]) := by
    intro m ctx hk
    rw [resolveUnionMember]
    simp only [hk]
    cases s.LookupIdentity m.IdentityBase <;> rfl
  refine ⟨?_, ?_, ?_⟩
  · intro ctx cur mapped M hM
    rw [goUnionSubTypes]
    simp only [hleaf, List.length_nil, ne_eq, not_true_eq_false, if_false, hk, hM,
      unionIdentityMappedType, TypeDefaultValue, goEnumPrefix]
  · intro ctx1 ctx2 cur mapped
    rw [goUnionSubTypes, goUnionSubTypes]
    simp only [hleaf, List.length_nil, ne_eq, not_true_eq_false, if_false, hk]
  · intro t m2 ctx M M2 ht hleaf2 hk2 hM hM2 hne
    have hleaves : unionLeavesList t.Types = [m, m2] := by
      rw [ht]
      rcases m with ⟨_, _, _, _, _, ts⟩
      rcases m2 with ⟨_, _, _, _, _, ts2⟩
      simp only [YangType.Types] at hleaf hleaf2
      subst hleaf hleaf2
      simp [unionLeavesList, unionLeaves]
    have h : List.Forall₂
        (fun l r => (resolveUnionMember s fuel l ctx b1 b2 b3).1 = .returns (.ok r))
        (unionLeavesList t.Types)
        [unionIdentityMappedType s M m, unionIdentityMappedType s M2 m2] := by
      rw [hleaves]
      refine List.Forall₂.cons ?_ (List.Forall₂.cons ?_ List.Forall₂.nil)
      · rw [hmember m ctx hk, hM]
      · rw [hmember m2 ctx hk2, hM2]
    rw [goUnionType_of_mapped s fuel t ctx b1 b2 b3 _ h]
    obtain ⟨r, hr, hru⟩ := unionResolvedType_returns s ctx b1
      [unionIdentityMappedType s M m, unionIdentityMappedType s M2 m2]
    refine ⟨r, hr, ?_⟩
    rw [hru]
    have hne2 : ¬ (M2.NativeType = M.NativeType) := fun h => hne h.symm
    simp [unionTypesOf, firstByName, unionIdentityMappedType, hne2, List.range_succ]

/-- Witness of C10: the identity-reference members with the bases `A` (raw default `X`) and `B`
of a union in the context `/a/b`. -/
theorem C10_union_identityref_member_witness :
    (exampleIdentityref "A" (some "X")).Types = []
      ∧ (exampleIdentityref "A" (some "X")).Kind = .Yidentityref
      ∧ exampleState.LookupIdentity (exampleIdentityref "A" (some "X")).IdentityBase
          = .ok { NativeType := "E_A", IsEnumeratedValue := true }
      ∧ goUnionSubTypes exampleState 0 (exampleIdentityref "A" (some "X")) (some exampleEntryAB)
            [] [] false false false
          = (.returns ([], [("E_A", 0)],
                [(0, { NativeType := "E_A", IsEnumeratedValue := true, ZeroValue := "0",
                       DefaultValue := some "E_A_X" })]),
              [.LookupIdentity (some { Name := "A" })])
      ∧ ∃ r, (goUnionType exampleState 0
            ⟨some (exampleUnion [exampleIdentityref "A" (some "X"), exampleIdentityref "B" none]),
              some exampleEntryAB⟩ false false false).1 = .returns (.ok r)
          ∧ r.UnionTypes = some [("E_A", 0), ("E_B", 1)] :=
  ⟨rfl, rfl, rfl,
    (C10_union_identityref_member exampleState 0 (exampleIdentityref "A" (some "X"))
      false false false rfl rfl).1 (some exampleEntryAB) [] []
      { NativeType := "E_A", IsEnumeratedValue := true } rfl,
    (C10_union_identityref_member exampleState 0 (exampleIdentityref "A" (some "X"))
      false false false rfl rfl).2.2
      (exampleUnion [exampleIdentityref "A" (some "X"), exampleIdentityref "B" none])
      (exampleIdentityref "B" none) (some exampleEntryAB)
      { NativeType := "E_A", IsEnumeratedValue := true }
      { NativeType := "E_B", IsEnumeratedValue := true } rfl rfl rfl rfl rfl (by decide)⟩

/-! ## C11: a missing context is rejected -/

/-- C11: a missing context is rejected. For a type of kind enumeration or identity-reference for
which the typedef lookup yields nothing, `yangTypeToGoType` called without a context element
returns an error (`cannot map enum without context`, `cannot map identityref without context`)
and no mapped type; the only call made is the typedef lookup, so neither `LookupEnum` nor
`LookupIdentity` is called. -/
theorem C11_missing_context_rejected (s : goGenState) (fuel : Nat) (t : YangType)
    (b1 b2 b3 : Bool) (htd : s.LookupTypedef (some t) none = .ok none) :
    (t.Kind = .Yenum →
        yangTypeToGoType s fuel ⟨some t, none⟩ b1 b2 b3
          = (.returns (.error "cannot map enum without context"),
              [.LookupTypedef (some t) none]))
      ∧ (t.Kind = .Yidentityref →
        yangTypeToGoType s fuel ⟨some t, none⟩ b1 b2 b3
          = (.returns (.error "cannot map identityref without context"),
              [.LookupTypedef (some t) none])) := by
  constructor
  · intro hk
    rw [yangTypeToGoType]
    simp only [htd, hk]
  · intro hk
    rw [yangTypeToGoType]
    simp only [htd, hk]

/-- Witness of C11: the example enumeration and an identity-reference, resolved without a
context. -/
theorem C11_missing_context_rejected_witness :
    exampleState.LookupTypedef (some exampleEnum) none = .ok none
      ∧ exampleEnum.Kind = .Yenum
      ∧ yangTypeToGoType exampleState 0 ⟨some exampleEnum, none⟩ false false false
          = (.returns (.error "cannot map enum without context"),
              [.LookupTypedef (some exampleEnum) none])
      ∧ exampleState.LookupTypedef (some (exampleIdentityref "A" none)) none = .ok none
      ∧ (exampleIdentityref "A" none).Kind = .Yidentityref
      ∧ yangTypeToGoType exampleState 0 ⟨some (exampleIdentityref "A" none), none⟩
            false false false
          = (.returns (.error "cannot map identityref without context"),
              [.LookupTypedef (some (exampleIdentityref "A" none)) none]) :=
  ⟨rfl, rfl, (C11_missing_context_rejected exampleState 0 exampleEnum false false false rfl).1 rfl,
    rfl, rfl,
    (C11_missing_context_rejected exampleState 0 (exampleIdentityref "A" none)
      false false false rfl).2 rfl⟩

/-! ## C12: collaborator failures are propagated fail-fast -/

/-- C12: collaborator failures are propagated fail-fast. For a type `t` resolved with context
`c`: (1) an error of the typedef lookup is returned as the error of the run, and the typedef
lookup is the only call; when the typedef lookup yields nothing, (2) for an enumeration with a
context an error of `LookupEnum` is returned, after which no call is made; (3) for an
identity-reference with a typed context an error of `LookupIdentity` is returned, after which no
call is made; (4) for a leaf-reference an error of `resolveLeafrefTarget` is returned, after
which no call is made; (5) for a leaf-reference whose target resolves, an error returned by the
recursive run on the target is returned unchanged, and the calls are the typedef lookup, the
target resolution and the calls of the recursive run, with none after them; and (6) a run that
returns a mapped type made no call that failed. -/
theorem C12_fail_fast (s : goGenState) (fuel : Nat) (t : YangType) (c : Option Entry)
    (b1 b2 b3 : Bool) :
    (∀ e, s.LookupTypedef (some t) c = .error e →
        yangTypeToGoType s fuel ⟨some t, c⟩ b1 b2 b3
          = (.returns (.error e), [.LookupTypedef (some t) c]))
      ∧ (∀ ce e, c = some ce → s.LookupTypedef (some t) c = .ok none → t.Kind = .Yenum →
        s.LookupEnum t ce = .error e →
        yangTypeToGoType s fuel ⟨some t, c⟩ b1 b2 b3
          = (.returns (.error e), [.LookupTypedef (some t) c, .LookupEnum t ce]))
      ∧ (∀ ce ct e, c = some ce → s.LookupTypedef (some t) c = .ok none →
        t.Kind = .Yidentityref → ce.Typ = some ct →
        s.LookupIdentity ct.IdentityBase = .error e →
        yangTypeToGoType s fuel ⟨some t, c⟩ b1 b2 b3
          = (.returns (.error e),
              [.LookupTypedef (some t) c, .LookupIdentity ct.IdentityBase]))
      ∧ (∀ e, s.LookupTypedef (some t) c = .ok none → t.Kind = .Yleafref →
        s.resolveLeafrefTarget t.Path c = .error e →
        yangTypeToGoType s fuel ⟨some t, c⟩ b1 b2 b3
          = (.returns (.error e),
              [.LookupTypedef (some t) c, .resolveLeafrefTarget t.Path c]))
      ∧ (∀ target e calls, s.LookupTypedef (some t) c = .ok none → t.Kind = .Yleafref →
        s.resolveLeafrefTarget t.Path c = .ok target →
        yangTypeToGoType s fuel ⟨target.Typ, some target⟩ b1 b2 b3
          = (.returns (.error e), calls) →
        yangTypeToGoType s (fuel + 1) ⟨some t, c⟩ b1 b2 b3
          = (.returns (.error e),
              .LookupTypedef (some t) c :: .resolveLeafrefTarget t.Path c :: calls))
      ∧ (∀ m calls, yangTypeToGoType s fuel ⟨some t, c⟩ b1 b2 b3 = (.returns (.ok m), calls) →
        ∀ call ∈ calls, call.failed s = false) := by
  refine ⟨?_, ?_, ?_, ?_, ?_, ?_⟩
  · intro e htd
    rw [yangTypeToGoType]
    simp only [htd]
  · intro ce e hc htd hk he
    subst hc
    rw [yangTypeToGoType]
    simp only [htd, hk, he]
  · intro ce ct e hc htd hk hct hi
    subst hc
    rw [yangTypeToGoType]
    simp only [htd, hk, hct, hi]
  · intro e htd hk ht
    rw [yangTypeToGoType]
    simp only [htd, hk, ht]
  · intro target e calls htd hk ht hr
    rw [yangTypeToGoType]
    simp only [htd, hk, ht, hr]
  · intro m calls h
    exact yangTypeToGoType_no_failed_call s fuel ⟨some t, c⟩ b1 b2 b3 m calls h

/-- Witness of C12: with a registry whose enumeration lookup fails, the example enumeration
resolved at the example context returns that failure after the two calls made. -/
theorem C12_fail_fast_witness :
    exampleStateFailing.LookupTypedef (some exampleEnum) (some exampleMode) = .ok none
      ∧ exampleEnum.Kind = .Yenum
      ∧ exampleStateFailing.LookupEnum exampleEnum exampleMode = .error "unknown enumeration"
      ∧ yangTypeToGoType exampleStateFailing 0 ⟨some exampleEnum, some exampleMode⟩
            false false false
          = (.returns (.error "unknown enumeration"),
              [.LookupTypedef (some exampleEnum) (some exampleMode),
               .LookupEnum exampleEnum exampleMode]) :=
  ⟨rfl, rfl, rfl,
    (C12_fail_fast exampleStateFailing 0 exampleEnum (some exampleMode) false false false).2.1
      exampleMode "unknown enumeration" rfl rfl rfl rfl⟩

/-! ## C13: the primitive table -/

/-- C13: the primitive table with verbatim default. For a type whose kind is one of int8,
int16, int32, int64, uint8, uint16, uint32, uint64, bool, string or binary, listed in
`primitiveTable` with its native type name and zero literal, and for which the typedef lookup
yields nothing, `yangTypeToGoType` succeeds in every context (also without one), with every
fuel and under every configuration: it returns the native type name and the zero literal of
the table, the raw default of the type as default value (nil when none is declared), not
enumerated and without union members, after the typedef lookup alone. -/
theorem C13_primitive_table (s : goGenState) (fuel : Nat) (t : YangType) (c : Option Entry)
    (b1 b2 b3 : Bool) (k : TypeKind) (name zero : String)
    (hrow : (k, name, zero) ∈ primitiveTable) (hk : t.Kind = k)
    (htd : s.LookupTypedef (some t) c = .ok none) :
    yangTypeToGoType s fuel ⟨some t, c⟩ b1 b2 b3
      = (.returns (.ok { NativeType := name, ZeroValue := zero, DefaultValue := t.Default,
                         IsEnumeratedValue := false, UnionTypes := none }),
          [.LookupTypedef (some t) c]) := by
  simp only [primitiveTable, List.mem_cons, Prod.mk.injEq, List.mem_singleton,
    List.not_mem_nil, or_false] at hrow
  rw [yangTypeToGoType]
  rcases hrow with h | h | h | h | h | h | h | h | h | h | h <;>
    obtain ⟨rfl, rfl, rfl⟩ := h <;>
    simp only [htd, hk, TypeDefaultValue] <;>
    rfl

/-- Witness of C13: the boolean type with the raw default `true`, resolved without a
context. -/
theorem C13_primitive_table_witness :
    (TypeKind.Ybool, "bool", "false") ∈ primitiveTable
      ∧ exampleBool.Kind = .Ybool
      ∧ exampleState.LookupTypedef (some exampleBool) none = .ok none
      ∧ yangTypeToGoType exampleState 0 ⟨some exampleBool, none⟩ false true false
          = (.returns (.ok { NativeType := "bool", ZeroValue := "false",
                             DefaultValue := some "true", IsEnumeratedValue := false,
                             UnionTypes := none }),
              [.LookupTypedef (some exampleBool) none]) :=
  ⟨by decide, rfl, rfl,
    C13_primitive_table exampleState 0 exampleBool none false true false .Ybool "bool" "false"
      (by decide) rfl rfl⟩

/-! ## C14: fixed-point decimal -/

/-- The decimal64 branch of `yangTypeToGoType`: the mapped type is `float64` with the zero
value `0.0`, and the composite literal of the branch does not set the default value. -/
theorem yangTypeToGoType_Ydecimal64 (s : goGenState) (fuel : Nat) (t : YangType)
    (c : Option Entry) (b1 b2 b3 : Bool) (hk : t.Kind = .Ydecimal64)
    (htd : s.LookupTypedef (some t) c = .ok none) :
    yangTypeToGoType s fuel ⟨some t, c⟩ b1 b2 b3
      = (.returns (.ok { NativeType := "float64", ZeroValue := "0.0", DefaultValue := none }),
          [.LookupTypedef (some t) c]) := by
  rw [yangTypeToGoType]
  simp only [htd, hk]
  rfl

/-- C14, the code at the failing input: the decimal64 type with the raw default `1.5` resolves
to `float64` with the zero value `0.0` and without a default value; the raw default is not
passed through, unlike in the integer, boolean, string and binary branches. -/
theorem C14_decimal64_default_dropped :
    exampleDecimal64.Kind = .Ydecimal64
      ∧ TypeDefaultValue (some exampleDecimal64) = some "1.5"
      ∧ exampleState.LookupTypedef (some exampleDecimal64) (some exampleEntryAB) = .ok none
      ∧ yangTypeToGoType exampleState 0 ⟨some exampleDecimal64, some exampleEntryAB⟩
            false false false
          = (.returns (.ok { NativeType := "float64", ZeroValue := "0.0",
                             DefaultValue := none }),
              [.LookupTypedef (some exampleDecimal64) (some exampleEntryAB)]) :=
  ⟨rfl, rfl, rfl,
    yangTypeToGoType_Ydecimal64 exampleState 0 exampleDecimal64 (some exampleEntryAB)
      false false false rfl rfl⟩

/-! ## C15: empty and unsupported kinds -/

/-- C15: empty and unsupported kinds never fail and never carry a default. With the typedef
lookup yielding nothing, in every context, with every fuel and under every configuration, a
type of kind empty resolves to the presence-marker type `YANGEmpty` with the zero value
`false`, and a type whose kind has no case of its own in the `switch` (none, bits,
instance-identifier) resolves to `interface{}` with the zero value `nil`; in both cases no
error is returned and the default value is nil whatever raw default the type declares. -/
theorem C15_empty_and_unsupported (s : goGenState) (fuel : Nat) (t : YangType)
    (c : Option Entry) (b1 b2 b3 : Bool) (htd : s.LookupTypedef (some t) c = .ok none) :
    (t.Kind = .Yempty →
        yangTypeToGoType s fuel ⟨some t, c⟩ b1 b2 b3
          = (.returns (.ok { NativeType := "YANGEmpty", ZeroValue := "false",
                             DefaultValue := none }),
              [.LookupTypedef (some t) c]))
      ∧ (t.Kind ∉ handledKinds →
        yangTypeToGoType s fuel ⟨some t, c⟩ b1 b2 b3
          = (.returns (.ok { NativeType := "interface\x7b\x7d", ZeroValue := "nil",
                             DefaultValue := none }),
              [.LookupTypedef (some t) c]))
      ∧ (∀ k : TypeKind, k ∉ handledKinds ↔ k = .Ynone ∨ k = .Ybits ∨ k = .YinstanceIdentifier)
      := by
  refine ⟨?_, ?_, ?_⟩
  · intro hk
    rw [yangTypeToGoType]
    simp only [htd, hk]
    rfl
  · intro hk
    rw [yangTypeToGoType]
    cases hkd : t.Kind <;> simp only [htd, hkd] <;>
      first
        | rfl
        | exact absurd hk (by rw [hkd]; decide)
  · intro k
    cases k <;> decide

/-- Witness of C15: the empty type and the bits type of the examples, both with a raw
default. -/
theorem C15_empty_and_unsupported_witness :
    exampleState.LookupTypedef (some exampleEmpty) none = .ok none
      ∧ exampleEmpty.Kind = .Yempty
      ∧ TypeDefaultValue (some exampleEmpty) = some "true"
      ∧ yangTypeToGoType exampleState 0 ⟨some exampleEmpty, none⟩ false false false
          = (.returns (.ok { NativeType := "YANGEmpty", ZeroValue := "false",
                             DefaultValue := none }),
              [.LookupTypedef (some exampleEmpty) none])
      ∧ exampleState.LookupTypedef (some exampleBits) none = .ok none
      ∧ exampleBits.Kind ∉ handledKinds
      ∧ yangTypeToGoType exampleState 0 ⟨some exampleBits, none⟩ false false false
          = (.returns (.ok { NativeType := "interface\x7b\x7d", ZeroValue := "nil",
                             DefaultValue := none }),
              [.LookupTypedef (some exampleBits) none]) :=
  ⟨rfl, rfl, rfl,
    (C15_empty_and_unsupported exampleState 0 exampleEmpty none false false false rfl).1 rfl,
    rfl, by decide,
    (C15_empty_and_unsupported exampleState 0 exampleBits none false false false rfl).2.1
      (by decide)⟩

/-! ## C16: aborts -/

/-- C16, the code at the failing inputs. An identity-reference type resolved in the context of
the container `/if`, an element without a type, aborts: the branch checks that the context is
not nil and then reads the identity base through the nil type of the context. A leaf-reference
whose target is that container aborts as well: the recursive call receives the nil type of the
target and reads its kind. -/
theorem C16_abort_on_absent_type :
    exampleEntryIf.Typ = none
      ∧ (exampleIdentityref "A" none).Kind = .Yidentityref
      ∧ yangTypeToGoType exampleState 0 ⟨some (exampleIdentityref "A" none), some exampleEntryIf⟩
            false false false
          = (.panics,
              [.LookupTypedef (some (exampleIdentityref "A" none)) (some exampleEntryIf)])
      ∧ exampleStateContainerTarget.resolveLeafrefTarget (exampleLeafref none).Path
            (some exampleEntryAB) = .ok exampleEntryIf
      ∧ yangTypeToGoType exampleStateContainerTarget 1
            ⟨some (exampleLeafref none), some exampleEntryAB⟩ false false false
          = (.panics,
              [.LookupTypedef (some (exampleLeafref none)) (some exampleEntryAB),
                .resolveLeafrefTarget "../counter" (some exampleEntryAB),
                .LookupTypedef none (some exampleEntryIf)]) := by
  refine ⟨rfl, rfl, ?_, rfl, ?_⟩
  · rw [yangTypeToGoType]
    simp [exampleState, exampleIdentityref, exampleEntryIf, Entry.Typ, YangType.Name,
      YangType.Kind]
  · rw [yangTypeToGoType]
    simp only [exampleStateContainerTarget, exampleState, exampleLeafref, exampleEntryIf,
      Entry.Typ, YangType.Name, YangType.Kind, YangType.Path, Option.map_some']
    rw [yangTypeToGoType]
    simp

/-! ## C17: `skipEnumDedup` gives distinct names -/

/-- C17: `skipEnumDedup` gives distinct names. With the Registry of a run with
`skipEnumDedup = true` whose assigned names are pairwise distinct, two enumeration-kind types
(structurally identical or not) for which the typedef lookup yields nothing, resolved one after
the other by `yangTypeToGoType` with `skipEnumDedup = true` and context elements at two
different schema paths, are mapped to two types whose native type names differ; the assigned
names stay pairwise distinct after each lookup. -/
theorem C17_skip_dedup_distinct_names (s : goGenState) (fuel1 fuel2 : Nat)
    (compressOCPaths shortenEnumLeafNames : Bool) (reg : List (String × String))
    (t1 t2 : YangType) (c1 c2 : Entry)
    (hnd : (reg.map Prod.snd).Nodup) (hpath : c1.Path ≠ c2.Path)
    (hk1 : t1.Kind = .Yenum) (hk2 : t2.Kind = .Yenum)
    (htd1 : s.LookupTypedef (some t1) (some c1) = .ok none)
    (htd2 : s.LookupTypedef (some t2) (some c2) = .ok none) :
    ∃ m1 m2,
      (yangTypeToGoType (withEnumRegistry s compressOCPaths shortenEnumLeafNames reg) fuel1
          ⟨some t1, some c1⟩ compressOCPaths true shortenEnumLeafNames).1 = .returns (.ok m1)
        ∧ (yangTypeToGoType
            (withEnumRegistry s compressOCPaths shortenEnumLeafNames
              (registryLookupEnum s compressOCPaths shortenEnumLeafNames reg c1).2) fuel2
            ⟨some t2, some c2⟩ compressOCPaths true shortenEnumLeafNames).1 = .returns (.ok m2)
        ∧ m1.NativeType ≠ m2.NativeType
        ∧ ((registryLookupEnum s compressOCPaths shortenEnumLeafNames reg c1).2.map
            Prod.snd).Nodup
        ∧ ((registryLookupEnum s compressOCPaths shortenEnumLeafNames
            (registryLookupEnum s compressOCPaths shortenEnumLeafNames reg c1).2 c2).2.map
            Prod.snd).Nodup := by
  have hnd1 := (registryLookupEnum_spec s compressOCPaths shortenEnumLeafNames reg c1 hnd).2
  have hnd2 := (registryLookupEnum_spec s compressOCPaths shortenEnumLeafNames _ c2 hnd1).2
  have hne := registryLookupEnum_distinct s compressOCPaths shortenEnumLeafNames reg c1 c2
    hnd hpath
  have hname : ∀ (s0 : goGenState) (m : MappedType) (d : Option String),
      (enumMappedType s0 m d).NativeType = m.NativeType := by
    intro s0 m d
    cases d <;> rfl
  refine ⟨enumMappedType (withEnumRegistry s compressOCPaths shortenEnumLeafNames reg)
      (registryLookupEnum s compressOCPaths shortenEnumLeafNames reg c1).1
      (TypeDefaultValue (some t1)),
    enumMappedType (withEnumRegistry s compressOCPaths shortenEnumLeafNames
        (registryLookupEnum s compressOCPaths shortenEnumLeafNames reg c1).2)
      (registryLookupEnum s compressOCPaths shortenEnumLeafNames
        (registryLookupEnum s compressOCPaths shortenEnumLeafNames reg c1).2 c2).1
      (TypeDefaultValue (some t2)), ?_, ?_, ?_, hnd1, hnd2⟩
  · rw [yangTypeToGoType]
    simp only [withEnumRegistry, htd1, hk1]
  · rw [yangTypeToGoType]
    simp only [withEnumRegistry, htd2, hk2]
  · rw [hname, hname]
    exact hne

/-- Witness of C17: with no name assigned yet, the example enumeration at `/if/mode` and at
`/a/mode` is mapped to two types whose names differ. -/
theorem C17_skip_dedup_distinct_names_witness :
    exampleMode.Path ≠ exampleModeA.Path
      ∧ ∃ m1 m2,
        (yangTypeToGoType (withEnumRegistry exampleState false true []) 0
            ⟨some exampleEnum, some exampleMode⟩ false true true).1 = .returns (.ok m1)
          ∧ (yangTypeToGoType
              (withEnumRegistry exampleState false true
                (registryLookupEnum exampleState false true [] exampleMode).2) 0
              ⟨some exampleEnum, some exampleModeA⟩ false true true).1 = .returns (.ok m2)
          ∧ m1.NativeType ≠ m2.NativeType
          ∧ ((registryLookupEnum exampleState false true [] exampleMode).2.map
              Prod.snd).Nodup
          ∧ ((registryLookupEnum exampleState false true
              (registryLookupEnum exampleState false true [] exampleMode).2 exampleModeA).2.map
              Prod.snd).Nodup :=
  ⟨exampleMode_path_ne,
    C17_skip_dedup_distinct_names exampleState 0 0 false true [] exampleEnum exampleEnum
      exampleMode exampleModeA List.nodup_nil exampleMode_path_ne rfl rfl rfl rfl⟩

/-! ## C18: `pathToCamelCaseName` builds the name root-first -/

/-- C18: `pathToCamelCaseName` builds the name root-first. When `e` is not handled as the fake
root, the result is the camel-case names of the included elements among `e` and its ancestors,
from the outermost ancestor down to `e`, joined by single underscores, where without path
compression exactly the elements that are not choice or case nodes are included and with path
compression exactly the valid compressed elements; the length of the result is the length of the
names plus one less than their number, so `k` names give `k - 1` separators; and when
`genFakeRoot` is set and `e` is the fake root the result is the camel-case name of `e` alone. -/
theorem C18_path_name_root_first (s : goGenState) (e : Option Entry)
    (compressOCPaths genFakeRoot : Bool) :
    ((genFakeRoot && s.IsFakeRoot e) = false →
        pathToCamelCaseName s e compressOCPaths genFakeRoot
            = "_".intercalate (pathNamesRootFirst s compressOCPaths e)
          ∧ (pathToCamelCaseName s e compressOCPaths genFakeRoot).length
            = ((pathNamesRootFirst s compressOCPaths e).map String.length).sum
              + ((pathNamesRootFirst s compressOCPaths e).length - 1))
      ∧ (∀ x, includedInPathName s false x = !s.IsChoiceOrCase x)
      ∧ (∀ x, includedInPathName s true x = s.IsOCCompressedValidElement x)
      ∧ ((genFakeRoot && s.IsFakeRoot e) = true →
        pathToCamelCaseName s e compressOCPaths genFakeRoot = s.EntryCamelCaseName e) := by
  refine ⟨?_, fun _ => rfl, fun _ => rfl, ?_⟩
  · intro h
    have heq : pathToCamelCaseName s e compressOCPaths genFakeRoot
        = "_".intercalate (pathNamesRootFirst s compressOCPaths e) := by
      simp only [pathToCamelCaseName, h, Bool.false_eq_true, if_false]
      rw [writePathElements_eq, pathElementsLoop_eq, pathNamesRootFirst, ← List.map_reverse,
        List.reverse_reverse, List.map_map]
      rfl
    refine ⟨heq, ?_⟩
    have hlen : "_".length = 1 := by decide
    rw [heq, intercalate_length, hlen, Nat.mul_one]
  · intro h
    simp only [pathToCamelCaseName, h, if_true]
    rw [writePathElements_eq]
    simp [String.intercalate, String.intercalate.go]

/-- Witness of C18: the element `/a/b` is named `A_B`, and the fake root `device` is named by
its own camel-case name. -/
theorem C18_path_name_root_first_witness :
    ((false && exampleState.IsFakeRoot (some exampleEntryAB)) = false
      ∧ pathToCamelCaseName exampleState (some exampleEntryAB) false false
          = "_".intercalate (pathNamesRootFirst exampleState false (some exampleEntryAB)))
      ∧ ((true && exampleStateFakeRoot.IsFakeRoot (some exampleFakeRoot)) = true
        ∧ pathToCamelCaseName exampleStateFakeRoot (some exampleFakeRoot) false true
            = exampleStateFakeRoot.EntryCamelCaseName (some exampleFakeRoot)) :=
  ⟨⟨rfl, ((C18_path_name_root_first exampleState (some exampleEntryAB) false false).1 rfl).1⟩,
    ⟨by decide,
      (C18_path_name_root_first exampleStateFakeRoot (some exampleFakeRoot) false true).2.2.2
        (by decide)⟩⟩

/-! ## C23: no cycle guard on leaf-references -/

/-- C23: no cycle guard on leaf-references. On an input from which every chain of
leaf-reference targets produced by the path index is finite, `yangTypeToGoType` ends: with
enough fuel, and then with any larger fuel, the run is finished, and it is the same run (the
recursion through union members is structural and uses no fuel). But a run on a leaf-reference
whose resolved target has a leaf-reference type that resolves back to the same target is
unfinished for every fuel; the example registry with the cyclic path index is such an input, and
its chain of targets is not finite. -/
theorem C23_no_cycle_guard (s : goGenState) (args : resolveTypeArgs) :
    (finiteLeafrefChains s args →
        ∃ fuel, ∀ fuel1, fuel ≤ fuel1 → ∀ b1 b2 b3,
          (yangTypeToGoType s fuel1 args b1 b2 b3).1 ≠ .diverges
            ∧ yangTypeToGoType s fuel1 args b1 b2 b3 = yangTypeToGoType s fuel args b1 b2 b3)
      ∧ (∀ (t1 t2 : YangType) (c : Option Entry) (x : Entry),
          t1.Kind = .Yleafref → s.LookupTypedef (some t1) c = .ok none →
          s.resolveLeafrefTarget t1.Path c = .ok x →
          t2.Kind = .Yleafref → x.Typ = some t2 →
          s.LookupTypedef (some t2) (some x) = .ok none →
          s.resolveLeafrefTarget t2.Path (some x) = .ok x →
          ∀ fuel b1 b2 b3,
            (yangTypeToGoType s fuel ⟨some t1, c⟩ b1 b2 b3).1 = .diverges)
      ∧ (∀ fuel b1 b2 b3,
          (yangTypeToGoType exampleStateCyclic fuel ⟨some (exampleLeafref none), none⟩
            b1 b2 b3).1 = .diverges)
      ∧ ¬ finiteLeafrefChains exampleStateCyclic ⟨some (exampleLeafref none), none⟩ := by
  have hfin : ∀ (s0 : goGenState) (a : resolveTypeArgs), finiteLeafrefChains s0 a →
      ∃ fuel, ∀ fuel1, fuel ≤ fuel1 → ∀ b1 b2 b3,
        (yangTypeToGoType s0 fuel1 a b1 b2 b3).1 ≠ .diverges
          ∧ yangTypeToGoType s0 fuel1 a b1 b2 b3 = yangTypeToGoType s0 fuel a b1 b2 b3 := by
    intro s0 a h
    obtain ⟨N, hN⟩ := yangTypeToGoType_ends_of_finite s0 a h
    refine ⟨N, fun M hNM b1 b2 b3 => ?_⟩
    have heq := yangTypeToGoType_fuel_le s0 N M a b1 b2 b3 (hN b1 b2 b3) hNM
    exact ⟨by rw [heq]; exact hN b1 b2 b3, heq⟩
  have hcyc : ∀ fuel b1 b2 b3,
      (yangTypeToGoType exampleStateCyclic fuel ⟨some (exampleLeafref none), none⟩
        b1 b2 b3).1 = .diverges :=
    fun fuel b1 b2 b3 =>
      yangTypeToGoType_cycle_diverges exampleStateCyclic (exampleLeafref none)
        (exampleLeafref none) none exampleLoop b1 b2 b3 rfl rfl rfl rfl rfl rfl rfl fuel
  refine ⟨hfin s args, ?_, hcyc, ?_⟩
  · intro t1 t2 c x hk1 htd1 hr1 hk2 hty htd2 hr2 fuel b1 b2 b3
    exact yangTypeToGoType_cycle_diverges s t1 t2 c x b1 b2 b3 hk1 htd1 hr1 hk2 hty htd2 hr2 fuel
  · intro h
    obtain ⟨N, hN⟩ := hfin exampleStateCyclic _ h
    exact (hN N (Nat.le_refl N) false false false).1 (hcyc N false false false)

/-- Witness of C23: in the example registry the chain of targets from the example
leaf-reference is finite, and its run ends. -/
theorem C23_no_cycle_guard_witness :
    finiteLeafrefChains exampleState ⟨some (exampleLeafref none), some exampleEntryAB⟩
      ∧ ∃ fuel, ∀ fuel1, fuel ≤ fuel1 → ∀ b1 b2 b3,
        (yangTypeToGoType exampleState fuel1
            ⟨some (exampleLeafref none), some exampleEntryAB⟩ b1 b2 b3).1 ≠ .diverges
          ∧ yangTypeToGoType exampleState fuel1
              ⟨some (exampleLeafref none), some exampleEntryAB⟩ b1 b2 b3
            = yangTypeToGoType exampleState fuel
              ⟨some (exampleLeafref none), some exampleEntryAB⟩ b1 b2 b3 :=
  ⟨finiteLeafrefChains_exampleLeafref,
    (C23_no_cycle_guard exampleState
      ⟨some (exampleLeafref none), some exampleEntryAB⟩).1 finiteLeafrefChains_exampleLeafref⟩

/-! ## C24: the enum-naming flags do not influence the engine -/

/-- C24: the enum-naming flags do not influence the engine. For a fixed registry, path index
and formatter (the state `s`), every type, context and value of `compressOCPaths`, the run of
`yangTypeToGoType`, which is its outcome (mapped type, error or abort) and the sequence of the
calls it makes, is the same for all values of `skipEnumDedup` and `shortenEnumLeafNames`. The
flag `compressOCPaths` reaches the run only through the path name that names the synthetic
union: two values of the flag that give the same path names give the same run; and for a type
that is neither a union nor a leaf-reference the run does not depend on the flag at all. -/
theorem C24_flags_do_not_influence (s : goGenState) (fuel : Nat) (args : resolveTypeArgs)
    (b1 : Bool) :
    (∀ b2 b3 c2 c3 : Bool,
        yangTypeToGoType s fuel args b1 b2 b3 = yangTypeToGoType s fuel args b1 c2 c3)
      ∧ (∀ c1 b2 b3 c2 c3 : Bool,
        (∀ e, pathToCamelCaseName s e b1 false = pathToCamelCaseName s e c1 false) →
        yangTypeToGoType s fuel args b1 b2 b3 = yangTypeToGoType s fuel args c1 c2 c3)
      ∧ (∀ (t : YangType) (c1 b2 b3 c2 c3 : Bool), args.yangType = some t →
        t.Kind ≠ .Yunion → t.Kind ≠ .Yleafref →
        yangTypeToGoType s fuel args b1 b2 b3 = yangTypeToGoType s fuel args c1 c2 c3) := by
  refine ⟨?_, ?_, ?_⟩
  · intro b2 b3 c2 c3
    exact yangTypeToGoType_flags s b1 b1 (fun _ => rfl) fuel args b2 b3 c2 c3
  · intro c1 b2 b3 c2 c3 hname
    exact yangTypeToGoType_flags s b1 c1 hname fuel args b2 b3 c2 c3
  · intro t c1 b2 b3 c2 c3 ht hu hl
    rcases args with ⟨y, c⟩
    simp only at ht
    subst ht
    rw [yangTypeToGoType.eq_1 s fuel _ b1 b2 b3, yangTypeToGoType.eq_1 s fuel _ c1 c2 c3]
    cases htd : s.LookupTypedef (some t) c with
    | error err => rfl
    | ok o =>
      cases o with
      | some M => rfl
      | none =>
        simp only [htd]
        cases hk : t.Kind <;> simp only [hk]
        · exact absurd hk hl
        · exact absurd hk hu

/-- Witness of C24: in the example registry the path names are the same with and without path
compression, and the example union in the context `/a/b` is resolved to the same result, with
the same calls, for two different values of all three flags. -/
theorem C24_flags_do_not_influence_witness :
    (∀ e, pathToCamelCaseName exampleState e true false
        = pathToCamelCaseName exampleState e false false)
      ∧ yangTypeToGoType exampleState 0
          ⟨some (exampleUnion [exampleInt8, exampleString]), some exampleEntryAB⟩
          true false false
        = yangTypeToGoType exampleState 0
          ⟨some (exampleUnion [exampleInt8, exampleString]), some exampleEntryAB⟩
          false true true :=
  ⟨exampleState_path_names,
    (C24_flags_do_not_influence exampleState 0
      ⟨some (exampleUnion [exampleInt8, exampleString]), some exampleEntryAB⟩ true).2.1
      false false false true true exampleState_path_names⟩

end Ygen

namespace Datatree

/-! ## Lemmas on the data tree -/

/-- The comparison `proto.Equal` holds when the names are equal and the key maps agree at every
key. -/
theorem protoEqual_iff (a b : PathElem) :
    protoEqual a b = true
      ↔ a.Name = b.Name ∧ ∀ k, Ygen.mapGet a.Key k = Ygen.mapGet b.Key k := by
  simp only [protoEqual, Bool.and_eq_true, beq_iff_eq, List.all_eq_true, List.mem_append]
  constructor
  · rintro ⟨hn, hk⟩
    refine ⟨hn, fun k => ?_⟩
    by_cases h : k ∈ a.Key.map Prod.fst ∨ k ∈ b.Key.map Prod.fst
    · exact hk k h
    · rw [not_or] at h
      rw [(Ygen.mapGet_eq_none_iff a.Key k).2 h.1, (Ygen.mapGet_eq_none_iff b.Key k).2 h.2]
  · rintro ⟨hn, hk⟩
    exact ⟨hn, fun k _ => hk k⟩

/-- The comparison `proto.Equal` is reflexive. -/
theorem protoEqual_refl (a : PathElem) : protoEqual a a = true :=
  (protoEqual_iff a a).2 ⟨rfl, fun _ => rfl⟩

/-- The comparison `proto.Equal` is symmetric. -/
theorem protoEqual_symm (a b : PathElem) : protoEqual a b = protoEqual b a := by
  have h : ∀ x y, protoEqual x y = true → protoEqual y x = true := by
    intro x y hxy
    obtain ⟨hn, hk⟩ := (protoEqual_iff x y).1 hxy
    exact (protoEqual_iff y x).2 ⟨hn.symm, fun k => (hk k).symm⟩
  cases hab : protoEqual a b with
  | true => exact (h a b hab).symm
  | false =>
    cases hba : protoEqual b a with
    | true => rw [h b a hba] at hab; exact absurd hab (by simp)
    | false => rfl

/-- The comparison `proto.Equal` is transitive. -/
theorem protoEqual_trans (a b c : PathElem) (hab : protoEqual a b = true)
    (hbc : protoEqual b c = true) : protoEqual a c = true := by
  obtain ⟨hn1, hk1⟩ := (protoEqual_iff a b).1 hab
  obtain ⟨hn2, hk2⟩ := (protoEqual_iff b c).1 hbc
  exact (protoEqual_iff a c).2 ⟨hn1.trans hn2, fun k => (hk1 k).trans (hk2 k)⟩

/-- The entry that `find` returns is an entry of the node and its key is `proto.Equal` to the
path element. -/
theorem find_some (t : TreeNode) (p k : PathElem) (n : TreeNode)
    (h : t.find p = some (k, n)) : (k, n) ∈ t.entries ∧ protoEqual k p = true := by
  unfold TreeNode.find at h
  exact ⟨List.mem_of_find?_eq_some h, by simpa using List.find?_some h⟩

/-- When `find` returns nothing, no key of the node is `proto.Equal` to the path element. -/
theorem find_none (t : TreeNode) (p : PathElem) (h : t.find p = none) :
    ∀ e ∈ t.entries, protoEqual e.1 p = false := by
  intro e he
  have := List.find?_eq_none.1 h e he
  simpa using this

/-- After entries without a key equal to `p`, `find` returns the entry that follows them when
its key is `proto.Equal` to `p`. -/
theorem find_append (D : List (PathElem × TreeNode)) (p q : PathElem) (c : TreeNode)
    (g : Option Nat) (l : Option String)
    (hD : ∀ e ∈ D, protoEqual e.1 p = false) (hq : protoEqual q p = true) :
    (TreeNode.mk (some (D ++ [(q, c)])) g l).find p = some (q, c) := by
  simp only [TreeNode.find, TreeNode.entries, TreeNode.subtree, Option.getD_some,
    List.find?_append]
  have hnone : D.find? (fun e => protoEqual e.1 p) = none := by
    rw [List.find?_eq_none]
    intro e he
    simp [hD e he]
  rw [hnone]
  simp [List.find?, hq]

/-- A successful `addNode` on a node without structurally equal keys: the entries afterwards
are the former entries whose key is not `proto.Equal` to `p`, in their order, followed by the
entry of `p` and `c`; the struct reference and the scalar value are unchanged. -/
theorem addNode_success (t : TreeNode) (p : PathElem) (c t1 : TreeNode)
    (hu : t.uniqueSiblingKeys) (h : t.addNode p c = (none, t1)) :
    t1 = .mk (some (t.entries.filter (fun e => !protoEqual e.1 p) ++ [(p, c)]))
      t.goStruct t.leaf := by
  unfold TreeNode.addNode at h
  cases hv : validPathElem p with
  | some err => simp [hv] at h
  | none =>
    simp only [hv] at h
    by_cases hc : c.IsValid = true
    · simp only [hc, Bool.not_true, Bool.false_eq_true, if_false] at h
      have hent : (TreeNode.mk (some t.entries) t.goStruct t.leaf).entries = t.entries := rfl
      have hfindeq : (TreeNode.mk (some t.entries) t.goStruct t.leaf).find p = t.find p := rfl
      rw [hfindeq] at h
      cases hf : t.find p with
      | none =>
        simp only [hf, Prod.mk.injEq, true_and] at h
        have hno := find_none t p hf
        have hfilter : t.entries.filter (fun e => !protoEqual e.1 p) = t.entries := by
          rw [List.filter_eq_self]
          intro e he
          simp [hno e he]
        have hnot : p ∉ t.entries.map Prod.fst := by
          intro hp
          obtain ⟨e, he, hep⟩ := List.mem_map.1 hp
          have := hno e he
          rw [hep, protoEqual_refl] at this
          exact absurd this (by simp)
        rw [hent, Ygen.mapSet_of_not_mem _ _ _ hnot] at h
        rw [hfilter, ← h]
        rfl
      | some found =>
        obtain ⟨k, e⟩ := found
        simp only [hf] at h
        by_cases hl : (e.IsLeaf != c.IsLeaf) = true
        · simp [hl] at h
        · simp only [hl, Bool.false_eq_true, if_false, Prod.mk.injEq, true_and] at h
          obtain ⟨hmem, hkp⟩ := find_some t p k e hf
          have hfilter : mapDelete t.entries k
              = t.entries.filter (fun e => !protoEqual e.1 p) := by
            unfold mapDelete
            apply List.filter_congr
            intro x hx
            by_cases hxk : x.1 = k
            · simp [hxk, hkp]
            · have hne : x ≠ (k, e) := fun hxe => hxk (by rw [hxe])
              have hsymm : Symmetric
                  (fun e1 e2 : PathElem × TreeNode => protoEqual e1.1 e2.1 = false) := by
                intro a b hab
                rw [protoEqual_symm]
                exact hab
              have hxk2 : protoEqual x.1 k = false :=
                List.Pairwise.forall hsymm hu hx hmem hne
              have hxp : protoEqual x.1 p = false := by
                cases hxp : protoEqual x.1 p with
                | false => rfl
                | true =>
                  have hpk : protoEqual p k = true := by rw [protoEqual_symm]; exact hkp
                  rw [protoEqual_trans x.1 p k hxp hpk] at hxk2
                  exact absurd hxk2 (by simp)
              simp [hxk, hxp]
          have hnot : p ∉ (mapDelete t.entries k).map Prod.fst := by
            rw [hfilter]
            intro hp
            obtain ⟨x, hx, hxp⟩ := List.mem_map.1 hp
            have := (List.mem_filter.1 hx).2
            rw [hxp, protoEqual_refl] at this
            exact absurd this (by simp)
          rw [hent, Ygen.mapSet_of_not_mem _ _ _ hnot, hfilter] at h
          rw [← h]
          rfl
    · simp [hc] at h

/-- In a tree without structurally equal sibling keys, the root has none. -/
theorem uniqueKeys_siblings (t : TreeNode) (h : uniqueKeys t) : t.uniqueSiblingKeys := by
  cases h with
  | mk subtree goStruct leaf hkeys hsub => exact hkeys

/-- In a tree without structurally equal sibling keys, the children have none either. -/
theorem uniqueKeys_child (t : TreeNode) (h : uniqueKeys t) :
    ∀ e ∈ t.entries, uniqueKeys e.2 := by
  cases h with
  | mk subtree goStruct leaf hkeys hsub => exact hsub

/-- The empty node `&TreeNode{}` has no structurally equal sibling keys. -/
theorem uniqueKeys_empty : uniqueKeys (.mk none none none) :=
  .mk none none none List.Pairwise.nil (fun _ he => absurd he (List.not_mem_nil _))

/-- After the child at the key that `find` returns has become `n1`, `find` returns that key
with `n1`. -/
theorem find_setChild (t : TreeNode) (p k : PathElem) (n n1 : TreeNode)
    (h : t.find p = some (k, n)) : (t.setChild k n1).find p = some (k, n1) := by
  rcases t with ⟨subtree, g, l⟩
  cases subtree with
  | none => simp [TreeNode.find, TreeNode.entries, TreeNode.subtree] at h
  | some es =>
    simp only [TreeNode.find, TreeNode.entries, TreeNode.subtree, Option.getD_some] at h
    simp only [TreeNode.find, TreeNode.entries, TreeNode.subtree, TreeNode.setChild,
      Option.map_some', Option.getD_some, List.find?_map]
    have hcomp : ((fun e : PathElem × TreeNode => protoEqual e.1 p)
        ∘ fun e : PathElem × TreeNode => if e.1 = k then (e.1, n1) else e)
        = fun e => protoEqual e.1 p := by
      funext e
      by_cases hk : e.1 = k <;> simp [hk]
    rw [hcomp, h]
    simp

/-- An entry whose key is not `k` stays when the child at `k` changes. -/
theorem mem_setChild (t : TreeNode) (k : PathElem) (n1 : TreeNode) (e : PathElem × TreeNode)
    (he : e ∈ t.entries) (hk : e.1 ≠ k) : e ∈ (t.setChild k n1).entries := by
  rcases t with ⟨subtree, g, l⟩
  cases subtree with
  | none => simp [TreeNode.entries, TreeNode.subtree] at he
  | some es =>
    simp only [TreeNode.entries, TreeNode.subtree, Option.getD_some] at he
    simp only [TreeNode.entries, TreeNode.subtree, TreeNode.setChild, Option.map_some',
      Option.getD_some, List.mem_map]
    exact ⟨e, he, by simp [hk]⟩

/-- Walking along a path that starts with a key `find` returns continues from the child. -/
theorem walk_cons_some (t : TreeNode) (p k : PathElem) (n : TreeNode) (rest : List PathElem)
    (h : t.find p = some (k, n)) : walk t (p :: rest) = walk n rest := by
  simp only [walk, h]

/-- Walking along a path that starts with a key `find` does not return ends with nothing. -/
theorem walk_cons_none (t : TreeNode) (p : PathElem) (rest : List PathElem)
    (h : t.find p = none) : walk t (p :: rest) = none := by
  simp only [walk, h]

/-- The loop of `addAllNodes`, when it succeeds from a node `cnode` of a tree without
structurally equal sibling keys: walking along the whole path reaches the child, and at every
proper prefix of the path the walk reaches a node that is neither leaf nor struct when the
prefix led to no node before, and that keeps the struct reference, the scalar value and the
entries off the path of the node the prefix led to before. -/
theorem addAllNodesFrom_spec (last : PathElem) (c : TreeNode) :
    ∀ (interim : List PathElem) (cnode : TreeNode) (i : Nat) (t1 : TreeNode),
      uniqueKeys cnode → addAllNodesFrom last c cnode i interim = (none, t1) →
      walk t1 (interim ++ [last]) = some c
        ∧ ∀ j, j ≤ interim.length →
          ∃ n1, walk t1 ((interim ++ [last]).take j) = some n1
            ∧ (walk cnode ((interim ++ [last]).take j) = none →
                n1.IsLeaf = false ∧ n1.IsStruct = false)
            ∧ (∀ n, walk cnode ((interim ++ [last]).take j) = some n →
                n1.goStruct = n.goStruct ∧ n1.leaf = n.leaf
                  ∧ ∀ q, (interim ++ [last])[j]? = some q →
                    ∀ e ∈ n.entries, protoEqual e.1 q = false → e ∈ n1.entries)
  | [], cnode, i, t1, hu, h => by
    simp only [addAllNodesFrom] at h
    have ht1 := addNode_success cnode last c t1 (uniqueKeys_siblings cnode hu) h
    have hfind : t1.find last = some (last, c) := by
      rw [ht1]
      exact find_append _ last last c _ _
        (fun e he => by simpa using (List.mem_filter.1 he).2) (protoEqual_refl last)
    refine ⟨by simp only [List.nil_append, walk, hfind], ?_⟩
    intro j hj
    have hj0 : j = 0 := by simpa using hj
    subst hj0
    refine ⟨t1, rfl, fun hw => by simp [walk] at hw, ?_⟩
    intro n hn
    simp only [List.take_zero, walk, Option.some.injEq] at hn
    subst hn
    refine ⟨by rw [ht1]; rfl, by rw [ht1]; rfl, ?_⟩
    intro q hq e he hne
    simp only [List.nil_append, List.getElem?_cons_zero, Option.some.injEq] at hq
    subst hq
    rw [ht1]
    simp only [TreeNode.entries, TreeNode.subtree, Option.getD_some, List.mem_append,
      List.mem_filter]
    exact Or.inl ⟨he, by simp [hne]⟩
  | p :: rest, cnode, i, t1, hu, h => by
    simp only [addAllNodesFrom] at h
    cases hv : validPathElem p with
    | some err => simp [hv] at h
    | none =>
      simp only [hv] at h
      cases hf : cnode.find p with
      | some found =>
        obtain ⟨k, n⟩ := found
        simp only [hf] at h
        by_cases hl : n.IsLeaf = true
        · simp [hl] at h
        · simp only [hl, Bool.false_eq_true, if_false] at h
          rcases hrec : addAllNodesFrom last c n (i + 1) rest with ⟨err, n1⟩
          rw [hrec] at h
          simp only [Prod.mk.injEq] at h
          obtain ⟨herr, ht1⟩ := h
          subst herr
          obtain ⟨hmem, hkp⟩ := find_some cnode p k n hf
          have hun : uniqueKeys n := uniqueKeys_child cnode hu (k, n) hmem
          obtain ⟨hwalk, hpre⟩ := addAllNodesFrom_spec last c rest n (i + 1) n1 hun hrec
          have hfind1 : t1.find p = some (k, n1) := by
            rw [← ht1]
            exact find_setChild cnode p k n n1 hf
          refine ⟨by rw [List.cons_append, walk_cons_some t1 p k n1 _ hfind1]; exact hwalk, ?_⟩
          intro j hj
          cases j with
          | zero =>
            refine ⟨t1, rfl, fun hw => by simp [walk] at hw, ?_⟩
            intro m hm
            simp only [List.take_zero, walk, Option.some.injEq] at hm
            subst hm
            refine ⟨by rw [← ht1]; rfl, by rw [← ht1]; rfl, ?_⟩
            intro q hq e he hne
            simp only [List.cons_append, List.getElem?_cons_zero, Option.some.injEq] at hq
            subst hq
            rw [← ht1]
            apply mem_setChild cnode k n1 e he
            intro hek
            rw [hek, hkp] at hne
            exact absurd hne (by simp)
          | succ j1 =>
            have hj1 : j1 ≤ rest.length := by simpa using hj
            obtain ⟨m1, hm1, hnew, hold⟩ := hpre j1 hj1
            refine ⟨m1, ?_, ?_, ?_⟩
            · rw [List.cons_append, List.take_succ_cons, walk_cons_some t1 p k n1 _ hfind1]
              exact hm1
            · intro hw
              rw [List.cons_append, List.take_succ_cons, walk_cons_some cnode p k n _ hf] at hw
              exact hnew hw
            · intro m hm
              rw [List.cons_append, List.take_succ_cons, walk_cons_some cnode p k n _ hf] at hm
              obtain ⟨hg, hlf, hent⟩ := hold m hm
              refine ⟨hg, hlf, ?_⟩
              intro q hq
              rw [List.cons_append, List.getElem?_cons_succ] at hq
              exact hent q hq
      | none =>
        simp only [hf] at h
        rcases hadd : cnode.addNode p (.mk none none none) with ⟨aerr, cnode1⟩
        rw [hadd] at h
        cases aerr with
        | some e => simp at h
        | none =>
          simp only at h
          rcases hrec : addAllNodesFrom last c (.mk none none none) (i + 1) rest with ⟨err, nn⟩
          rw [hrec] at h
          simp only [Prod.mk.injEq] at h
          obtain ⟨herr, ht1⟩ := h
          subst herr
          have hc1 := addNode_success cnode p (.mk none none none) cnode1
            (uniqueKeys_siblings cnode hu) hadd
          have hno := find_none cnode p hf
          obtain ⟨hwalk, hpre⟩ :=
            addAllNodesFrom_spec last c rest (.mk none none none) (i + 1) nn uniqueKeys_empty hrec
          have hfindc1 : cnode1.find p = some (p, .mk none none none) := by
            rw [hc1]
            exact find_append _ p p _ _ _
              (fun e he => by simpa using (List.mem_filter.1 he).2) (protoEqual_refl p)
          have hfind1 : t1.find p = some (p, nn) := by
            rw [← ht1]
            exact find_setChild cnode1 p p _ nn hfindc1
          refine ⟨by rw [List.cons_append, walk_cons_some t1 p p nn _ hfind1]; exact hwalk, ?_⟩
          intro j hj
          cases j with
          | zero =>
            refine ⟨t1, rfl, fun hw => by simp [walk] at hw, ?_⟩
            intro m hm
            simp only [List.take_zero, walk, Option.some.injEq] at hm
            subst hm
            refine ⟨by rw [← ht1, hc1]; rfl, by rw [← ht1, hc1]; rfl, ?_⟩
            intro q hq e he hne
            simp only [List.cons_append, List.getElem?_cons_zero, Option.some.injEq] at hq
            subst hq
            rw [← ht1]
            apply mem_setChild cnode1 p nn e
            · rw [hc1]
              simp only [TreeNode.entries, TreeNode.subtree, Option.getD_some, List.mem_append,
                List.mem_filter]
              exact Or.inl ⟨he, by simp [hne]⟩
            · intro hep
              rw [hep, protoEqual_refl] at hne
              exact absurd hne (by simp)
          | succ j1 =>
            have hj1 : j1 ≤ rest.length := by simpa using hj
            obtain ⟨m1, hm1, hnew, hold⟩ := hpre j1 hj1
            refine ⟨m1, ?_, ?_, ?_⟩
            · rw [List.cons_append, List.take_succ_cons, walk_cons_some t1 p p nn _ hfind1]
              exact hm1
            · intro _
              cases hw : walk (.mk none none none) ((rest ++ [last]).take j1) with
              | none => exact hnew hw
              | some m =>
                obtain ⟨hg, hlf, _⟩ := hold m hw
                cases j1 with
                | zero =>
                  simp only [List.take_zero, walk, Option.some.injEq] at hw
                  subst hw
                  simp only [TreeNode.IsLeaf, TreeNode.IsStruct, hg, hlf]
                  exact ⟨rfl, rfl⟩
                | succ j2 =>
                  cases hrl : rest ++ [last] with
                  | nil => simp at hrl
                  | cons q qs =>
                    rw [hrl, List.take_succ_cons] at hw
                    simp [walk, TreeNode.find, TreeNode.entries, TreeNode.subtree] at hw
            · intro m hm
              rw [List.cons_append, List.take_succ_cons, walk_cons_none cnode p _ hf] at hm
              exact absurd hm (by simp)

/-- The example tree has no structurally equal sibling keys. -/
theorem uniqueKeys_exampleTree : uniqueKeys exampleTree := by
  refine .mk _ _ _ (List.pairwise_singleton _ _) ?_
  intro e he
  simp only [Option.getD_some, List.mem_singleton] at he
  subst he
  refine .mk _ _ _ (List.pairwise_singleton _ _) ?_
  intro e he
  simp only [Option.getD_some, List.mem_singleton] at he
  subst he
  exact .mk none none (some "1") List.Pairwise.nil (fun _ h => absurd h (List.not_mem_nil _))

/-! ## C19: `addNode` stores the child at the path element -/

/-- C19: `addNode` stores the child at the path element. For a node `t` in which no two subtree
keys are structurally equal, when `addNode(p, c)` succeeds (which it does only for a valid path
element and a valid child), then afterwards `find(p)` on `t` returns `c`, under the key `p`;
exactly one key of the subtree of `t` is structurally equal to `p`; and the entries whose key is
not structurally equal to `p` are the same as before, in the same order, so an entry with an
equal key has been replaced and not duplicated. -/
theorem C19_addNode_stores_child (t : TreeNode) (p : PathElem) (c t1 : TreeNode)
    (hu : t.uniqueSiblingKeys) (h : t.addNode p c = (none, t1)) :
    validPathElem p = none ∧ c.IsValid = true
      ∧ t1.find p = some (p, c)
      ∧ (t1.entries.filter (fun e => protoEqual e.1 p)).length = 1
      ∧ t1.entries.filter (fun e => !protoEqual e.1 p)
          = t.entries.filter (fun e => !protoEqual e.1 p) := by
  have ht1 := addNode_success t p c t1 hu h
  have hD : ∀ e ∈ t.entries.filter (fun e => !protoEqual e.1 p), protoEqual e.1 p = false :=
    fun e he => by simpa using (List.mem_filter.1 he).2
  have hvalid : validPathElem p = none ∧ c.IsValid = true := by
    unfold TreeNode.addNode at h
    cases hv : validPathElem p with
    | some err => simp [hv] at h
    | none =>
      cases hc : c.IsValid with
      | false => simp [hv, hc] at h
      | true => exact ⟨rfl, rfl⟩
  refine ⟨hvalid.1, hvalid.2, ?_, ?_, ?_⟩
  · rw [ht1]
    exact find_append _ p p c _ _ hD (protoEqual_refl p)
  · rw [ht1]
    simp only [TreeNode.entries, TreeNode.subtree, Option.getD_some, List.filter_append,
      List.filter_filter]
    simp [protoEqual_refl]
  · rw [ht1]
    simp only [TreeNode.entries, TreeNode.subtree, Option.getD_some, List.filter_append,
      List.filter_filter]
    simp [protoEqual_refl]

/-- Witness of C19: adding the leaf `"2"` at another element `b` to the node that holds the
leaf `"1"` at `b` replaces the entry. -/
theorem C19_addNode_stores_child_witness :
    exampleNodeB.uniqueSiblingKeys
      ∧ exampleNodeB.addNode examplePathB2 exampleLeaf2 = (none, exampleNodeB2)
      ∧ exampleNodeB2.find examplePathB2 = some (examplePathB2, exampleLeaf2)
      ∧ (exampleNodeB2.entries.filter (fun e => protoEqual e.1 examplePathB2)).length = 1 :=
  ⟨List.pairwise_singleton _ _, rfl,
    (C19_addNode_stores_child exampleNodeB examplePathB2 exampleLeaf2 exampleNodeB2
      (List.pairwise_singleton _ _) rfl).2.2.1,
    (C19_addNode_stores_child exampleNodeB examplePathB2 exampleLeaf2 exampleNodeB2
      (List.pairwise_singleton _ _) rfl).2.2.2.1⟩

/-! ## C20: `addAllNodes` adds the child at the full path -/

/-- C20: `addAllNodes` adds the child at the full path, creating interim nodes. For a tree `t`
whose nodes have no structurally equal sibling keys, when `addAllNodes(pp, c)` succeeds (which
it does only for a valid child and a path of length at least 2), walking from `t` by `find`
along `pp` reaches `c`; at every proper prefix of `pp` the walk reaches a node which, when the
prefix led to no node before, is neither leaf nor struct, and which, when the prefix led to a
node before, has the struct reference, the scalar value and the entries off the path of that
node; and for every path of length less than 2, `addAllNodes` returns an error and leaves the
tree as it was. -/
theorem C20_addAllNodes_adds_at_path (t : TreeNode) (pp : List PathElem) (c t1 : TreeNode)
    (hu : uniqueKeys t) (h : t.addAllNodes pp (some c) = (none, t1)) :
    2 ≤ pp.length ∧ c.IsValid = true
      ∧ walk t1 pp = some c
      ∧ (∀ j, j < pp.length →
          ∃ n1, walk t1 (pp.take j) = some n1
            ∧ (walk t (pp.take j) = none → n1.IsLeaf = false ∧ n1.IsStruct = false)
            ∧ (∀ n, walk t (pp.take j) = some n →
                n1.goStruct = n.goStruct ∧ n1.leaf = n.leaf
                  ∧ ∀ q, pp[j]? = some q →
                    ∀ e ∈ n.entries, protoEqual e.1 q = false → e ∈ n1.entries))
      ∧ (∀ (t0 : TreeNode) (pp0 : List PathElem) (c0 : Option TreeNode), pp0.length < 2 →
          ∃ err, t0.addAllNodes pp0 c0 = (some err, t0)) := by
  have hshort : ∀ (t0 : TreeNode) (pp0 : List PathElem) (c0 : Option TreeNode),
      pp0.length < 2 → ∃ err, t0.addAllNodes pp0 c0 = (some err, t0) := by
    intro t0 pp0 c0 hlen
    unfold TreeNode.addAllNodes
    cases c0 with
    | none => exact ⟨_, rfl⟩
    | some c0 =>
      cases hc0 : c0.IsValid with
      | false => exact ⟨.invalidChildAtPath pp0, by simp [hc0]⟩
      | true => exact ⟨.invalidLengthPath pp0.length pp0, by simp [hc0, hlen]⟩
  unfold TreeNode.addAllNodes at h
  simp only at h
  cases hc : c.IsValid with
  | false => simp [hc] at h
  | true =>
    simp only [hc, Bool.not_true, Bool.false_eq_true, if_false] at h
    by_cases hlen : pp.length < 2
    · simp [hlen] at h
    · simp only [hlen, if_false] at h
      cases hlast : pp.getLast? with
      | none => simp [hlast] at h
      | some last =>
        simp only [hlast] at h
        have hpp : pp.dropLast ++ [last] = pp :=
          List.dropLast_append_getLast? last (by simp [hlast])
        obtain ⟨hwalk, hpre⟩ := addAllNodesFrom_spec last c pp.dropLast t 0 t1 hu h
        rw [hpp] at hwalk hpre
        refine ⟨by omega, rfl, hwalk, ?_, hshort⟩
        intro j hj
        apply hpre j
        simp only [List.length_dropLast]
        omega

/-- Witness of C20: adding the leaf `"2"` at the path `/a/b` of the example tree reuses the node
at `a` and puts the leaf at `b`. -/
theorem C20_addAllNodes_adds_at_path_witness :
    uniqueKeys exampleTree
      ∧ exampleTree.addAllNodes [examplePathA, examplePathB2] (some exampleLeaf2)
          = (none, exampleTree2)
      ∧ walk exampleTree2 [examplePathA, examplePathB2] = some exampleLeaf2 :=
  ⟨uniqueKeys_exampleTree, rfl,
    (C20_addAllNodes_adds_at_path exampleTree [examplePathA, examplePathB2] exampleLeaf2
      exampleTree2 uniqueKeys_exampleTree rfl).2.2.1⟩

/-! ## Lemmas on the errors of `addNode` and on sibling keys -/

/-- An error of `addNode` leaves the node as it was. -/
theorem addNode_error (t : TreeNode) (p : PathElem) (c t1 : TreeNode) (err : TreeError)
    (h : t.addNode p c = (some err, t1)) : t1 = t := by
  unfold TreeNode.addNode at h
  cases hv : validPathElem p with
  | some e =>
    simp only [hv, Prod.mk.injEq] at h
    exact h.2.symm
  | none =>
    simp only [hv] at h
    by_cases hc : c.IsValid = true
    · simp only [hc, Bool.not_true, Bool.false_eq_true, if_false] at h
      have hfindeq : (TreeNode.mk (some t.entries) t.goStruct t.leaf).find p = t.find p := rfl
      rw [hfindeq] at h
      cases hf : t.find p with
      | none => simp [hf] at h
      | some found =>
        obtain ⟨k, e⟩ := found
        simp only [hf] at h
        by_cases hl : (e.IsLeaf != c.IsLeaf) = true
        · simp only [hl, if_true, Prod.mk.injEq] at h
          rw [← h.2]
          rcases t with ⟨subtree, g, l⟩
          cases subtree with
          | none => simp [TreeNode.find, TreeNode.entries, TreeNode.subtree] at hf
          | some es => rfl
        · simp [hl] at h
    · simp only [hc, Bool.not_false, if_true, Prod.mk.injEq] at h
      exact h.2.symm

/-- The path element is not valid when its name is empty or one of its keys has an empty
name. -/
theorem validPathElem_isSome (p : PathElem) :
    (validPathElem p).isSome = true ↔ p.Name = "" ∨ "" ∈ p.Key.map Prod.fst := by
  unfold validPathElem
  by_cases hn : p.Name = ""
  · simp [hn]
  · simp only [hn, if_false, false_or]
    cases hg : Ygen.mapGet p.Key "" with
    | none =>
      have := (Ygen.mapGet_eq_none_iff p.Key "").1 hg
      simp [this]
    | some v =>
      have hne : Ygen.mapGet p.Key "" ≠ none := by rw [hg]; simp
      have := (not_congr (Ygen.mapGet_eq_none_iff p.Key "")).1 hne
      simp only [not_not] at this
      simp [this]

/-- In a node without structurally equal keys, `find` returns the entry whose key is
structurally equal to the path element. -/
theorem find_unique (t : TreeNode) (q : PathElem) (e : PathElem × TreeNode)
    (hu : t.uniqueSiblingKeys) (he : e ∈ t.entries) (hq : protoEqual e.1 q = true) :
    t.find q = some e := by
  cases hf : t.find q with
  | none =>
    have := find_none t q hf e he
    rw [hq] at this
    exact absurd this (by simp)
  | some x =>
    obtain ⟨hx, hxq⟩ := find_some t q x.1 x.2 hf
    by_cases hxe : x = e
    · rw [hxe]
    · have hsymm : Symmetric
          (fun e1 e2 : PathElem × TreeNode => protoEqual e1.1 e2.1 = false) := by
        intro a b hab
        rw [protoEqual_symm]
        exact hab
      have hfalse : protoEqual x.1 e.1 = false := List.Pairwise.forall hsymm hu hx he hxe
      have hqe : protoEqual q e.1 = true := by rw [protoEqual_symm]; exact hq
      rw [protoEqual_trans x.1 q e.1 hxq hqe] at hfalse
      exact absurd hfalse (by simp)

/-- The node after `addNode`, an error apart, when `addNode` is given a node without
structurally equal keys: an error leaves the node, a success leaves the entries off `p` and
adds the entry of `p`. -/
theorem addNode_cases (t : TreeNode) (p : PathElem) (c : TreeNode)
    (hu : t.uniqueSiblingKeys) :
    (t.addNode p c).2 = t
      ∨ (t.addNode p c).2
        = .mk (some (t.entries.filter (fun e => !protoEqual e.1 p) ++ [(p, c)]))
            t.goStruct t.leaf := by
  rcases h : t.addNode p c with ⟨err, t1⟩
  cases err with
  | some e => exact Or.inl (addNode_error t p c t1 e h)
  | none => exact Or.inr (addNode_success t p c t1 hu h)

/-- The keys of the entries off `p`, followed by `p`, are not structurally equal to each other
when the keys of the entries are not. -/
theorem pairwise_filter_append (es : List (PathElem × TreeNode)) (p : PathElem) (c : TreeNode)
    (hu : es.Pairwise (fun e1 e2 => protoEqual e1.1 e2.1 = false)) :
    (es.filter (fun e => !protoEqual e.1 p) ++ [(p, c)]).Pairwise
      (fun e1 e2 => protoEqual e1.1 e2.1 = false) := by
  rw [List.pairwise_append]
  refine ⟨hu.sublist (List.filter_sublist _), List.pairwise_singleton _ _, ?_⟩
  intro a ha b hb
  simp only [List.mem_singleton] at hb
  subst hb
  simpa using (List.mem_filter.1 ha).2

/-- Sibling-key uniqueness is kept by `addNode`. -/
theorem addNode_uniqueSiblingKeys (t : TreeNode) (p : PathElem) (c : TreeNode)
    (hu : t.uniqueSiblingKeys) : (t.addNode p c).2.uniqueSiblingKeys := by
  rcases addNode_cases t p c hu with h | h
  · rw [h]
    exact hu
  · rw [h]
    exact pairwise_filter_append t.entries p c hu

/-- A tree without structurally equal sibling keys stays one after `addNode` of such a
tree. -/
theorem addNode_uniqueKeys (t : TreeNode) (p : PathElem) (c : TreeNode)
    (hu : uniqueKeys t) (hc : uniqueKeys c) : uniqueKeys (t.addNode p c).2 := by
  rcases addNode_cases t p c (uniqueKeys_siblings t hu) with h | h
  · rw [h]
    exact hu
  · rw [h]
    refine .mk _ _ _ (pairwise_filter_append t.entries p c (uniqueKeys_siblings t hu)) ?_
    intro e he
    simp only [Option.getD_some, List.mem_append, List.mem_singleton] at he
    rcases he with he | he
    · exact uniqueKeys_child t hu e (List.mem_filter.1 he).1
    · rw [he]
      exact hc

/-- A tree without structurally equal sibling keys stays one when a child becomes such a
tree. -/
theorem setChild_uniqueKeys (t : TreeNode) (k : PathElem) (n : TreeNode)
    (hu : uniqueKeys t) (hn : uniqueKeys n) : uniqueKeys (t.setChild k n) := by
  rcases t with ⟨subtree, g, l⟩
  cases subtree with
  | none => exact hu
  | some es =>
    have hkeys := uniqueKeys_siblings _ hu
    have hchild := uniqueKeys_child _ hu
    simp only [TreeNode.uniqueSiblingKeys, TreeNode.entries, TreeNode.subtree,
      Option.getD_some] at hkeys hchild
    have hs : (TreeNode.mk (some es) g l).setChild k n
        = .mk (some (es.map (fun e => if e.1 = k then (e.1, n) else e))) g l := rfl
    rw [hs]
    refine .mk _ _ _ ?_ ?_
    · simp only [Option.getD_some, List.pairwise_map]
      refine hkeys.imp ?_
      intro a b hab
      have hfst : ∀ x : PathElem × TreeNode, (if x.1 = k then (x.1, n) else x).1 = x.1 := by
        intro x
        by_cases hx : x.1 = k <;> simp [hx]
      rw [hfst a, hfst b]
      exact hab
    · intro e he
      simp only [Option.getD_some, List.mem_map] at he
      obtain ⟨x, hx, rfl⟩ := he
      by_cases hxk : x.1 = k
      · simp only [hxk, if_true]
        exact hn
      · simp only [hxk, if_false]
        exact hchild x hx

/-- A tree without structurally equal sibling keys stays one after the loop of `addAllNodes`,
with a success or with an error. -/
theorem addAllNodesFrom_uniqueKeys (last : PathElem) (c : TreeNode) (hc : uniqueKeys c) :
    ∀ (interim : List PathElem) (cnode : TreeNode) (i : Nat), uniqueKeys cnode →
      uniqueKeys (addAllNodesFrom last c cnode i interim).2
  | [], cnode, i, hu => by
    simp only [addAllNodesFrom]
    exact addNode_uniqueKeys cnode last c hu hc
  | p :: rest, cnode, i, hu => by
    simp only [addAllNodesFrom]
    cases hv : validPathElem p with
    | some err => exact hu
    | none =>
      simp only
      cases hf : cnode.find p with
      | some found =>
        obtain ⟨k, n⟩ := found
        simp only
        by_cases hl : n.IsLeaf = true
        · simp only [hl, if_true]
          exact hu
        · simp only [hl, Bool.false_eq_true, if_false]
          have hun : uniqueKeys n := uniqueKeys_child cnode hu (k, n) (find_some cnode p k n hf).1
          exact setChild_uniqueKeys cnode k _ hu
            (addAllNodesFrom_uniqueKeys last c hc rest n (i + 1) hun)
      | none =>
        simp only
        have h1 := addNode_uniqueKeys cnode p (.mk none none none) hu uniqueKeys_empty
        rcases hadd : cnode.addNode p (.mk none none none) with ⟨aerr, cnode1⟩
        rw [hadd] at h1
        cases aerr with
        | some e => exact h1
        | none =>
          simp only
          exact setChild_uniqueKeys cnode1 p _ h1
            (addAllNodesFrom_uniqueKeys last c hc rest _ (i + 1) uniqueKeys_empty)

/-- A tree without structurally equal sibling keys stays one after `addAllNodes` of such a
tree, with a success or with an error. -/
theorem addAllNodes_uniqueKeys (t : TreeNode) (pp : List PathElem) (c : TreeNode)
    (hu : uniqueKeys t) (hc : uniqueKeys c) : uniqueKeys (t.addAllNodes pp (some c)).2 := by
  unfold TreeNode.addAllNodes
  simp only
  by_cases hv : c.IsValid = true
  · simp only [hv, Bool.not_true, Bool.false_eq_true, if_false]
    by_cases hlen : pp.length < 2
    · simp only [hlen, if_true]
      exact hu
    · simp only [hlen, if_false]
      cases hlast : pp.getLast? with
      | none => exact hu
      | some last => exact addAllNodesFrom_uniqueKeys last c hc pp.dropLast t 0 hu
  · simp only [hv, Bool.not_false, if_true]
    exact hu

/-- A tree built by `addNode` and `addAllNodes` alone has no structurally equal sibling
keys. -/
theorem uniqueKeys_of_builtByAdd (t : TreeNode) (h : builtByAdd t) : uniqueKeys t := by
  induction h with
  | base g l => exact .mk none g l List.Pairwise.nil (fun _ he => absurd he (List.not_mem_nil _))
  | addNode t p c _ _ iht ihc => exact addNode_uniqueKeys t p c iht ihc
  | addAllNodes t pp c _ _ iht ihc => exact addAllNodes_uniqueKeys t pp c iht ihc

/-- The error of `addNode`, in the order in which it is decided. -/
theorem addNode_fst (t : TreeNode) (p : PathElem) (c : TreeNode) :
    (t.addNode p c).1
      = match validPathElem p with
        | some err => some (.invalidPathElement err)
        | none =>
          if !c.IsValid then some (.invalidChild p)
          else
            match t.find p with
            | some (_, e) =>
              if e.IsLeaf != c.IsLeaf then some (.mismatchedTypes c.IsLeaf e.IsLeaf) else none
            | none => none := by
  unfold TreeNode.addNode
  have hfindeq : (TreeNode.mk (some t.entries) t.goStruct t.leaf).find p = t.find p := rfl
  cases hv : validPathElem p with
  | some err => rfl
  | none =>
    simp only
    by_cases hc : c.IsValid = true
    · simp only [hc, Bool.not_true, Bool.false_eq_true, if_false]
      rw [hfindeq]
      cases hf : t.find p with
      | none => rfl
      | some found =>
        obtain ⟨k, e⟩ := found
        simp only
        by_cases hl : (e.IsLeaf != c.IsLeaf) = true
        · simp only [hl, if_true]
        · simp only [hl, Bool.false_eq_true, if_false]
    · simp only [hc, Bool.not_false, if_true]

/-- An error of `addNode` has one of the causes. -/
theorem addNode_error_cause (t : TreeNode) (p : PathElem) (c : TreeNode)
    (h : (t.addNode p c).1.isSome = true) : addNodeErrorCause t p c := by
  rw [addNode_fst] at h
  cases hv : validPathElem p with
  | some err =>
    have hs : (validPathElem p).isSome = true := by rw [hv]; rfl
    rcases (validPathElem_isSome p).1 hs with h1 | h1
    · exact Or.inl h1
    · exact Or.inr (Or.inl h1)
  | none =>
    simp only [hv] at h
    by_cases hc : c.IsValid = true
    · simp only [hc, Bool.not_true, Bool.false_eq_true, if_false] at h
      cases hf : t.find p with
      | none => simp [hf] at h
      | some found =>
        obtain ⟨k, e⟩ := found
        simp only [hf] at h
        by_cases hl : (e.IsLeaf != c.IsLeaf) = true
        · obtain ⟨hmem, hkp⟩ := find_some t p k e hf
          exact Or.inr (Or.inr (Or.inr ⟨(k, e), hmem, hkp, by simpa using hl⟩))
        · simp [hl] at h
    · exact Or.inr (Or.inr (Or.inl (by simpa using hc)))

/-- On a node without structurally equal keys, each of the causes gives an error of
`addNode`. -/
theorem addNode_error_of_cause (t : TreeNode) (p : PathElem) (c : TreeNode)
    (hu : t.uniqueSiblingKeys) (h : addNodeErrorCause t p c) :
    (t.addNode p c).1.isSome = true := by
  rw [addNode_fst]
  cases hv : validPathElem p with
  | some err => rfl
  | none =>
    simp only
    have hnv : ¬ (p.Name = "" ∨ "" ∈ p.Key.map Prod.fst) := by
      intro hp
      have := (validPathElem_isSome p).2 hp
      rw [hv] at this
      exact absurd this (by simp)
    by_cases hc : c.IsValid = true
    · simp only [hc, Bool.not_true, Bool.false_eq_true, if_false]
      rcases h with h | h | h | ⟨e, he, hep, hl⟩
      · exact absurd (Or.inl h) hnv
      · exact absurd (Or.inr h) hnv
      · rw [hc] at h
        exact absurd h (by simp)
      · rw [find_unique t p e hu he hep]
        have hl2 : (e.2.IsLeaf != c.IsLeaf) = true := by simpa using hl
        simp only [hl2, if_true]
        rfl
    · simp only [hc, Bool.not_false, if_true]
      rfl

/-- On an entry list without structurally equal keys, at most one key is structurally equal to
a path element. -/
theorem filter_length_le_one (q : PathElem) :
    ∀ (es : List (PathElem × TreeNode)),
      es.Pairwise (fun e1 e2 => protoEqual e1.1 e2.1 = false) →
      (es.filter (fun e => protoEqual e.1 q)).length ≤ 1
  | [], _ => by simp
  | a :: rest, h => by
    rw [List.pairwise_cons] at h
    have ih := filter_length_le_one q rest h.2
    by_cases ha : protoEqual a.1 q = true
    · have hnone : rest.filter (fun e => protoEqual e.1 q) = [] := by
        rw [List.filter_eq_nil_iff]
        intro b hb hbq
        have hqb : protoEqual q b.1 = true := by rw [protoEqual_symm]; exact hbq
        have := h.1 b hb
        rw [protoEqual_trans a.1 q b.1 ha hqb] at this
        exact absurd this (by simp)
      simp [List.filter_cons, ha, hnone]
    · simp only [List.filter_cons, ha, Bool.false_eq_true, if_false]
      exact ih

/-- In a tree without structurally equal sibling keys, the nodes the walk reaches are such
trees. -/
theorem walk_uniqueKeys : ∀ (pp : List PathElem) (t n : TreeNode),
    uniqueKeys t → walk t pp = some n → uniqueKeys n
  | [], t, n, hu, h => by
    simp only [walk, Option.some.injEq] at h
    rw [← h]
    exact hu
  | p :: rest, t, n, hu, h => by
    cases hf : t.find p with
    | none => simp [walk, hf] at h
    | some found =>
      obtain ⟨k, m⟩ := found
      rw [walk_cons_some t p k m rest hf] at h
      exact walk_uniqueKeys rest m n (uniqueKeys_child t hu (k, m) (find_some t p k m hf).1) h

/-! ## Lemmas on `Equal` -/

/-- The node of an entry is smaller than the node that holds the entry. -/
theorem sizeOf_child_lt (t : TreeNode) (e : PathElem × TreeNode) (he : e ∈ t.entries) :
    sizeOf e.2 < sizeOf t := by
  rcases t with ⟨subtree, g, l⟩
  cases subtree with
  | none => simp [TreeNode.entries, TreeNode.subtree] at he
  | some es =>
    simp only [TreeNode.entries, TreeNode.subtree, Option.getD_some] at he
    have h1 := List.sizeOf_lt_of_mem he
    have h2 : sizeOf e.2 < sizeOf e := by
      rcases e with ⟨k, n⟩
      simp only [Prod.mk.sizeOf_spec]
      omega
    simp only [TreeNode.mk.sizeOf_spec, Option.some.sizeOf_spec]
    omega

/-- The loop of `Equal` succeeds when every entry of the list has an entry in `c` that `find`
returns, with an equal node. -/
theorem equalRange_iff (c : TreeNode) : ∀ (es : List (PathElem × TreeNode)),
    equalRange es c = true
      ↔ ∀ e ∈ es, ∃ x, c.find e.1 = some x ∧ e.2.Equal (some x.2) = true
  | [] => by
    rw [equalRange]
    simp
  | (p, s) :: rest => by
    rw [equalRange]
    have ih := equalRange_iff c rest
    cases hf : c.find p with
    | none =>
      simp only [Bool.false_eq_true, false_iff]
      intro h
      obtain ⟨x, hx, _⟩ := h (p, s) (List.mem_cons_self _ _)
      simp only at hx
      rw [hf] at hx
      exact absurd hx (by simp)
    | some found =>
      obtain ⟨k, n⟩ := found
      simp only
      cases hs : s.Equal (some n) with
      | false =>
        simp only [Bool.not_false, if_true, Bool.false_eq_true, false_iff]
        intro h
        obtain ⟨x, hx, hxe⟩ := h (p, s) (List.mem_cons_self _ _)
        simp only at hx hxe
        rw [hf] at hx
        have hxk : (k, n) = x := by injection hx
        rw [← hxk] at hxe
        simp only at hxe
        rw [hs] at hxe
        exact absurd hxe (by simp)
      | true =>
        simp only [Bool.not_true, Bool.false_eq_true, if_false]
        rw [ih]
        constructor
        · intro h e he
          rcases List.mem_cons.1 he with rfl | he
          · exact ⟨(k, n), hf, hs⟩
          · exact h e he
        · intro h e he
          exact h e (List.mem_cons_of_mem _ he)

/-- The function `Equal` on two nodes: the two subtree maps are both nil or both not, they have
the same number of entries, the loop succeeds, and the scalar values and the struct references
are equal. -/
theorem Equal_iff (t c : TreeNode) :
    t.Equal (some c) = true
      ↔ t.subtree.isSome = c.subtree.isSome ∧ t.entries.length = c.entries.length
        ∧ equalRange t.entries c = true ∧ t.leaf = c.leaf ∧ t.goStruct = c.goStruct := by
  rcases t with ⟨st, gt, lt⟩
  rcases c with ⟨sc, gc, lc⟩
  rw [TreeNode.Equal]
  simp only [TreeNode.subtree, TreeNode.entries, TreeNode.leaf, TreeNode.goStruct]
  cases st with
  | none =>
    cases sc with
    | none =>
      simp only [Option.isNone_none, bne_self_eq_false, Bool.false_eq_true, if_false,
        Option.isSome_none, Bool.false_and, Option.getD_none, List.length_nil, true_and]
      by_cases h1 : equalRange [] (TreeNode.mk none gc lc) = true
      · by_cases h2 : lt = lc <;> by_cases h3 : gt = gc <;> simp [h1, h2, h3]
      · simp [h1]
    | some cs => simp
  | some ts =>
    cases sc with
    | none => simp
    | some cs =>
      simp only [Option.isNone_some, bne_self_eq_false, Bool.false_eq_true, if_false,
        Option.isSome_some, Bool.true_and, Option.getD_some, true_and]
      by_cases h0 : ts.length = cs.length
      · by_cases h1 : equalRange ts (TreeNode.mk (some cs) gc lc) = true
        · by_cases h2 : lt = lc <;> by_cases h3 : gt = gc <;> simp [h0, h1, h2, h3]
        · simp [h0, h1]
      · simp [h0]

/-- The function `Equal` holds of a tree without structurally equal sibling keys and
itself. -/
theorem Equal_refl_of_size : ∀ (n : Nat) (t : TreeNode), sizeOf t ≤ n → uniqueKeys t →
    t.Equal (some t) = true
  | 0, t, hn, _ => by
    rcases t with ⟨st, g, l⟩
    simp only [TreeNode.mk.sizeOf_spec] at hn
    omega
  | n + 1, t, hn, hu => by
    rw [Equal_iff]
    refine ⟨rfl, rfl, ?_, rfl, rfl⟩
    rw [equalRange_iff]
    intro e he
    have hlt := sizeOf_child_lt t e he
    exact ⟨e, find_unique t e.1 e (uniqueKeys_siblings t hu) he (protoEqual_refl e.1),
      Equal_refl_of_size n e.2 (by omega) (uniqueKeys_child t hu e he)⟩

/-- On trees without structurally equal sibling keys, when `Equal` holds of `t` and `c` it
holds of `c` and `t`. -/
theorem Equal_symm_of_size : ∀ (n : Nat) (t c : TreeNode), sizeOf t ≤ n →
    uniqueKeys t → uniqueKeys c → t.Equal (some c) = true → c.Equal (some t) = true
  | 0, t, c, hn, _, _, _ => by
    rcases t with ⟨st, g, l⟩
    simp only [TreeNode.mk.sizeOf_spec] at hn
    omega
  | n + 1, t, c, hn, hut, huc, h => by
    obtain ⟨hs, hlen, hrange, hleaf, hg⟩ := (Equal_iff t c).1 h
    rw [Equal_iff]
    refine ⟨hs.symm, hlen.symm, ?_, hleaf.symm, hg.symm⟩
    rw [equalRange_iff] at hrange ⊢
    have hsymm : Symmetric
        (fun e1 e2 : PathElem × TreeNode => protoEqual e1.1 e2.1 = false) := by
      intro a b hab
      rw [protoEqual_symm]
      exact hab
    have hf : ∀ e ∈ t.entries, (c.find e.1).getD e ∈ c.entries
        ∧ protoEqual ((c.find e.1).getD e).1 e.1 = true
        ∧ e.2.Equal (some ((c.find e.1).getD e).2) = true := by
      intro e he
      obtain ⟨x, hx, hxe⟩ := hrange e he
      rw [hx, Option.getD_some]
      obtain ⟨hmem, hkp⟩ := find_some c e.1 x.1 x.2 hx
      exact ⟨hmem, hkp, hxe⟩
    have hinj : ∀ e1 ∈ t.entries, ∀ e2 ∈ t.entries,
        (c.find e1.1).getD e1 = (c.find e2.1).getD e2 → e1 = e2 := by
      intro e1 h1 e2 h2 heq
      by_contra hne
      have hfalse : protoEqual e1.1 e2.1 = false :=
        List.Pairwise.forall hsymm (uniqueKeys_siblings t hut) h1 h2 hne
      have ha : protoEqual e1.1 ((c.find e1.1).getD e1).1 = true := by
        rw [protoEqual_symm]
        exact (hf e1 h1).2.1
      have hb : protoEqual ((c.find e1.1).getD e1).1 e2.1 = true := by
        rw [heq]
        exact (hf e2 h2).2.1
      rw [protoEqual_trans _ _ _ ha hb] at hfalse
      exact absurd hfalse (by simp)
    have hnodupT : t.entries.Nodup := by
      refine (uniqueKeys_siblings t hut).imp ?_
      intro a b hab hEq
      rw [hEq, protoEqual_refl] at hab
      exact absurd hab (by simp)
    have hnodup : (t.entries.map (fun e => (c.find e.1).getD e)).Nodup :=
      List.Nodup.map_on hinj hnodupT
    have hsub : t.entries.map (fun e => (c.find e.1).getD e) ⊆ c.entries := by
      intro x hx
      obtain ⟨e, he, rfl⟩ := List.mem_map.1 hx
      exact (hf e he).1
    have hperm : (t.entries.map (fun e => (c.find e.1).getD e)).Perm c.entries :=
      (List.subperm_of_subset hnodup hsub).perm_of_length_le (by simp [hlen])
    intro e1 he1
    obtain ⟨e, he, hfe⟩ := List.mem_map.1 ((hperm.mem_iff).2 he1)
    have hk : protoEqual e.1 e1.1 = true := by
      rw [protoEqual_symm, ← hfe]
      exact (hf e he).2.1
    have hlt := sizeOf_child_lt t e he
    refine ⟨e, find_unique t e1.1 e (uniqueKeys_siblings t hut) he hk, ?_⟩
    have hEq : e.2.Equal (some e1.2) = true := by
      rw [← hfe]
      exact (hf e he).2.2
    exact Equal_symm_of_size n e.2 e1.2 (by omega) (uniqueKeys_child t hut e he)
      (uniqueKeys_child c huc e1 he1) hEq

/-- On trees without structurally equal sibling keys, `Equal` is symmetric. -/
theorem Equal_symm (t c : TreeNode) (hut : uniqueKeys t) (huc : uniqueKeys c) :
    t.Equal (some c) = c.Equal (some t) := by
  cases h1 : t.Equal (some c) with
  | true => exact (Equal_symm_of_size (sizeOf t) t c (Nat.le_refl _) hut huc h1).symm
  | false =>
    cases h2 : c.Equal (some t) with
    | false => rfl
    | true =>
      rw [Equal_symm_of_size (sizeOf c) c t (Nat.le_refl _) huc hut h2] at h1
      exact absurd h1 (by simp)

/-- The copy of the example tree has no structurally equal sibling keys. -/
theorem uniqueKeys_exampleTreeCopy : uniqueKeys exampleTreeCopy := by
  refine .mk _ _ _ (List.pairwise_singleton _ _) ?_
  intro e he
  simp only [Option.getD_some, List.mem_singleton] at he
  subst he
  refine .mk _ _ _ (List.pairwise_singleton _ _) ?_
  intro e he
  simp only [Option.getD_some, List.mem_singleton] at he
  subst he
  exact .mk none none (some "1") List.Pairwise.nil (fun _ h => absurd h (List.not_mem_nil _))

/-- The example tree is equal to its copy under other pointers. -/
theorem Equal_exampleTree_copy : exampleTree.Equal (some exampleTreeCopy) = true := by
  have hleaf : exampleLeaf.Equal (some exampleLeaf) = true := by
    rw [Equal_iff]
    refine ⟨rfl, rfl, ?_, rfl, rfl⟩
    rw [equalRange_iff]
    intro e he
    exact absurd he (List.not_mem_nil e)
  have hnode : exampleNodeB.Equal
      (some (.mk (some [(examplePathB2, exampleLeaf)]) none none)) = true := by
    rw [Equal_iff]
    refine ⟨rfl, rfl, ?_, rfl, rfl⟩
    rw [equalRange_iff]
    intro e he
    have he1 : e = (examplePathB, exampleLeaf) := by
      simpa [exampleNodeB, TreeNode.entries, TreeNode.subtree] using he
    subst he1
    exact ⟨(examplePathB2, exampleLeaf), rfl, hleaf⟩
  rw [Equal_iff]
  refine ⟨rfl, rfl, ?_, rfl, rfl⟩
  rw [equalRange_iff]
  intro e he
  have he1 : e = (examplePathA, exampleNodeB) := by
    simpa [exampleTree, TreeNode.entries, TreeNode.subtree] using he
  subst he1
  exact ⟨(examplePathA2, .mk (some [(examplePathB2, exampleLeaf)]) none none), rfl, hnode⟩

/-! ## C21: `addNode` fails exactly on invalid input and is atomic -/

/-- C21, as stated, fails on a node with two structurally equal keys. The node holds a leaf and
the empty node under two keys `b`. When `find` meets the leaf first, adding a leaf at `b` gives
no error although the node holds an entry at `b` that is not a leaf; when `find` meets the empty
node first, adding the empty node at `b` gives no error although the node holds a leaf at
`b`. -/
theorem C21_addNode_error_iff_counterexample :
    ¬ ((exampleNodeDup.addNode examplePathB3 exampleLeaf2).1.isSome = true
        ↔ addNodeErrorCause exampleNodeDup examplePathB3 exampleLeaf2)
      ∧ ¬ ((exampleNodeDup2.addNode examplePathB3 exampleEmptyNode).1.isSome = true
        ↔ addNodeErrorCause exampleNodeDup2 examplePathB3 exampleEmptyNode) := by
  constructor
  · intro hiff
    have h1 : (exampleNodeDup.addNode examplePathB3 exampleLeaf2).1 = none := rfl
    have h2 : addNodeErrorCause exampleNodeDup examplePathB3 exampleLeaf2 :=
      Or.inr (Or.inr (Or.inr ⟨(examplePathB2, exampleEmptyNode),
        List.mem_cons_of_mem _ (List.mem_cons_self _ _), by decide, by decide⟩))
    have h3 := hiff.2 h2
    rw [h1] at h3
    exact absurd h3 (by simp)
  · intro hiff
    have h1 : (exampleNodeDup2.addNode examplePathB3 exampleEmptyNode).1 = none := rfl
    have h2 : addNodeErrorCause exampleNodeDup2 examplePathB3 exampleEmptyNode :=
      Or.inr (Or.inr (Or.inr ⟨(examplePathB, exampleLeaf),
        List.mem_cons_of_mem _ (List.mem_cons_self _ _), by decide, by decide⟩))
    have h3 := hiff.2 h2
    rw [h1] at h3
    exact absurd h3 (by simp)

/-- C21, amended: `addNode` fails exactly on invalid input and is atomic. An error of
`addNode(p, c)` has one of the causes: `p` has an empty name, `p` has a key whose name is empty,
`c` is not valid (it is both struct and leaf, or a leaf with a subtree), or `t` holds an entry
whose key is structurally equal to `p` and whose leaf-ness differs from that of `c`. On a node
`t` in which no two subtree keys are structurally equal, `addNode(p, c)` returns an error if and
only if one of the causes holds. Whenever `addNode` returns an error, `t` is the same as before
the call. -/
theorem C21_addNode_error_iff (t : TreeNode) (p : PathElem) (c : TreeNode) :
    ((t.addNode p c).1.isSome = true → addNodeErrorCause t p c)
      ∧ (t.uniqueSiblingKeys →
          ((t.addNode p c).1.isSome = true ↔ addNodeErrorCause t p c))
      ∧ (∀ err t1, t.addNode p c = (some err, t1) → t1 = t)
      ∧ (c.IsValid = false
          ↔ (c.IsStruct = true ∧ c.IsLeaf = true)
            ∨ (c.IsLeaf = true ∧ c.subtree.isSome = true)) := by
  refine ⟨addNode_error_cause t p c,
    fun hu => ⟨addNode_error_cause t p c, addNode_error_of_cause t p c hu⟩,
    fun err t1 h => addNode_error t p c t1 err h, ?_⟩
  unfold TreeNode.IsValid
  cases c.IsStruct <;> cases c.IsLeaf <;> cases c.subtree.isSome <;> simp

/-- Witness of C21: the node that holds a leaf at `b` has no structurally equal keys; adding the
empty node at another element `b` gives the error of mismatched types, which is one of the
causes, and leaves the node as it was. -/
theorem C21_addNode_error_iff_witness :
    exampleNodeB.uniqueSiblingKeys
      ∧ exampleNodeB.addNode examplePathB2 exampleEmptyNode
          = (some (.mismatchedTypes false true), exampleNodeB)
      ∧ ((exampleNodeB.addNode examplePathB2 exampleEmptyNode).1.isSome = true
          ↔ addNodeErrorCause exampleNodeB examplePathB2 exampleEmptyNode) :=
  ⟨List.pairwise_singleton _ _, rfl,
    (C21_addNode_error_iff exampleNodeB examplePathB2 exampleEmptyNode).2.1
      (List.pairwise_singleton _ _)⟩

/-! ## C22: `Equal` is a symmetric relation that rejects nil -/

/-- C22: `Equal` is a symmetric relation that rejects nil. For every node `t`, `t.Equal(nil)`
is false; for nodes `t` and `c` in whose trees no node has two structurally equal subtree keys,
`t.Equal(c) = c.Equal(t)`; and `t.Equal(t)` is true for such a node `t`. The scalar values and
the struct references are compared by equality, which is symmetric. -/
theorem C22_Equal_symmetric (t c : TreeNode) :
    t.Equal none = false
      ∧ (uniqueKeys t → uniqueKeys c → t.Equal (some c) = c.Equal (some t))
      ∧ (uniqueKeys t → t.Equal (some t) = true) := by
  refine ⟨?_, Equal_symm t c, fun hu => Equal_refl_of_size (sizeOf t) t (Nat.le_refl _) hu⟩
  rw [TreeNode.Equal]

/-- Witness of C22: the example tree and its copy under other pointers have no structurally
equal sibling keys; the example tree is equal to the copy, so the copy is equal to the example
tree, and the example tree is equal to itself. -/
theorem C22_Equal_symmetric_witness :
    uniqueKeys exampleTree ∧ uniqueKeys exampleTreeCopy
      ∧ exampleTree.Equal (some exampleTreeCopy) = true
      ∧ exampleTreeCopy.Equal (some exampleTree) = true
      ∧ exampleTree.Equal (some exampleTree) = true :=
  ⟨uniqueKeys_exampleTree, uniqueKeys_exampleTreeCopy, Equal_exampleTree_copy,
    ((C22_Equal_symmetric exampleTree exampleTreeCopy).2.1 uniqueKeys_exampleTree
      uniqueKeys_exampleTreeCopy).symm.trans Equal_exampleTree_copy,
    (C22_Equal_symmetric exampleTree exampleTree).2.2 uniqueKeys_exampleTree⟩

/-! ## C25: sibling-key uniqueness is an invariant of `addNode` -/

/-- C25: sibling-key uniqueness is an invariant of `addNode`. For a node `t` whose subtree has
no two structurally equal keys, the subtree of `t` after `addNode(p, c)`, with a success or with
an error, has no two structurally equal keys. Hence a tree built by `addNode` and `addAllNodes`
alone, from nodes without a subtree and with children built in the same way, has no
structurally equal sibling keys at any node: at every node the walk reaches, at most one key is
structurally equal to a given path element. -/
theorem C25_sibling_key_uniqueness (t : TreeNode) (p : PathElem) (c : TreeNode)
    (hu : t.uniqueSiblingKeys) :
    (t.addNode p c).2.uniqueSiblingKeys
      ∧ (∀ b, builtByAdd b → uniqueKeys b)
      ∧ (∀ b, builtByAdd b → ∀ pp n, walk b pp = some n →
          ∀ q, (n.entries.filter (fun e => protoEqual e.1 q)).length ≤ 1) := by
  refine ⟨addNode_uniqueSiblingKeys t p c hu, uniqueKeys_of_builtByAdd, ?_⟩
  intro b hb pp n hw q
  have hn := walk_uniqueKeys pp b n (uniqueKeys_of_builtByAdd b hb) hw
  exact filter_length_le_one q n.entries (uniqueKeys_siblings n hn)

/-- Witness of C25: the node that holds a leaf at `b` has no structurally equal keys, and has
none after another element `b` is added. -/
theorem C25_sibling_key_uniqueness_witness :
    exampleNodeB.uniqueSiblingKeys
      ∧ (exampleNodeB.addNode examplePathB2 exampleLeaf2).2.uniqueSiblingKeys :=
  ⟨List.pairwise_singleton _ _,
    (C25_sibling_key_uniqueness exampleNodeB examplePathB2 exampleLeaf2
      (List.pairwise_singleton _ _)).1⟩

end Datatree
